import Mathlib

/-!
# read-marvell-fw: the scan / extract / validate loop

A shallow embedding of `Tools/read-marvell-fw.c`.

* Machine integers are natural numbers or integers with the truncation of the C type
  written out (`% 2 ^ 16` for `u16`, `% 2 ^ 32` for `u32`); `off_t` is a signed
  64-bit integer and is modelled by `Int`.
* The input file is a list of bytes; `read(fd, &r, 4)` assembles a word in the byte
  order of the host.
* Every system call on an output artifact (`open`, `write`, `close`, `rename`,
  `unlink`) and `lseek` on the input is recorded, in order, in a trace.  The value a
  call returns is taken from the environment `Env`, indexed by the length of the
  trace at the moment of the call, so every pattern of failures can be expressed.
* The diagnostics written to `stdout` / `stderr` are not modelled.
* Character buffers are unbounded strings (`outname` holds 20 bytes in C, enough for
  a counter of up to four digits).
-/

namespace ReadMarvellFw

/-! ## Constants and global variables -/

/-- The start marker `FW_START4`. -/
def FW_START4 : Nat := 0x10000000

/-- The end marker `FW_END`. -/
def FW_END : Nat := 0xaaaaaaaa

/-- The anonymous enumeration of the global `phy`. -/
inductive Phy where
  | X3310
  | E2010
  | UNKNOWN
  deriving DecidableEq, Repr

/-- Byte order of the machine the program runs on. -/
inductive ByteOrder where
  | little
  | big
  deriving DecidableEq, Repr

/-- A system call recorded in the trace, with the value it returned. -/
inductive Event where
  | openOut (name : String) (ret : Int)
  | write (fd : Int) (d : Nat) (ret : Int)
  | close (fd : Int)
  | rename (old new : String) (ret : Int)
  | unlink (name : String) (ret : Int)
  | lseek (off : Int)
  deriving DecidableEq, Repr

/-- The environment of a run: the byte order of the host and the value returned by
each system call, as a function of the number of calls recorded before it. -/
structure Env where
  host : ByteOrder
  open_ret : Nat → Int
  write_ret : Nat → Int
  rename_ret : Nat → Int
  unlink_ret : Nat → Int

/-- The global variables `version`, `version2`, `phy`, together with the trace of
system calls. Globals are zero-initialised in C, so `phy` starts as `X3310`. -/
structure World where
  version : Nat × Nat × Nat × Nat
  version2 : Nat
  phy : Phy
  log : List Event
  deriving DecidableEq, Repr

/-! ## byteswap_data -/

/-- The 16-bit byte exchange `__swab16`. -/
def swab16 (x : Nat) : Nat :=
  (((x &&& 0x00ff) <<< 8) ||| ((x &&& 0xff00) >>> 8)) % 2 ^ 16

/-- Modelled from the spec: the macro `__be16_to_cpu` of `<asm/byteorder.h>`, which is
not part of the sources. It converts a big-endian 16-bit value to host order: the
argument is cast to 16 bits, and the two bytes are exchanged on a little-endian host
and kept on a big-endian host. -/
def be16_to_cpu (h : ByteOrder) (x : Nat) : Nat :=
  match h with
  | .little => swab16 (x % 2 ^ 16)
  | .big => x % 2 ^ 16

/-- The function `byteswap_data`. -/
def byteswap_data (h : ByteOrder) (x : Nat) : Nat :=
  let lowdata := be16_to_cpu h (0xffff &&& x)
  let highdata := be16_to_cpu h (x >>> 16)
  ((highdata <<< 16) % 2 ^ 32) ||| lowdata

/-! ## write_output -/

/-- One call `write(f, &d, 1)`: the call is appended to the trace and its return
value is handed back. -/
def write1 (env : Env) (w : World) (f : Int) (d : Nat) : Int × World :=
  let l := env.write_ret w.log.length
  (l, { w with log := w.log ++ [Event.write f d l] })

/-- The header decoding at the start of `write_output`. -/
def decode (w : World) (oo : Int) (r : Nat) : World :=
  if oo = 0x120 then
    { w with version := ((r >>> 8) &&& 0xff, r &&& 0xff, (r >>> 24) &&& 0xff, (r >>> 16) &&& 0xff) }
  else if oo = 0x124 then
    let v := ((r &&& 0xff) <<< 8) % 2 ^ 16
    { w with version2 := (v ||| ((r >>> 8) &&& 0xff)) % 2 ^ 16 }
  else if oo = 0x138 then
    match (r >>> 8) &&& 0xff with
    | 1 => { w with phy := Phy.X3310 }
    | 3 => { w with phy := Phy.E2010 }
    | _ => { w with phy := Phy.UNKNOWN }
  else w

/-- The function `write_output`: returns `0` or `-2` and the new globals and trace. -/
def write_output (env : Env) (w : World) (f : Int) (oo : Int) (r : Nat) : Int × World :=
  let w := decode w oo r
  let l : Int := 0
  let d := (r >>> 8) &&& 0xff
  let p := write1 env w f d
  let l := l + p.1
  let d := r &&& 0xff
  let p := write1 env p.2 f d
  let l := l + p.1
  let d := (r >>> 24) &&& 0xff
  let p := write1 env p.2 f d
  let l := l + p.1
  let d := (r >>> 16) &&& 0xff
  let p := write1 env p.2 f d
  let l := l + p.1
  if l < 4 then (-2, p.2) else (0, p.2)

/-! ## Names of the artifacts -/

/-- The conversion `%d` of a non-negative integer. -/
def fmt_d (n : Nat) : String :=
  String.mk (Nat.toDigits 10 n)

/-- The conversion `%0<width>d` of a non-negative integer: `%d`, padded on the left
with zeros up to the minimum field width. -/
def fmt_0d (width n : Nat) : String :=
  String.mk (List.replicate (width - (Nat.toDigits 10 n).length) '0' ++ Nat.toDigits 10 n)

/-- The call `sprintf(&outname[11], "%03d.bin", nout)`: the first eleven characters
of `outname` are kept and the formatted text follows. -/
def sprintf_outname (outname : String) (nout : Nat) : String :=
  String.mk (outname.data.take 11) ++ fmt_0d 3 nout ++ ".bin"

/-- The label chosen by `phy == X3310 ? "x3310" : (phy == E2010 ? "e2010" : "unknw")`. -/
def phyLabel (p : Phy) : String :=
  if p = Phy.X3310 then "x3310" else (if p = Phy.E2010 then "e2010" else "unknw")

/-- The call `sprintf(outnamenew, "%sfw_%d_%d_%d_%d_%04d.hdr.new", ...)`. -/
def sprintf_outnamenew (w : World) : String :=
  phyLabel w.phy ++ "fw_" ++ fmt_d w.version.1 ++ "_" ++ fmt_d w.version.2.1 ++ "_"
    ++ fmt_d w.version.2.2.1 ++ "_" ++ fmt_d w.version.2.2.2 ++ "_"
    ++ fmt_0d 4 w.version2 ++ ".hdr.new"

/-! ## main -/

/-- The local variables of `main`, the offset of the input descriptor `fd` (`pos`) and
the globals. The variables `fdout`, `oo` and `outnamenew` have no initialiser in C and
are written before they are read; they start here as `0`, `0` and the empty string.
The unused local `i` is left out. -/
structure State where
  w : World
  pos : Nat
  fdout : Int
  ret : Int
  outname : String
  outnamenew : String
  nout : Nat
  r : Nat
  r_old : Nat
  fw_len : Nat
  o : Int
  oo : Int
  o_start : Int
  in_fw : Nat
  deriving DecidableEq, Repr

/-- The state at the first evaluation of the loop condition. -/
def init : State :=
  { w := { version := (0, 0, 0, 0), version2 := 0, phy := Phy.X3310, log := [] }
    pos := 0
    fdout := 0
    ret := 0
    outname := "marvell_fw_000.bin"
    outnamenew := ""
    nout := 0
    r := 0
    r_old := 0
    fw_len := 0
    o := 0
    oo := 0
    o_start := 0
    in_fw := 0 }

/-- What one evaluation of the loop condition and body leads to: the next evaluation
of the loop condition, or the return of `main` with a status. -/
inductive Outcome where
  | next (s : State)
  | ret (code : Int) (s : State)
  deriving DecidableEq, Repr

/-- The four bytes at offset `pos` of the input as a `u32` of the host, as
`read(fd, &r, 4) == 4` delivers them; `none` when fewer than four bytes are left. -/
def readWord (h : ByteOrder) (src : List Nat) (pos : Nat) : Option Nat :=
  match src.drop pos with
  | b0 :: b1 :: b2 :: b3 :: _ =>
    match h with
    | .little => some (b0 % 256 + 256 * (b1 % 256) + 65536 * (b2 % 256) + 16777216 * (b3 % 256))
    | .big => some (b3 % 256 + 256 * (b2 % 256) + 65536 * (b1 % 256) + 16777216 * (b0 % 256))
  | _ => none

/-- The call `lseek(fd, off, SEEK_SET)`: a negative offset is refused and leaves the
position where it was. -/
def lseek_set (pos : Nat) (off : Int) : Nat :=
  if 0 ≤ off then off.toNat else pos

/-- The branch `if (r == FW_END)` of the loop body, entered after the end marker has
been written and `oo` advanced. -/
def end_of_fw (env : Env) (s : State) : Outcome :=
  let s := { s with w := { s.w with log := s.w.log ++ [Event.close s.fdout] } }
  let s := { s with in_fw := 0 }
  let s := { s with outnamenew := sprintf_outnamenew s.w }
  let s := { s with fw_len := byteswap_data env.host s.r_old }
  if (((s.fw_len + 32) % 2 ^ 32 : Nat) : Int) = s.oo then
    let ret := env.rename_ret s.w.log.length
    let s := { s with ret := ret,
                      w := { s.w with log := s.w.log ++ [Event.rename s.outname s.outnamenew ret] } }
    Outcome.next { s with o := s.o + 4 }
  else
    let ret := env.unlink_ret s.w.log.length
    let s := { s with ret := ret,
                      w := { s.w with log := s.w.log ++ [Event.unlink s.outname ret] } }
    let s := { s with pos := lseek_set s.pos (s.o_start + 8),
                      w := { s.w with log := s.w.log ++ [Event.lseek (s.o_start + 8)] } }
    Outcome.next { s with o := s.o_start + 8 }

/-- The body of the `while` loop, for the word `s.r` that was just read. -/
def body (env : Env) (s : State) : Outcome :=
  if s.in_fw = 0 then
    if s.r = FW_START4 then
      let s := { s with outname := sprintf_outname s.outname s.nout }
      let s := { s with o_start := s.o - 4 }
      let s := { s with nout := s.nout + 1 }
      let s := { s with in_fw := s.in_fw + 1 }
      let s := { s with oo := 0 }
      let fdout := env.open_ret s.w.log.length
      let s := { s with fdout := fdout,
                        w := { s.w with log := s.w.log ++ [Event.openOut s.outname fdout] } }
      if s.fdout < 0 then Outcome.ret 1 s
      else
        let p := write_output env s.w s.fdout s.oo s.r_old
        let s := { s with w := p.2 }
        if p.1 < 0 then Outcome.ret 2 s
        else
          let s := { s with oo := s.oo + 4 }
          let p := write_output env s.w s.fdout s.oo s.r
          let s := { s with w := p.2 }
          if p.1 < 0 then Outcome.ret 2 s
          else
            let s := { s with oo := s.oo + 4 }
            Outcome.next { s with o := s.o + 4 }
    else
      let s := { s with r_old := s.r }
      Outcome.next { s with o := s.o + 4 }
  else
    let p := write_output env s.w s.fdout s.oo s.r
    let s := { s with w := p.2 }
    if p.1 < 0 then Outcome.ret 2 s
    else
      let s := { s with oo := s.oo + 4 }
      if s.r = FW_END then end_of_fw env s
      else Outcome.next { s with o := s.o + 4 }

/-- The code after the loop: the `if (in_fw)` clean-up and `return ret`. -/
def epilogue (env : Env) (s : State) : Outcome :=
  if s.in_fw ≠ 0 then
    let ret := env.unlink_ret s.w.log.length
    let s := { s with ret := ret,
                      w := { s.w with log := s.w.log ++ [Event.unlink s.outname ret] } }
    Outcome.ret s.ret s
  else Outcome.ret s.ret s

/-- One evaluation of the loop condition `read(fd, &r, 4) == 4`, followed by the loop
body, or by the code after the loop when the read comes up short. -/
def iteration (env : Env) (src : List Nat) (s : State) : Outcome :=
  match readWord env.host src s.pos with
  | some r => body env { s with r := r, pos := s.pos + 4 }
  | none => epilogue env s

/-- The `while` loop with a bound on the number of evaluations of its condition;
`none` when the bound is used up. -/
def loop (env : Env) (src : List Nat) : Nat → State → Option (Int × State)
  | 0, _ => none
  | fuel + 1, s =>
    match iteration env src s with
    | Outcome.next s' => loop env src fuel s'
    | Outcome.ret code s' => some (code, s')

/-- The loop after at most `n` evaluations of its condition: the state at the next
evaluation, or the return of `main` if it was reached. -/
def iterations (env : Env) (src : List Nat) : Nat → State → Outcome
  | 0, s => Outcome.next s
  | n + 1, s =>
    match iteration env src s with
    | Outcome.next s' => iterations env src n s'
    | Outcome.ret code s' => Outcome.ret code s'

/-- The state carried by an outcome. -/
def Outcome.state : Outcome → State
  | Outcome.next s => s
  | Outcome.ret _ s => s

/-- A number of evaluations of the loop condition that is never exceeded on an input
of `n` bytes. -/
def fuelBound (n : Nat) : Nat :=
  (n / 4) * (n / 4 + 1) + 1

/-- The scan of an opened input: `main` from the `while` loop on. -/
def scan (env : Env) (src : List Nat) : Option (Int × State) :=
  loop env src (fuelBound src.length) init

/-- The function `main`: `argc` is the argument count and `input` the content of the
file named by `argv[1]`, `none` when it cannot be opened. -/
def main (env : Env) (argc : Nat) (input : Option (List Nat)) : Option (Int × State) :=
  if argc < 2 then some (1, init)
  else
    match input with
    | none => some (1, init)
    | some src => scan env src

/-! ## Inputs given as sequences of words -/

/-- The four bytes that hold the `u32` value `w` in a file read on host `h`. -/
def wordBytes (h : ByteOrder) (w : Nat) : List Nat :=
  match h with
  | .little => [w % 256, w / 256 % 256, w / 65536 % 256, w / 16777216 % 256]
  | .big => [w / 16777216 % 256, w / 65536 % 256, w / 256 % 256, w % 256]

/-- The bytes of a file that host `h` reads as the sequence of words `ws`. -/
def bytesOfWords (h : ByteOrder) : List Nat → List Nat
  | [] => []
  | w :: ws => wordBytes h w ++ bytesOfWords h ws

/-- An environment in which every `open` of an output artifact succeeds and every
`write` of one byte returns `1`. -/
def Env.ioOk (env : Env) : Prop :=
  (∀ i, 0 ≤ env.open_ret i) ∧ (∀ i, env.write_ret i = 1)

/-! ## Notions used to state the properties -/

/-- Byte `k` of a word, byte `0` being the least significant one. -/
def byteAt (k r : Nat) : Nat :=
  (r >>> (8 * k)) &&& 0xff

/-- The full reversal of the four bytes of a word. -/
def reverse4 (x : Nat) : Nat :=
  (byteAt 0 x <<< 24) ||| (byteAt 1 x <<< 16) ||| (byteAt 2 x <<< 8) ||| byteAt 3 x

/-- The four `write` calls by which `write_output` emits the word `r` on descriptor
`f`, each returning `1`. -/
def wordEvents (f : Int) (r : Nat) : List Event :=
  [Event.write f (byteAt 1 r) 1, Event.write f (byteAt 0 r) 1,
   Event.write f (byteAt 3 r) 1, Event.write f (byteAt 2 r) 1]

/-- The trace contains a `rename` of the artifact `name`. -/
def renamed (log : List Event) (name : String) : Prop :=
  ∃ new ret, Event.rename name new ret ∈ log

/-- The label of a device type in a final name. -/
def deviceLabel (p : Phy) : String :=
  match p with
  | Phy.X3310 => "x3310"
  | Phy.E2010 => "e2010"
  | Phy.UNKNOWN => "unknw"

/-- The value of a decimal digit character. -/
def digitVal (c : Char) : Nat :=
  c.toNat - 48

/-- The number written by a sequence of decimal digits. -/
def parseDec (cs : List Char) : Nat :=
  cs.foldl (fun a c => 10 * a + digitVal c) 0

/-- Reads a decimal field: the longest run of digits at the head of `cs`, which must
not be empty, and what follows it. -/
def parseField (cs : List Char) : Option (Nat × List Char) :=
  let ds := cs.takeWhile Char.isDigit
  if ds = [] then none else some (parseDec ds, cs.dropWhile Char.isDigit)

/-- Reads the separator `_`. -/
def parseSep (cs : List Char) : Option (List Char) :=
  match cs with
  | c :: rest => if c = '_' then some rest else none
  | [] => none

/-- Parses a final name back: after the five characters of the label and `fw_`, four
decimal fields each followed by `_`, a fifth decimal field, and `.hdr.new`. -/
def parseFinalName (name : String) : Option (Nat × Nat × Nat × Nat × Nat) :=
  (parseField (name.data.drop 8)).bind fun f0 =>
  (parseSep f0.2).bind fun c0 =>
  (parseField c0).bind fun f1 =>
  (parseSep f1.2).bind fun c1 =>
  (parseField c1).bind fun f2 =>
  (parseSep f2.2).bind fun c2 =>
  (parseField c2).bind fun f3 =>
  (parseSep f3.2).bind fun c3 =>
  (parseField c3).bind fun f4 =>
  if f4.2 = ".hdr.new".data then some (f0.1, f1.1, f2.1, f3.1, f4.1) else none

/-- The decimal numeral of `n` without leading zeros. -/
def dec (n : Nat) : String :=
  Nat.repr n

/-- The decimal numeral of `n`, with zeros in front when it has fewer than `width`
digits. -/
def decPadded (width n : Nat) : String :=
  String.mk (List.replicate (width - (dec n).length) '0') ++ dec n

/-- The words `ws` are what successive reads deliver from offset `pos` of `src` on. -/
def WordsAt (h : ByteOrder) (src : List Nat) : Nat → List Nat → Prop
  | _, [] => True
  | pos, w :: ws => readWord h src pos = some w ∧ WordsAt h src (pos + 4) ws

/-- Every element of the list is a 32-bit value. -/
def AllU32 (ws : List Nat) : Prop :=
  ∀ w ∈ ws, w < 2 ^ 32

/-- An environment in which every call succeeds, used for concrete runs: `open` returns
descriptor `3`, `write` returns `1`, `rename` and `unlink` return `0`. -/
def envOk (h : ByteOrder) : Env :=
  { host := h
    open_ret := fun _ => 3
    write_ret := fun _ => 1
    rename_ret := fun _ => 0
    unlink_ret := fun _ => 0 }

/-- The state after the words `ws`, none of them the start marker, have been read in
the scanning state. -/
def skipWords (s : State) (ws : List Nat) : State :=
  ws.foldl (fun s r => { s with r := r, pos := s.pos + 4, r_old := r, o := s.o + 4 }) s

/-- The state after the words `ws`, none of them the end marker, have been read and
written in the capturing state, every `write` returning `1`. -/
def captureWords (s : State) (ws : List Nat) : State :=
  ws.foldl (fun s r => { s with
      r := r, pos := s.pos + 4,
      w := { decode s.w s.oo r with log := s.w.log ++ wordEvents s.fdout r },
      oo := s.oo + 4, o := s.o + 4 }) s

/-- The state after a start marker has been matched in the scanning state, the `open`
and every `write` having succeeded. -/
def startSession (env : Env) (s : State) : State :=
  { s with
    r := FW_START4, pos := s.pos + 4,
    outname := sprintf_outname s.outname s.nout,
    o_start := s.o - 4, nout := s.nout + 1, in_fw := 1, oo := 8,
    fdout := env.open_ret s.w.log.length,
    w := { s.w with log := s.w.log
            ++ [Event.openOut (sprintf_outname s.outname s.nout) (env.open_ret s.w.log.length)]
            ++ wordEvents (env.open_ret s.w.log.length) s.r_old
            ++ wordEvents (env.open_ret s.w.log.length) FW_START4 },
    o := s.o + 4 }

/-- The provisional name with counter `k`. -/
def provisionalName (k : Nat) : String :=
  "marvell_fw_" ++ fmt_0d 3 k ++ ".bin"

/-- Facts that hold at every evaluation of the loop condition: the tracked offset `o`
is the position of the input, which is a multiple of four; while capturing, the
recovery point `o_start + 8` is at least `4`, not beyond the position and a multiple
of four, and `outname` is the provisional name of the last counter handed out. -/
def Inv (s : State) : Prop :=
  s.o = (s.pos : Int)
    ∧ s.pos % 4 = 0
    ∧ s.outname.data.take 11 = "marvell_fw_".data
    ∧ (s.in_fw ≠ 0 →
        4 ≤ s.o_start + 8 ∧ s.o_start + 8 ≤ s.o ∧ s.o_start % 4 = 0 ∧ 1 ≤ s.nout
          ∧ s.outname = provisionalName (s.nout - 1))

/-- The number of whole words of an input of `n` bytes from offset `pos` on. -/
def remWords (n pos : Nat) : Nat :=
  (n - pos) / 4

/-- A bound on the number of evaluations of the loop condition still to come on an
input of `n` bytes. -/
def potential (n : Nat) (s : State) : Nat :=
  if s.in_fw = 0 then remWords n s.pos * (remWords n s.pos + 1) + 1
  else remWords n (s.o_start + 8).toNat * (remWords n (s.o_start + 8).toNat + 1)
    + remWords n s.pos + 2

/-- The globals after the words `ws` have gone through the header decoding of
`write_output` at the payload offsets `oo`, `oo + 4`, ...; the trace is left as it is. -/
def decodeWords : World → Int → List Nat → World
  | w, _, [] => w
  | w, oo, r :: ws => decodeWords (decode w oo r) (oo + 4) ws

/-- The `write` calls by which the words `ws` are emitted on descriptor `f`. -/
def payloadEvents (f : Int) : List Nat → List Event
  | [] => []
  | r :: ws => wordEvents f r ++ payloadEvents f ws

/-- The names of the artifacts opened in a trace, in order. -/
def openedNames : List Event → List String
  | [] => []
  | Event.openOut name _ :: evs => name :: openedNames evs
  | _ :: evs => openedNames evs

/-- The last word of `ws`, or `d` when there is none. -/
def lastWord (d : Nat) : List Nat → Nat
  | [] => d
  | r :: ws => lastWord r ws

/-- The trace of one capture: the `open` of the artifact, the `write` calls of the
payload words and the `close`. -/
def sessionEvents (name : String) (fd : Int) (payload : List Nat) : List Event :=
  Event.openOut name fd :: payloadEvents fd payload ++ [Event.close fd]

/-- The artifact an event creates, renames or deletes. -/
def Event.artifact : Event → Option String
  | Event.openOut name _ => some name
  | Event.rename old _ _ => some old
  | Event.unlink name _ => some name
  | _ => none

/-- Every artifact touched in `evs` is a provisional name with a counter of at least
`k`. -/
def LaterNames (k : Nat) (evs : List Event) : Prop :=
  ∀ e ∈ evs, ∀ name, e.artifact = some name → ∃ j, k ≤ j ∧ name = provisionalName j

/-- The counters below `k` are used up: `k` counters have been handed out, and the
session in progress, if any, does not use one of them. -/
def Fresh (k : Nat) (s : State) : Prop :=
  k ≤ s.nout ∧ (s.in_fw ≠ 0 → k < s.nout)

/-- The four `write` calls of `write_output` for the word `r`, issued when the trace
has `n` entries, with the values the environment returns. -/
def writeEvents (env : Env) (n : Nat) (f : Int) (r : Nat) : List Event :=
  [Event.write f ((r >>> 8) &&& 0xff) (env.write_ret n),
   Event.write f (r &&& 0xff) (env.write_ret (n + 1)),
   Event.write f ((r >>> 24) &&& 0xff) (env.write_ret (n + 2)),
   Event.write f ((r >>> 16) &&& 0xff) (env.write_ret (n + 3))]

/-- The events that one evaluation of the loop condition and body appends to the
trace of `s`. -/
def newEvents (env : Env) (src : List Nat) (s : State) : List Event :=
  ((iteration env src s).state.w.log).drop s.w.log.length

/-- A small input for concrete runs on a little-endian host: the words `0`, start
marker, end marker. -/
def exampleSrc : List Nat :=
  bytesOfWords ByteOrder.little [0, FW_START4, FW_END]

/-- The state of the run on `exampleSrc` after two evaluations of the loop condition:
capturing, with the end marker as the next word. -/
def exampleCapturing : State :=
  (iterations (envOk ByteOrder.little) exampleSrc 2 init).state

/-- The state in which `end_of_fw` is entered at the end of a session that started in
the scanning state `s` and captured the words `body` before the end marker, the `open`
and every `write` having succeeded. -/
def endState (env : Env) (s : State) (body : List Nat) : State :=
  { s with
    r := FW_END, pos := s.pos + 4 * (body.length + 2), o := s.o + 4 * (body.length + 1),
    outname := sprintf_outname s.outname s.nout,
    o_start := s.o - 4, nout := s.nout + 1, in_fw := 1,
    oo := 4 * (body.length + 3),
    fdout := env.open_ret s.w.log.length,
    w := { decodeWords s.w 8 (body ++ [FW_END]) with
           log := s.w.log
            ++ (Event.openOut (sprintf_outname s.outname s.nout)
                  (env.open_ret s.w.log.length)
                :: payloadEvents (env.open_ret s.w.log.length)
                    (s.r_old :: FW_START4 :: body ++ [FW_END])) } }

/-- The state after `end_of_fw` when the length check passes. -/
def commitState (env : Env) (s : State) : State :=
  { s with
    in_fw := 0,
    outnamenew := sprintf_outnamenew s.w,
    fw_len := byteswap_data env.host s.r_old,
    ret := env.rename_ret (s.w.log.length + 1),
    w := { s.w with log := s.w.log ++ [Event.close s.fdout]
            ++ [Event.rename s.outname (sprintf_outnamenew s.w)
                  (env.rename_ret (s.w.log.length + 1))] },
    o := s.o + 4 }

/-- The state after `end_of_fw` when the length check fails. -/
def mismatchState (env : Env) (s : State) : State :=
  { s with
    in_fw := 0,
    outnamenew := sprintf_outnamenew s.w,
    fw_len := byteswap_data env.host s.r_old,
    ret := env.unlink_ret (s.w.log.length + 1),
    pos := lseek_set s.pos (s.o_start + 8),
    w := { s.w with log := s.w.log ++ [Event.close s.fdout]
            ++ [Event.unlink s.outname (env.unlink_ret (s.w.log.length + 1))]
            ++ [Event.lseek (s.o_start + 8)] },
    o := s.o_start + 8 }

/-- The number of bytes written to the artifact opened last: the sum of the values
returned by the `write` calls since its `open`. -/
def sessionBytes (log : List Event) : Int :=
  log.foldl (fun n e =>
    match e with
    | Event.openOut _ _ => 0
    | Event.write _ _ ret => n + ret
    | _ => n) 0

/-- While capturing, the word at offset `o_start + 4` of the input is the start marker:
the one that opened the session in progress. -/
def MarkerAt (env : Env) (src : List Nat) (s : State) : Prop :=
  s.in_fw ≠ 0 → readWord env.host src (s.o_start + 4).toNat = some FW_START4

/-- The value returned by the last `rename` or `unlink` call of a trace, `0` when
there is none. -/
def lastStatus (log : List Event) : Int :=
  log.foldl (fun c e =>
    match e with
    | Event.rename _ _ ret => ret
    | Event.unlink _ ret => ret
    | _ => c) 0

/-- An environment for concrete runs on a little-endian host in which the call issued
when the trace has `34` entries fails if it is a `rename`, and every other call
succeeds. -/
def envFirstRenameFails : Env :=
  { host := ByteOrder.little
    open_ret := fun _ => 3
    write_ret := fun _ => 1
    rename_ret := fun i => if i = 34 then -1 else 0
    unlink_ret := fun _ => 0 }

/-- Two payloads of eight words each, both with a declared length that matches. -/
def twoValidPayloads : List Nat :=
  bytesOfWords ByteOrder.little
    [0, FW_START4, 1, 2, 3, 4, 5, FW_END, 0, FW_START4, 1, 2, 3, 4, 5, FW_END]

/-- Three payloads of eight words each, all with a declared length that matches and
none long enough to reach the header fields. -/
def threeValidPayloads : List Nat :=
  bytesOfWords ByteOrder.little
    [0, FW_START4, 1, 2, 3, 4, 5, FW_END, 0, FW_START4, 1, 2, 3, 4, 5, FW_END,
     0, FW_START4, 1, 2, 3, 4, 5, FW_END]

/-- Every artifact touched in `log` is a provisional name with a counter below `k`,
and every `rename` in `log` has a final name as its target. -/
def TraceNames (k : Nat) (log : List Event) : Prop :=
  ∀ e ∈ log, (∀ name, e.artifact = some name → ∃ j, j < k ∧ name = provisionalName j)
    ∧ (∀ old new r, e = Event.rename old new r → ∃ w, new = sprintf_outnamenew w)

/-- An input that ends inside a session, as read on a little-endian host: the words
`0`, start marker, `1`, `2`. -/
def prematureSrc : List Nat :=
  bytesOfWords ByteOrder.little [0, FW_START4, 1, 2]

/-- The offset from which start markers can still open a session: the position of the
input while scanning, the recovery point `o_start + 8` while capturing. -/
def frontier (s : State) : Nat :=
  if s.in_fw = 0 then s.pos else (s.o_start + 8).toNat

/-- The offsets of the start markers that open a session during at most `n`
evaluations of the loop condition from the state `s` on, in the order in which they
are read. -/
def sessionStarts (env : Env) (src : List Nat) : Nat → State → List Nat
  | 0, _ => []
  | n + 1, s =>
    let here :=
      if s.in_fw = 0 ∧ readWord env.host src s.pos = some FW_START4 then [s.pos] else []
    match iteration env src s with
    | Outcome.next s' => here ++ sessionStarts env src n s'
    | Outcome.ret _ _ => here

/-- An input whose only session fails the length check after one payload word, as read
on a little-endian host: the words `0`, start marker, `1`, end marker. -/
def recoverySrc : List Nat :=
  bytesOfWords ByteOrder.little [0, FW_START4, 1, FW_END]

/-- The decoded metadata among the globals: version bytes, secondary field and device
type. -/
def metadata (w : World) : (Nat × Nat × Nat × Nat) × Nat × Phy :=
  (w.version, w.version2, w.phy)

/-- The calls of `write_output` made by one evaluation of the loop condition and body
from the state `s`, each given by its payload offset and its word, in order. -/
def callsOf (env : Env) (src : List Nat) (s : State) : List (Int × Nat) :=
  match readWord env.host src s.pos with
  | none => []
  | some r =>
    if s.in_fw = 0 then
      if r = FW_START4 then
        let fdout := env.open_ret s.w.log.length
        let w := { s.w with
                   log := s.w.log ++ [Event.openOut (sprintf_outname s.outname s.nout) fdout] }
        if fdout < 0 then []
        else if (write_output env w fdout 0 s.r_old).1 < 0 then [(0, s.r_old)]
        else [(0, s.r_old), (4, FW_START4)]
      else []
    else [(s.oo, r)]

/-- The calls of `write_output` made during at most `n` evaluations of the loop
condition from the state `s` on, in order. -/
def runCalls (env : Env) (src : List Nat) : Nat → State → List (Int × Nat)
  | 0, _ => []
  | n + 1, s =>
    match iteration env src s with
    | Outcome.next s' => callsOf env src s ++ runCalls env src n s'
    | Outcome.ret _ _ => callsOf env src s

/-- The globals after the header decoding of a sequence of calls of `write_output`. -/
def applyCalls (w : World) (cs : List (Int × Nat)) : World :=
  cs.foldl (fun g c => decode g c.1 c.2) w

/-- The word of the most recent call at payload offset `off`, if there is one. -/
def lastCall (off : Int) (cs : List (Int × Nat)) : Option Nat :=
  cs.foldl (fun a c => if c.1 = off then some c.2 else a) none

/-- The version bytes after the calls `cs`: set by the most recent call at payload
offset `0x120`, or `(0, 0, 0, 0)` when there is none. -/
def versionAfter (cs : List (Int × Nat)) : Nat × Nat × Nat × Nat :=
  match lastCall 0x120 cs with
  | some r => (byteAt 1 r, byteAt 0 r, byteAt 3 r, byteAt 2 r)
  | none => (0, 0, 0, 0)

/-- The secondary field after the calls `cs`: set by the most recent call at payload
offset `0x124`, or `0` when there is none. -/
def version2After (cs : List (Int × Nat)) : Nat :=
  match lastCall 0x124 cs with
  | some r => (byteAt 0 r <<< 8) ||| byteAt 1 r
  | none => 0

/-- The device type after the calls `cs`: set by the most recent call at payload
offset `0x138`, or `X3310` when there is none. -/
def phyAfter (cs : List (Int × Nat)) : Phy :=
  match lastCall 0x138 cs with
  | some r =>
    (match byteAt 1 r with
     | 1 => Phy.X3310
     | 3 => Phy.E2010
     | _ => Phy.UNKNOWN)
  | none => Phy.X3310

/-- One payload of eight words with a declared length that matches, as read on a
little-endian host. -/
def oneValidPayload : List Nat :=
  bytesOfWords ByteOrder.little [0, FW_START4, 1, 2, 3, 4, 5, FW_END]

/-- The iteration from the state `s` ends a session whose length check passes: `s` is
capturing, the word read is the end marker, its `write_output` succeeds, and
`(byteswap_data(r_old) + 32) mod 2^32` equals `oo` after that write. -/
def CommitsAt (env : Env) (src : List Nat) (s : State) : Prop :=
  s.in_fw ≠ 0 ∧ readWord env.host src s.pos = some FW_END
    ∧ 0 ≤ (write_output env s.w s.fdout s.oo FW_END).1
    ∧ (((byteswap_data env.host s.r_old + 32) % 2 ^ 32 : Nat) : Int) = s.oo + 4

/-- Three payloads of eight words each with a declared length that matches, and
between the first and the second a session of three words that fails the length check,
as read on a little-endian host. -/
def threeValidOneFailed : List Nat :=
  bytesOfWords ByteOrder.little
    [0, FW_START4, 1, 2, 3, 4, 5, FW_END, 7, FW_START4, FW_END,
     0, FW_START4, 1, 2, 3, 4, 5, FW_END, 0, FW_START4, 1, 2, 3, 4, 5, FW_END]

/-! ## Bit-level lemmas -/

theorem testBit_false_of_lt (c k i : Nat) (hc : c < 2 ^ k) (hk : k ≤ i) :
    c.testBit i = false :=
  Nat.testBit_lt_two_pow (lt_of_lt_of_le hc (Nat.pow_le_pow_right (by decide) hk))

theorem testBit_ff (i : Nat) : Nat.testBit 0xff i = decide (i < 8) :=
  Nat.testBit_two_pow_sub_one 8 i

theorem testBit_ffff (i : Nat) : Nat.testBit 0xffff i = decide (i < 16) :=
  Nat.testBit_two_pow_sub_one 16 i

theorem testBit_ff00 (i : Nat) :
    Nat.testBit 0xff00 i = (decide (8 ≤ i) && decide (i < 16)) := by
  have h : (0xff00 : Nat) = 0xff <<< 8 := by decide
  rw [h, Nat.testBit_shiftLeft, testBit_ff]
  by_cases h8 : 8 ≤ i
  · have h2 : (i - 8 < 8) = (i < 16) := by simp; omega
    simp [h8, h2]
  · simp [h8]

theorem testBit_00ff00ff (i : Nat) :
    Nat.testBit 0x00ff00ff i = (decide (i < 8) || (decide (16 ≤ i) && decide (i < 24))) := by
  have h : (0x00ff00ff : Nat) = 0xff ||| (0xff <<< 16) := by decide
  rw [h, Nat.testBit_or, Nat.testBit_shiftLeft, testBit_ff, testBit_ff]
  by_cases h8 : 16 ≤ i
  · have h1 : ¬ i < 8 := by omega
    have h2 : (i - 16 < 8) = (i < 24) := by simp; omega
    simp [h8, h1, h2]
  · simp [h8]

theorem byteswap_data_little_eq (x : Nat) (hx : x < 2 ^ 32) :
    byteswap_data ByteOrder.little x
      = ((x &&& 0x00ff00ff) <<< 8) ||| ((x >>> 8) &&& 0x00ff00ff) := by
  apply Nat.eq_of_testBit_eq
  intro i
  simp only [byteswap_data, be16_to_cpu, swab16, Nat.testBit_and, Nat.testBit_or,
    Nat.testBit_shiftLeft, Nat.testBit_shiftRight, Nat.testBit_mod_two_pow, testBit_ff,
    testBit_ffff, testBit_ff00, testBit_00ff00ff]
  by_cases hi : i < 32
  · interval_cases i <;> simp
  · have h1 : ∀ j, 32 ≤ j → x.testBit j = false :=
      fun j hj => testBit_false_of_lt x 32 _ hx hj
    have a1 : ¬ i < 16 := by omega
    have a2 : ¬ i - 8 < 8 := by omega
    have a3 : ¬ i - 8 < 24 := by omega
    have a4 : ¬ i < 8 := by omega
    have a5 : ¬ i < 24 := by omega
    simp [hi, a1, a2, a3, a4, a5]

theorem byteswap_data_lt (h : ByteOrder) (x : Nat) : byteswap_data h x < 2 ^ 32 := by
  have hlow : be16_to_cpu h (0xffff &&& x) < 2 ^ 32 := by
    have : be16_to_cpu h (0xffff &&& x) < 2 ^ 16 := by
      cases h <;> simp only [be16_to_cpu, swab16] <;> exact Nat.mod_lt _ (by decide)
    omega
  exact Nat.or_lt_two_pow (Nat.mod_lt _ (by decide)) hlow

theorem byteswap_data_big_eq (x : Nat) (hx : x < 2 ^ 32) :
    byteswap_data ByteOrder.big x = x := by
  apply Nat.eq_of_testBit_eq
  intro i
  simp only [byteswap_data, be16_to_cpu, Nat.testBit_and, Nat.testBit_or,
    Nat.testBit_shiftLeft, Nat.testBit_shiftRight, Nat.testBit_mod_two_pow, testBit_ffff]
  by_cases hi : i < 32
  · interval_cases i <;> simp
  · have h1 : x.testBit i = false := testBit_false_of_lt x 32 _ hx (by omega)
    simp [hi, h1]

theorem byteswap_data_little_twice (x : Nat) (hx : x < 2 ^ 32) :
    byteswap_data ByteOrder.little (byteswap_data ByteOrder.little x) = x := by
  rw [byteswap_data_little_eq _ (byteswap_data_lt _ _), byteswap_data_little_eq x hx]
  apply Nat.eq_of_testBit_eq
  intro i
  simp only [Nat.testBit_and, Nat.testBit_or, Nat.testBit_shiftLeft, Nat.testBit_shiftRight,
    testBit_00ff00ff]
  by_cases hi : i < 32
  · interval_cases i <;> simp
  · have h1 : ∀ j, 32 ≤ j → x.testBit j = false :=
      fun j hj => testBit_false_of_lt x 32 _ hx hj
    have a2 : ¬ i - 8 < 8 := by omega
    have a3 : ¬ i - 8 < 24 := by omega
    have a4 : ¬ i < 8 := by omega
    have a5 : ¬ i < 24 := by omega
    have e1 : x.testBit i = false := h1 i (by omega)
    simp [hi, a2, a3, a4, a5, e1]

theorem byteAt_byteswap_little (x : Nat) (hx : x < 2 ^ 32) :
    byteAt 0 (byteswap_data ByteOrder.little x) = byteAt 1 x
      ∧ byteAt 1 (byteswap_data ByteOrder.little x) = byteAt 0 x
      ∧ byteAt 2 (byteswap_data ByteOrder.little x) = byteAt 3 x
      ∧ byteAt 3 (byteswap_data ByteOrder.little x) = byteAt 2 x := by
  rw [byteswap_data_little_eq x hx]
  refine ⟨?_, ?_, ?_, ?_⟩ <;>
  · apply Nat.eq_of_testBit_eq
    intro i
    simp only [byteAt, Nat.testBit_and, Nat.testBit_or, Nat.testBit_shiftLeft,
      Nat.testBit_shiftRight, testBit_00ff00ff, testBit_ff]
    by_cases hi : i < 8
    · interval_cases i <;> simp
    · simp [hi]

/-! ## Lemmas on decimal numerals -/

theorem digitChar_isDigit (d : Nat) (hd : d < 10) : (Nat.digitChar d).isDigit = true := by
  interval_cases d <;> decide

theorem digitVal_digitChar (d : Nat) (hd : d < 10) : digitVal (Nat.digitChar d) = d := by
  interval_cases d <;> decide

theorem toDigitsCore_all_digits (fuel : Nat) :
    ∀ (n : Nat) (ds : List Char), (∀ c ∈ ds, c.isDigit = true) →
      ∀ c ∈ Nat.toDigitsCore 10 fuel n ds, c.isDigit = true := by
  induction fuel with
  | zero => intro n ds h; simpa [Nat.toDigitsCore] using h
  | succ fuel ih =>
    intro n ds h
    have hd : (Nat.digitChar (n % 10)).isDigit = true :=
      digitChar_isDigit _ (Nat.mod_lt _ (by decide))
    have h' : ∀ c ∈ Nat.digitChar (n % 10) :: ds, c.isDigit = true := by
      intro c hc
      rcases List.mem_cons.1 hc with rfl | hc
      · exact hd
      · exact h c hc
    simp only [Nat.toDigitsCore]
    split
    · exact h'
    · exact ih _ _ h'

theorem toDigitsCore_ne_nil (fuel n : Nat) (ds : List Char) (hf : 0 < fuel) :
    Nat.toDigitsCore 10 fuel n ds ≠ [] := by
  induction fuel generalizing n ds with
  | zero => omega
  | succ fuel ih =>
    simp only [Nat.toDigitsCore]
    split
    · simp
    · cases fuel with
      | zero => simp [Nat.toDigitsCore]
      | succ k => exact ih _ _ (by omega)

theorem foldl_toDigitsCore (fuel : Nat) :
    ∀ (n : Nat) (ds : List Char), n < fuel →
      (Nat.toDigitsCore 10 fuel n ds).foldl (fun a c => 10 * a + digitVal c) 0
        = ds.foldl (fun a c => 10 * a + digitVal c) n := by
  induction fuel with
  | zero => intro n ds h; omega
  | succ fuel ih =>
    intro n ds h
    have hv : digitVal (Nat.digitChar (n % 10)) = n % 10 :=
      digitVal_digitChar _ (Nat.mod_lt _ (by decide))
    simp only [Nat.toDigitsCore]
    split
    · simp only [List.foldl_cons, hv]
      congr 1
      omega
    · rw [ih _ _ (by omega)]
      simp only [List.foldl_cons, hv]
      congr 1
      omega

theorem parseDec_toDigits (n : Nat) : parseDec (Nat.toDigits 10 n) = n := by
  simp [parseDec, Nat.toDigits, foldl_toDigitsCore (n + 1) n [] (by omega)]

theorem toDigits_all_digits (n : Nat) : ∀ c ∈ Nat.toDigits 10 n, c.isDigit = true :=
  toDigitsCore_all_digits _ _ _ (by simp)

theorem toDigits_ne_nil (n : Nat) : Nat.toDigits 10 n ≠ [] :=
  toDigitsCore_ne_nil _ _ _ (by omega)

theorem parseDec_zeros (k : Nat) (ds : List Char) :
    parseDec (List.replicate k '0' ++ ds) = parseDec ds := by
  induction k with
  | zero => simp
  | succ k ih =>
    have h0 : digitVal '0' = 0 := by decide
    simp only [parseDec, List.replicate_succ, List.cons_append, List.foldl_cons, h0] at ih ⊢
    exact ih

theorem parseField_digits (ds rest : List Char) (c : Char)
    (h1 : ∀ a ∈ ds, a.isDigit = true) (h2 : ds ≠ []) (hc : c.isDigit = false) :
    parseField (ds ++ c :: rest) = some (parseDec ds, c :: rest) := by
  have ht : (ds ++ c :: rest).takeWhile Char.isDigit = ds := by
    rw [List.takeWhile_append_of_pos h1, List.takeWhile_cons_of_neg (by simp [hc])]
    simp
  have hd : (ds ++ c :: rest).dropWhile Char.isDigit = c :: rest := by
    rw [List.dropWhile_append_of_pos h1, List.dropWhile_cons_of_neg (by simp [hc])]
  simp [parseField, ht, hd, h2]

theorem parseField_fmt_d (n : Nat) (rest : List Char) :
    parseField ((fmt_d n).data ++ '_' :: rest) = some (n, '_' :: rest) := by
  rw [fmt_d, parseField_digits _ _ _ (toDigits_all_digits n) (toDigits_ne_nil n) (by decide),
    parseDec_toDigits]

theorem parseField_fmt_0d (k n : Nat) (rest : List Char) :
    parseField ((fmt_0d k n).data ++ '.' :: rest) = some (n, '.' :: rest) := by
  have h1 : ∀ a ∈ List.replicate (k - (Nat.toDigits 10 n).length) '0' ++ Nat.toDigits 10 n,
      a.isDigit = true := by
    intro a ha
    rcases List.mem_append.1 ha with h | h
    · rw [(List.mem_replicate.1 h).2]; decide
    · exact toDigits_all_digits n a h
  rw [fmt_0d, parseField_digits _ _ _ h1 (by simp [toDigits_ne_nil]) (by decide),
    parseDec_zeros, parseDec_toDigits]

theorem parseFinalName_sprintf (w : World) :
    parseFinalName (sprintf_outnamenew w)
      = some (w.version.1, w.version.2.1, w.version.2.2.1, w.version.2.2.2, w.version2) := by
  have hd : ((sprintf_outnamenew w).data).drop 8
      = (fmt_d w.version.1).data ++ '_' :: ((fmt_d w.version.2.1).data ++ '_' ::
          ((fmt_d w.version.2.2.1).data ++ '_' :: ((fmt_d w.version.2.2.2).data ++ '_' ::
            ((fmt_0d 4 w.version2).data ++ '.' :: "hdr.new".data)))) := by
    cases hp : w.phy <;> simp [sprintf_outnamenew, phyLabel, hp, String.data_append]
  have hs : ∀ rest : List Char, parseSep ('_' :: rest) = some rest := fun _ => rfl
  have he : ('.' :: "hdr.new".data) = ".hdr.new".data := by decide
  simp only [parseFinalName, hd, parseField_fmt_d, parseField_fmt_0d, Option.some_bind, hs]
  rfl

theorem phyLabel_eq (p : Phy) : phyLabel p = deviceLabel p := by
  cases p <;> rfl

/-! ## Lemmas on write_output -/

theorem write_output_snd (env : Env) (w : World) (f : Int) (oo : Int) (r : Nat) :
    (write_output env w f oo r).2
      = { decode w oo r with
          log := (decode w oo r).log ++
            [Event.write f ((r >>> 8) &&& 0xff) (env.write_ret (decode w oo r).log.length),
             Event.write f (r &&& 0xff) (env.write_ret ((decode w oo r).log.length + 1)),
             Event.write f ((r >>> 24) &&& 0xff) (env.write_ret ((decode w oo r).log.length + 2)),
             Event.write f ((r >>> 16) &&& 0xff)
               (env.write_ret ((decode w oo r).log.length + 3))] } := by
  simp only [write_output, write1]
  split <;> simp [Nat.add_assoc]

theorem decode_log (w : World) (oo : Int) (r : Nat) : (decode w oo r).log = w.log := by
  unfold decode
  split
  · rfl
  · split
    · rfl
    · split
      · split <;> rfl
      · rfl

theorem decode_version2_eq (r : Nat) :
    ((((r &&& 0xff) <<< 8) % 2 ^ 16) ||| ((r >>> 8) &&& 0xff)) % 2 ^ 16
      = (byteAt 0 r <<< 8) ||| byteAt 1 r := by
  have h0 : r &&& 0xff < 2 ^ 8 := Nat.and_lt_two_pow r (by decide)
  have h1 : (r >>> 8) &&& 0xff < 2 ^ 16 := Nat.and_lt_two_pow _ (by decide)
  have h2 : (r &&& 0xff) <<< 8 < 2 ^ 16 := by
    rw [Nat.shiftLeft_eq]
    omega
  simp only [byteAt, Nat.mul_zero, Nat.mul_one, Nat.shiftRight_zero]
  rw [Nat.mod_eq_of_lt h2, Nat.mod_eq_of_lt (Nat.or_lt_two_pow h2 h1)]

/-! ## Lemmas on single iterations -/

theorem write_output_ok (env : Env) (hw : ∀ i, env.write_ret i = 1) (w : World) (f : Int)
    (oo : Int) (r : Nat) :
    write_output env w f oo r
      = (0, { decode w oo r with log := w.log ++ wordEvents f r }) := by
  simp [write_output, write1, hw, wordEvents, byteAt, decode_log]

theorem decode_of_lt (w : World) (oo : Int) (r : Nat) (h : oo < 0x120) : decode w oo r = w := by
  have h1 : oo ≠ 0x120 := by omega
  have h2 : oo ≠ 0x124 := by omega
  have h3 : oo ≠ 0x138 := by omega
  simp [decode, h1, h2, h3]

theorem iteration_scan_other (env : Env) (src : List Nat) (s : State) (r : Nat)
    (hscan : s.in_fw = 0) (hread : readWord env.host src s.pos = some r)
    (hr : r ≠ FW_START4) :
    iteration env src s
      = Outcome.next { s with r := r, pos := s.pos + 4, r_old := r, o := s.o + 4 } := by
  simp only [iteration, hread, body]
  rw [if_pos hscan, if_neg hr]

theorem iteration_scan_start (env : Env) (hio : env.ioOk) (src : List Nat) (s : State)
    (hscan : s.in_fw = 0) (hread : readWord env.host src s.pos = some FW_START4) :
    iteration env src s
      = Outcome.next { s with
          r := FW_START4, pos := s.pos + 4,
          outname := sprintf_outname s.outname s.nout,
          o_start := s.o - 4, nout := s.nout + 1, in_fw := 1, oo := 8,
          fdout := env.open_ret s.w.log.length,
          w := { s.w with log := s.w.log
                  ++ [Event.openOut (sprintf_outname s.outname s.nout)
                        (env.open_ret s.w.log.length)]
                  ++ wordEvents (env.open_ret s.w.log.length) s.r_old
                  ++ wordEvents (env.open_ret s.w.log.length) FW_START4 },
          o := s.o + 4 } := by
  have ho : ¬ env.open_ret s.w.log.length < 0 := by have := hio.1 s.w.log.length; omega
  simp only [iteration, hread, body]
  rw [if_pos hscan, if_pos trivial]
  simp only [write_output_ok env hio.2, hscan]
  rw [if_neg ho, if_neg (by decide), if_neg (by decide)]
  simp [decode_of_lt]

theorem iteration_capture_other (env : Env) (hw : ∀ i, env.write_ret i = 1) (src : List Nat)
    (s : State) (r : Nat) (hcap : s.in_fw ≠ 0)
    (hread : readWord env.host src s.pos = some r) (hr : r ≠ FW_END) :
    iteration env src s
      = Outcome.next { s with
          r := r, pos := s.pos + 4,
          w := { decode s.w s.oo r with log := s.w.log ++ wordEvents s.fdout r },
          oo := s.oo + 4, o := s.o + 4 } := by
  simp only [iteration, hread, body]
  rw [if_neg hcap]
  simp only [write_output_ok env hw]
  rw [if_neg (by decide), if_neg hr]

theorem iteration_capture_end (env : Env) (src : List Nat) (s : State) (hcap : s.in_fw ≠ 0)
    (hread : readWord env.host src s.pos = some FW_END)
    (hw : 0 ≤ (write_output env s.w s.fdout s.oo FW_END).1) :
    iteration env src s
      = end_of_fw env { s with r := FW_END, pos := s.pos + 4,
                               w := (write_output env s.w s.fdout s.oo FW_END).2,
                               oo := s.oo + 4 } := by
  simp only [iteration, hread, body]
  rw [if_neg hcap, if_neg (by omega), if_pos trivial]

theorem end_of_fw_commit (env : Env) (s : State)
    (h : (((byteswap_data env.host s.r_old + 32) % 2 ^ 32 : Nat) : Int) = s.oo) :
    end_of_fw env s
      = Outcome.next { s with
          in_fw := 0,
          outnamenew := sprintf_outnamenew s.w,
          fw_len := byteswap_data env.host s.r_old,
          ret := env.rename_ret (s.w.log.length + 1),
          w := { s.w with log := s.w.log ++ [Event.close s.fdout]
                  ++ [Event.rename s.outname (sprintf_outnamenew s.w)
                        (env.rename_ret (s.w.log.length + 1))] },
          o := s.o + 4 } := by
  simp only [end_of_fw]
  rw [if_pos h]
  simp [sprintf_outnamenew]

theorem end_of_fw_mismatch (env : Env) (s : State)
    (h : (((byteswap_data env.host s.r_old + 32) % 2 ^ 32 : Nat) : Int) ≠ s.oo) :
    end_of_fw env s
      = Outcome.next { s with
          in_fw := 0,
          outnamenew := sprintf_outnamenew s.w,
          fw_len := byteswap_data env.host s.r_old,
          ret := env.unlink_ret (s.w.log.length + 1),
          pos := lseek_set s.pos (s.o_start + 8),
          w := { s.w with log := s.w.log ++ [Event.close s.fdout]
                  ++ [Event.unlink s.outname (env.unlink_ret (s.w.log.length + 1))]
                  ++ [Event.lseek (s.o_start + 8)] },
          o := s.o_start + 8 } := by
  simp only [end_of_fw]
  rw [if_neg h]
  simp [sprintf_outnamenew]

theorem iteration_eof (env : Env) (src : List Nat) (s : State)
    (hread : readWord env.host src s.pos = none) :
    iteration env src s = epilogue env s := by
  simp only [iteration, hread]

/-! ## Reading words from an encoded input -/

theorem readWord_wordBytes (h : ByteOrder) (w : Nat) (hw : w < 2 ^ 32) (rest : List Nat) :
    readWord h (wordBytes h w ++ rest) 0 = some w := by
  cases h <;> simp only [readWord, wordBytes, List.drop_zero, List.cons_append, List.nil_append,
    Option.some.injEq] <;> omega

theorem bytesOfWords_append (h : ByteOrder) (a b : List Nat) :
    bytesOfWords h (a ++ b) = bytesOfWords h a ++ bytesOfWords h b := by
  induction a with
  | nil => rfl
  | cons w a ih => simp [bytesOfWords, ih]

theorem bytesOfWords_length (h : ByteOrder) (a : List Nat) :
    (bytesOfWords h a).length = 4 * a.length := by
  induction a with
  | nil => rfl
  | cons w a ih =>
    cases h <;> simp [bytesOfWords, wordBytes, ih] <;> omega

theorem readWord_drop (h : ByteOrder) (a b : List Nat) (pos : Nat) :
    readWord h (a ++ b) (a.length + pos) = readWord h b pos := by
  simp [readWord, List.drop_append]

theorem wordBytes_length (h : ByteOrder) (w : Nat) : (wordBytes h w).length = 4 := by
  cases h <;> rfl

theorem wordsAt_shift (h : ByteOrder) (a b : List Nat) (ws : List Nat) :
    ∀ pos, WordsAt h b pos ws → WordsAt h (a ++ b) (a.length + pos) ws := by
  induction ws with
  | nil => intro pos _; trivial
  | cons w ws ih =>
    intro pos hw
    refine ⟨?_, ?_⟩
    · rw [readWord_drop]
      exact hw.1
    · have := ih (pos + 4) hw.2
      rwa [Nat.add_assoc]

theorem wordsAt_bytesOfWords (h : ByteOrder) (ws : List Nat) (hws : AllU32 ws)
    (rest : List Nat) : WordsAt h (bytesOfWords h ws ++ rest) 0 ws := by
  induction ws with
  | nil => trivial
  | cons w ws ih =>
    refine ⟨?_, ?_⟩
    · simp only [bytesOfWords, List.append_assoc]
      exact readWord_wordBytes h w (hws w (by simp)) _
    · have ih' := ih (fun x hx => hws x (by simp [hx]))
      have hs := wordsAt_shift h (wordBytes h w) _ ws 0 ih'
      rw [wordBytes_length] at hs
      simpa [bytesOfWords, List.append_assoc] using hs

theorem wordsAt_segment (h : ByteOrder) (pre ws post tail : List Nat) (hws : AllU32 ws) :
    WordsAt h (bytesOfWords h (pre ++ ws ++ post) ++ tail) (4 * pre.length) ws := by
  have h0 := wordsAt_bytesOfWords h ws hws (bytesOfWords h post ++ tail)
  have hs := wordsAt_shift h (bytesOfWords h pre) _ ws 0 h0
  rw [bytesOfWords_length] at hs
  simpa [bytesOfWords_append, List.append_assoc] using hs

theorem readWord_eof (h : ByteOrder) (ws tail : List Nat) (ht : tail.length < 4) :
    readWord h (bytesOfWords h ws ++ tail) (4 * ws.length) = none := by
  have hd : (bytesOfWords h ws ++ tail).drop (4 * ws.length) = tail := by
    rw [← bytesOfWords_length h ws]
    simp
  unfold readWord
  rw [hd]
  rcases tail with _ | ⟨b0, _ | ⟨b1, _ | ⟨b2, _ | ⟨b3, t⟩⟩⟩⟩ <;> simp at ht ⊢
  omega

/-! ## Lemmas on several iterations -/

theorem iterations_add (env : Env) (src : List Nat) (m n : Nat) :
    ∀ s, iterations env src (m + n) s
      = match iterations env src m s with
        | Outcome.next s' => iterations env src n s'
        | Outcome.ret c s' => Outcome.ret c s' := by
  induction m with
  | zero => intro s; simp [iterations]
  | succ m ih =>
    intro s
    rw [Nat.succ_add]
    simp only [iterations]
    cases hi : iteration env src s with
    | next s' => simp only [ih]
    | ret c s' => rfl

theorem iterations_next_add (env : Env) (src : List Nat) (m n : Nat) (s s' : State)
    (h : iterations env src m s = Outcome.next s') :
    iterations env src (m + n) s = iterations env src n s' := by
  rw [iterations_add, h]

theorem iterations_ret_add (env : Env) (src : List Nat) (m n : Nat) (s s' : State) (c : Int)
    (h : iterations env src m s = Outcome.ret c s') :
    iterations env src (m + n) s = Outcome.ret c s' := by
  rw [iterations_add, h]

theorem loop_eq_iterations (env : Env) (src : List Nat) (n : Nat) :
    ∀ s, loop env src n s
      = match iterations env src n s with
        | Outcome.next _ => none
        | Outcome.ret c s' => some (c, s') := by
  induction n with
  | zero => intro s; rfl
  | succ n ih =>
    intro s
    simp only [loop, iterations]
    cases hi : iteration env src s with
    | next s' => simp only [ih]
    | ret c s' => rfl

theorem iterations_one (env : Env) (src : List Nat) (s : State) :
    iterations env src 1 s = iteration env src s := by
  simp only [iterations]
  cases iteration env src s <;> rfl

theorem skipWords_cons (s : State) (r : Nat) (ws : List Nat) :
    skipWords s (r :: ws)
      = skipWords { s with r := r, pos := s.pos + 4, r_old := r, o := s.o + 4 } ws := rfl

theorem captureWords_cons (s : State) (r : Nat) (ws : List Nat) :
    captureWords s (r :: ws)
      = captureWords { s with
          r := r, pos := s.pos + 4,
          w := { decode s.w s.oo r with log := s.w.log ++ wordEvents s.fdout r },
          oo := s.oo + 4, o := s.o + 4 } ws := rfl

theorem iterations_skip (env : Env) (src : List Nat) (ws : List Nat) :
    ∀ s, s.in_fw = 0 → WordsAt env.host src s.pos ws → (∀ w ∈ ws, w ≠ FW_START4) →
      iterations env src ws.length s = Outcome.next (skipWords s ws) := by
  induction ws with
  | nil => intro s _ _ _; rfl
  | cons r ws ih =>
    intro s hs hw hne
    simp only [List.length_cons, iterations]
    rw [iteration_scan_other env src s r hs hw.1 (hne r (by simp))]
    simp only [skipWords_cons]
    exact ih _ hs hw.2 (fun w hw' => hne w (by simp [hw']))

theorem iterations_capture (env : Env) (hwr : ∀ i, env.write_ret i = 1) (src : List Nat)
    (ws : List Nat) :
    ∀ s, s.in_fw ≠ 0 → WordsAt env.host src s.pos ws → (∀ w ∈ ws, w ≠ FW_END) →
      iterations env src ws.length s = Outcome.next (captureWords s ws) := by
  induction ws with
  | nil => intro s _ _ _; rfl
  | cons r ws ih =>
    intro s hs hw hne
    simp only [List.length_cons, iterations]
    rw [iteration_capture_other env hwr src s r hs hw.1 (hne r (by simp))]
    simp only [captureWords_cons]
    exact ih _ hs hw.2 (fun w hw' => hne w (by simp [hw']))

theorem iteration_scan_start' (env : Env) (hio : env.ioOk) (src : List Nat) (s : State)
    (hscan : s.in_fw = 0) (hread : readWord env.host src s.pos = some FW_START4) :
    iteration env src s = Outcome.next (startSession env s) :=
  iteration_scan_start env hio src s hscan hread

/-! ## Case analysis of one iteration in an arbitrary environment -/

theorem iteration_next_cases (env : Env) (src : List Nat) (s s' : State)
    (h : iteration env src s = Outcome.next s') :
    (s.in_fw = 0 ∧ ∃ r, readWord env.host src s.pos = some r ∧ r ≠ FW_START4 ∧
        s' = { s with r := r, pos := s.pos + 4, r_old := r, o := s.o + 4 })
    ∨ (s.in_fw = 0 ∧ readWord env.host src s.pos = some FW_START4 ∧
        0 ≤ env.open_ret s.w.log.length ∧
        s' = { s with
          r := FW_START4, pos := s.pos + 4,
          outname := sprintf_outname s.outname s.nout,
          o_start := s.o - 4, nout := s.nout + 1, in_fw := 1, oo := 8,
          fdout := env.open_ret s.w.log.length,
          w := (write_output env
                  (write_output env
                    { s.w with log := s.w.log
                        ++ [Event.openOut (sprintf_outname s.outname s.nout)
                              (env.open_ret s.w.log.length)] }
                    (env.open_ret s.w.log.length) 0 s.r_old).2
                  (env.open_ret s.w.log.length) 4 FW_START4).2,
          o := s.o + 4 })
    ∨ (s.in_fw ≠ 0 ∧ ∃ r, readWord env.host src s.pos = some r ∧ r ≠ FW_END ∧
        s' = { s with
          r := r, pos := s.pos + 4,
          w := (write_output env s.w s.fdout s.oo r).2,
          oo := s.oo + 4, o := s.o + 4 })
    ∨ (s.in_fw ≠ 0 ∧ readWord env.host src s.pos = some FW_END ∧
        0 ≤ (write_output env s.w s.fdout s.oo FW_END).1 ∧
        end_of_fw env { s with r := FW_END, pos := s.pos + 4,
                               w := (write_output env s.w s.fdout s.oo FW_END).2,
                               oo := s.oo + 4 } = Outcome.next s') := by
  unfold iteration at h
  cases hr : readWord env.host src s.pos with
  | none =>
    rw [hr] at h
    simp only [epilogue] at h
    split at h <;> cases h
  | some r =>
    rw [hr] at h
    simp only [body] at h
    by_cases hs : s.in_fw = 0
    · rw [if_pos hs] at h
      by_cases hst : r = FW_START4
      · subst hst
        rw [if_pos rfl] at h
        right; left
        refine ⟨hs, rfl, ?_⟩
        split at h
        · cases h
        · rename_i ho
          split at h
          · cases h
          · split at h
            · cases h
            · simp only [Outcome.next.injEq] at h
              refine ⟨by simpa using ho, ?_⟩
              rw [← h]
              simp [hs]
      · rw [if_neg hst] at h
        left
        refine ⟨hs, r, rfl, hst, ?_⟩
        simp only [Outcome.next.injEq] at h
        exact h.symm
    · rw [if_neg hs] at h
      right; right
      split at h
      · cases h
      · rename_i hw
        by_cases hen : r = FW_END
        · subst hen
          rw [if_pos rfl] at h
          right
          exact ⟨hs, rfl, by simpa using hw, h⟩
        · rw [if_neg hen] at h
          left
          refine ⟨hs, r, rfl, hen, ?_⟩
          simp only [Outcome.next.injEq] at h
          exact h.symm

theorem end_of_fw_cases (env : Env) (s : State) :
    ((((byteswap_data env.host s.r_old + 32) % 2 ^ 32 : Nat) : Int) = s.oo ∧
      end_of_fw env s = Outcome.next { s with
          in_fw := 0,
          outnamenew := sprintf_outnamenew s.w,
          fw_len := byteswap_data env.host s.r_old,
          ret := env.rename_ret (s.w.log.length + 1),
          w := { s.w with log := s.w.log ++ [Event.close s.fdout]
                  ++ [Event.rename s.outname (sprintf_outnamenew s.w)
                        (env.rename_ret (s.w.log.length + 1))] },
          o := s.o + 4 })
    ∨ ((((byteswap_data env.host s.r_old + 32) % 2 ^ 32 : Nat) : Int) ≠ s.oo ∧
      end_of_fw env s = Outcome.next { s with
          in_fw := 0,
          outnamenew := sprintf_outnamenew s.w,
          fw_len := byteswap_data env.host s.r_old,
          ret := env.unlink_ret (s.w.log.length + 1),
          pos := lseek_set s.pos (s.o_start + 8),
          w := { s.w with log := s.w.log ++ [Event.close s.fdout]
                  ++ [Event.unlink s.outname (env.unlink_ret (s.w.log.length + 1))]
                  ++ [Event.lseek (s.o_start + 8)] },
          o := s.o_start + 8 }) := by
  by_cases h : (((byteswap_data env.host s.r_old + 32) % 2 ^ 32 : Nat) : Int) = s.oo
  · exact Or.inl ⟨h, end_of_fw_commit env s h⟩
  · exact Or.inr ⟨h, end_of_fw_mismatch env s h⟩

theorem iteration_next_cases5 (env : Env) (src : List Nat) (s s' : State)
    (h : iteration env src s = Outcome.next s') :
    (s.in_fw = 0 ∧ ∃ r, readWord env.host src s.pos = some r ∧ r ≠ FW_START4 ∧
        s' = { s with r := r, pos := s.pos + 4, r_old := r, o := s.o + 4 })
    ∨ (s.in_fw = 0 ∧ readWord env.host src s.pos = some FW_START4 ∧
        0 ≤ env.open_ret s.w.log.length ∧
        s' = { s with
          r := FW_START4, pos := s.pos + 4,
          outname := sprintf_outname s.outname s.nout,
          o_start := s.o - 4, nout := s.nout + 1, in_fw := 1, oo := 8,
          fdout := env.open_ret s.w.log.length,
          w := (write_output env
                  (write_output env
                    { s.w with log := s.w.log
                        ++ [Event.openOut (sprintf_outname s.outname s.nout)
                              (env.open_ret s.w.log.length)] }
                    (env.open_ret s.w.log.length) 0 s.r_old).2
                  (env.open_ret s.w.log.length) 4 FW_START4).2,
          o := s.o + 4 })
    ∨ (s.in_fw ≠ 0 ∧ ∃ r, readWord env.host src s.pos = some r ∧ r ≠ FW_END ∧
        s' = { s with
          r := r, pos := s.pos + 4,
          w := (write_output env s.w s.fdout s.oo r).2,
          oo := s.oo + 4, o := s.o + 4 })
    ∨ (s.in_fw ≠ 0 ∧ readWord env.host src s.pos = some FW_END ∧
        0 ≤ (write_output env s.w s.fdout s.oo FW_END).1 ∧
        (((byteswap_data env.host s.r_old + 32) % 2 ^ 32 : Nat) : Int) = s.oo + 4 ∧
        s' = { s with
          r := FW_END, pos := s.pos + 4, oo := s.oo + 4, in_fw := 0,
          outnamenew := sprintf_outnamenew (write_output env s.w s.fdout s.oo FW_END).2,
          fw_len := byteswap_data env.host s.r_old,
          ret := env.rename_ret ((write_output env s.w s.fdout s.oo FW_END).2.log.length + 1),
          w := { (write_output env s.w s.fdout s.oo FW_END).2 with
                 log := (write_output env s.w s.fdout s.oo FW_END).2.log
                  ++ [Event.close s.fdout]
                  ++ [Event.rename s.outname
                        (sprintf_outnamenew (write_output env s.w s.fdout s.oo FW_END).2)
                        (env.rename_ret
                          ((write_output env s.w s.fdout s.oo FW_END).2.log.length + 1))] },
          o := s.o + 4 })
    ∨ (s.in_fw ≠ 0 ∧ readWord env.host src s.pos = some FW_END ∧
        0 ≤ (write_output env s.w s.fdout s.oo FW_END).1 ∧
        (((byteswap_data env.host s.r_old + 32) % 2 ^ 32 : Nat) : Int) ≠ s.oo + 4 ∧
        s' = { s with
          r := FW_END, oo := s.oo + 4, in_fw := 0,
          outnamenew := sprintf_outnamenew (write_output env s.w s.fdout s.oo FW_END).2,
          fw_len := byteswap_data env.host s.r_old,
          ret := env.unlink_ret ((write_output env s.w s.fdout s.oo FW_END).2.log.length + 1),
          pos := lseek_set (s.pos + 4) (s.o_start + 8),
          w := { (write_output env s.w s.fdout s.oo FW_END).2 with
                 log := (write_output env s.w s.fdout s.oo FW_END).2.log
                  ++ [Event.close s.fdout]
                  ++ [Event.unlink s.outname
                        (env.unlink_ret
                          ((write_output env s.w s.fdout s.oo FW_END).2.log.length + 1))]
                  ++ [Event.lseek (s.o_start + 8)] },
          o := s.o_start + 8 }) := by
  rcases iteration_next_cases env src s s' h with h1 | h1 | h1 | ⟨hs, hr, hw, he⟩
  · exact Or.inl h1
  · exact Or.inr (Or.inl h1)
  · exact Or.inr (Or.inr (Or.inl h1))
  · have hc := end_of_fw_cases env
      { s with
        r := FW_END, pos := s.pos + 4,
        w := (write_output env s.w s.fdout s.oo FW_END).2, oo := s.oo + 4 }
    rcases hc with ⟨hq, he'⟩ | ⟨hq, he'⟩
    · rw [he'] at he
      simp only [Outcome.next.injEq] at he
      exact Or.inr (Or.inr (Or.inr (Or.inl ⟨hs, hr, hw, hq, he.symm⟩)))
    · rw [he'] at he
      simp only [Outcome.next.injEq] at he
      exact Or.inr (Or.inr (Or.inr (Or.inr ⟨hs, hr, hw, hq, he.symm⟩)))

/-! ## Invariant and termination -/

theorem readWord_some_le (h : ByteOrder) (src : List Nat) (pos r : Nat)
    (hr : readWord h src pos = some r) : pos + 4 ≤ src.length := by
  by_contra hc
  have h1 : (src.drop pos).length < 4 := by simp; omega
  unfold readWord at hr
  revert hr
  rcases hd : src.drop pos with _ | ⟨b0, _ | ⟨b1, _ | ⟨b2, _ | ⟨b3, t⟩⟩⟩⟩ <;> simp
  rw [hd] at h1
  simp at h1
  omega

theorem sprintf_outname_eq (outname : String) (k : Nat)
    (h : outname.data.take 11 = "marvell_fw_".data) :
    sprintf_outname outname k = provisionalName k := by
  simp only [sprintf_outname, provisionalName, h]

theorem provisionalName_take (k : Nat) :
    (provisionalName k).data.take 11 = "marvell_fw_".data := by
  simp [provisionalName, String.data_append]

theorem inv_init : Inv init := by
  refine ⟨rfl, rfl, by decide, ?_⟩
  intro h
  exact absurd rfl h

theorem inv_next (env : Env) (src : List Nat) (s s' : State) (hi : Inv s)
    (h : iteration env src s = Outcome.next s') : Inv s' := by
  obtain ⟨h1, h2, h3, h4⟩ := hi
  rcases iteration_next_cases5 env src s s' h with
    ⟨hs, r, -, -, rfl⟩ | ⟨hs, -, -, rfl⟩ | ⟨hs, r, -, -, rfl⟩ | ⟨hs, -, -, -, rfl⟩
      | ⟨hs, -, -, -, rfl⟩
  · refine ⟨?_, ?_, h3, ?_⟩
    · simp only [h1]; push_cast; ring
    · simp only; omega
    · intro hc; exact absurd hs hc
  · refine ⟨?_, ?_, ?_, ?_⟩
    · simp only [h1]; push_cast; ring
    · simp only; omega
    · simp only [sprintf_outname_eq _ _ h3, provisionalName_take]
    · intro _
      refine ⟨by simp only; omega, by simp only; omega, by simp only; omega,
        by simp only; omega, ?_⟩
      simp only [sprintf_outname_eq _ _ h3, Nat.add_sub_cancel]
  · refine ⟨?_, ?_, h3, ?_⟩
    · simp only [h1]; push_cast; ring
    · simp only; omega
    · intro hc
      obtain ⟨a, b, c, d, e⟩ := h4 hs
      exact ⟨a, by simp only; omega, c, d, e⟩
  · refine ⟨?_, ?_, h3, ?_⟩
    · simp only [h1]; push_cast; ring
    · simp only; omega
    · intro hc; exact absurd rfl hc
  · obtain ⟨a, b, c, d, e⟩ := h4 hs
    have hl : lseek_set (s.pos + 4) (s.o_start + 8) = (s.o_start + 8).toNat := by
      simp only [lseek_set]
      rw [if_pos (by omega)]
    refine ⟨?_, ?_, h3, ?_⟩
    · simp only [hl]; omega
    · simp only [hl]; omega
    · intro hc; exact absurd rfl hc

theorem potential_next (env : Env) (src : List Nat) (s s' : State) (hi : Inv s)
    (h : iteration env src s = Outcome.next s') :
    potential src.length s' < potential src.length s := by
  obtain ⟨h1, h2, h3, h4⟩ := hi
  have hq : ∀ a b : Nat, a ≤ b → a * (a + 1) ≤ b * (b + 1) :=
    fun a b hab => Nat.mul_le_mul hab (by omega)
  have hq1 : ∀ a : Nat, (a + 1) * (a + 1 + 1) = a * (a + 1) + 2 * a + 2 := fun a => by ring
  rcases iteration_next_cases5 env src s s' h with
    ⟨hs, r, hr, -, rfl⟩ | ⟨hs, hr, -, rfl⟩ | ⟨hs, r, hr, -, rfl⟩ | ⟨hs, hr, -, -, rfl⟩
      | ⟨hs, hr, -, -, rfl⟩
  · have hle := readWord_some_le _ _ _ _ hr
    obtain ⟨k, hk⟩ : ∃ k, remWords src.length s.pos = k + 1 :=
      ⟨remWords src.length s.pos - 1, by simp only [remWords]; omega⟩
    have hk' : remWords src.length (s.pos + 4) = k := by
      simp only [remWords] at hk ⊢; omega
    simp only [potential, hs, if_true, hk, hk', hq1]
    omega
  · have hle := readWord_some_le _ _ _ _ hr
    obtain ⟨k, hk⟩ : ∃ k, remWords src.length s.pos = k + 1 :=
      ⟨remWords src.length s.pos - 1, by simp only [remWords]; omega⟩
    have hk' : remWords src.length (s.pos + 4) = k := by
      simp only [remWords] at hk ⊢; omega
    have hf : (s.o - 4 + 8).toNat = s.pos + 4 := by omega
    simp only [potential, hs, if_true, hk, hk', hq1, hf]
    rw [if_neg (by decide)]
    omega
  · have hle := readWord_some_le _ _ _ _ hr
    have hk' : remWords src.length (s.pos + 4) + 1 = remWords src.length s.pos := by
      simp only [remWords]; omega
    simp only [potential, hs, if_false]
    omega
  · obtain ⟨a, b, c, d, e⟩ := h4 hs
    have hle := readWord_some_le _ _ _ _ hr
    have hm : remWords src.length (s.pos + 4) ≤ remWords src.length (s.o_start + 8).toNat := by
      simp only [remWords]
      apply Nat.div_le_div_right
      omega
    have := hq _ _ hm
    simp only [potential, hs, if_false, if_true]
    omega
  · obtain ⟨a, b, c, d, e⟩ := h4 hs
    have hl : lseek_set (s.pos + 4) (s.o_start + 8) = (s.o_start + 8).toNat := by
      simp only [lseek_set]
      rw [if_pos (by omega)]
    simp only [potential, hs, if_false, if_true, hl]
    omega

theorem iterations_returns (env : Env) (src : List Nat) :
    ∀ (n : Nat) (s : State), Inv s → potential src.length s ≤ n →
      ∃ c s', iterations env src n s = Outcome.ret c s' := by
  intro n
  induction n with
  | zero =>
    intro s _ hp
    have : 1 ≤ potential src.length s := by
      simp only [potential]; split <;> omega
    omega
  | succ n ih =>
    intro s hi hp
    simp only [iterations]
    cases hit : iteration env src s with
    | ret c s' => exact ⟨c, s', rfl⟩
    | next s' =>
      have := potential_next env src s s' hi hit
      exact ih s' (inv_next env src s s' hi hit) (by omega)

theorem potential_init (n : Nat) : potential n init = fuelBound n := by
  simp [potential, init, fuelBound, remWords]

theorem scan_returns (env : Env) (src : List Nat) :
    ∃ c s', scan env src = some (c, s')
      ∧ iterations env src (fuelBound src.length) init = Outcome.ret c s' := by
  obtain ⟨c, s', h⟩ := iterations_returns env src (fuelBound src.length) init inv_init
    (by rw [potential_init])
  refine ⟨c, s', ?_, h⟩
  simp only [scan, loop_eq_iterations, h]

/-! ## Closed forms of the states after a run of words -/

theorem decode_with_log (w : World) (l : List Event) (oo : Int) (r : Nat) :
    decode { w with log := l } oo r = { decode w oo r with log := l } := by
  unfold decode
  split
  · rfl
  · split
    · rfl
    · split
      · split <;> rfl
      · rfl

theorem decodeWords_with_log (ws : List Nat) :
    ∀ (w : World) (l : List Event) (oo : Int),
      decodeWords { w with log := l } oo ws = { decodeWords w oo ws with log := l } := by
  induction ws with
  | nil => intro w l oo; rfl
  | cons r ws ih =>
    intro w l oo
    show decodeWords (decode { w with log := l } oo r) (oo + 4) ws = _
    rw [decode_with_log, ih]
    rfl

theorem decodeWords_log (ws : List Nat) :
    ∀ (w : World) (oo : Int), (decodeWords w oo ws).log = w.log := by
  induction ws with
  | nil => intro w oo; rfl
  | cons r ws ih =>
    intro w oo
    show (decodeWords (decode w oo r) (oo + 4) ws).log = _
    rw [ih, decode_log]

theorem decodeWords_append (a b : List Nat) :
    ∀ (w : World) (oo : Int),
      decodeWords w oo (a ++ b) = decodeWords (decodeWords w oo a) (oo + 4 * a.length) b := by
  induction a with
  | nil => intro w oo; simp [decodeWords]
  | cons r a ih =>
    intro w oo
    show decodeWords (decode w oo r) (oo + 4) (a ++ b)
      = decodeWords (decodeWords (decode w oo r) (oo + 4) a)
          (oo + 4 * ((a.length + 1 : Nat) : Int)) b
    rw [ih]
    have e : oo + 4 + 4 * (a.length : Int) = oo + 4 * ((a.length + 1 : Nat) : Int) := by
      push_cast; ring
    rw [e]

theorem decodeWords_of_lt (ws : List Nat) :
    ∀ (w : World) (oo : Int), oo + 4 * ws.length ≤ 0x120 → decodeWords w oo ws = w := by
  induction ws with
  | nil => intro w oo _; rfl
  | cons r ws ih =>
    intro w oo h
    simp only [List.length_cons] at h
    show decodeWords (decode w oo r) (oo + 4) ws = w
    rw [decode_of_lt w oo r (by omega), ih w (oo + 4) (by omega)]

theorem payloadEvents_append (f : Int) (a b : List Nat) :
    payloadEvents f (a ++ b) = payloadEvents f a ++ payloadEvents f b := by
  induction a with
  | nil => rfl
  | cons r a ih => simp [payloadEvents, ih]

theorem lastWord_append_singleton (ws : List Nat) (l : Nat) :
    ∀ d, lastWord d (ws ++ [l]) = l := by
  induction ws with
  | nil => intro d; rfl
  | cons r ws ih => intro d; exact ih r

theorem skipWords_eq (ws : List Nat) :
    ∀ s : State, skipWords s ws
      = { s with
          r := lastWord s.r ws, r_old := lastWord s.r_old ws,
          pos := s.pos + 4 * ws.length, o := s.o + 4 * ws.length } := by
  induction ws with
  | nil => intro s; simp [skipWords, lastWord]
  | cons r ws ih =>
    intro s
    rw [skipWords_cons, ih]
    simp only [lastWord, List.length_cons]
    congr 1
    · omega
    · push_cast; ring

theorem captureWords_eq (ws : List Nat) :
    ∀ s : State, captureWords s ws
      = { s with
          r := lastWord s.r ws,
          pos := s.pos + 4 * ws.length, o := s.o + 4 * ws.length,
          oo := s.oo + 4 * ws.length,
          w := { decodeWords s.w s.oo ws with
                 log := s.w.log ++ payloadEvents s.fdout ws } } := by
  induction ws with
  | nil => intro s; simp [captureWords, decodeWords, payloadEvents, lastWord]
  | cons r ws ih =>
    intro s
    rw [captureWords_cons, ih]
    simp only [lastWord, List.length_cons, payloadEvents, List.append_assoc]
    have e : decodeWords
        { decode s.w s.oo r with log := s.w.log ++ wordEvents s.fdout r } (s.oo + 4) ws
        = { decodeWords s.w s.oo (r :: ws) with
            log := s.w.log ++ wordEvents s.fdout r } := by
      rw [decodeWords_with_log]
      rfl
    rw [e]
    congr 1
    · omega
    · push_cast; ring
    · push_cast; ring

/-! ## Whole sessions -/

theorem wordsAt_append (h : ByteOrder) (src : List Nat) (a b : List Nat) :
    ∀ pos, WordsAt h src pos (a ++ b)
      ↔ WordsAt h src pos a ∧ WordsAt h src (pos + 4 * a.length) b := by
  induction a with
  | nil => intro pos; simp [WordsAt]
  | cons r a ih =>
    intro pos
    have e : pos + 4 + 4 * a.length = pos + 4 * (a.length + 1) := by omega
    show readWord h src pos = some r ∧ WordsAt h src (pos + 4) (a ++ b)
      ↔ (readWord h src pos = some r ∧ WordsAt h src (pos + 4) a)
        ∧ WordsAt h src (pos + 4 * (a.length + 1)) b
    rw [ih, e]
    tauto

theorem iterations_inv (env : Env) (src : List Nat) :
    ∀ (n : Nat) (s s' : State), Inv s → iterations env src n s = Outcome.next s' → Inv s' := by
  intro n
  induction n with
  | zero =>
    intro s s' hi h
    simp only [iterations, Outcome.next.injEq] at h
    exact h ▸ hi
  | succ n ih =>
    intro s s' hi h
    simp only [iterations] at h
    cases hit : iteration env src s with
    | ret c t => rw [hit] at h; cases h
    | next t =>
      rw [hit] at h
      exact ih t s' (inv_next env src s t hi hit) h

theorem session_to_end (env : Env) (hio : env.ioOk) (src : List Nat) (s : State)
    (body : List Nat) (hs : s.in_fw = 0)
    (hwords : WordsAt env.host src s.pos (FW_START4 :: body ++ [FW_END]))
    (hbody : ∀ w ∈ body, w ≠ FW_END) :
    iterations env src (1 + (body.length + 1)) s
      = end_of_fw env
          { captureWords (startSession env s) body with
            r := FW_END,
            pos := (captureWords (startSession env s) body).pos + 4,
            w := (write_output env (captureWords (startSession env s) body).w
                    (captureWords (startSession env s) body).fdout
                    (captureWords (startSession env s) body).oo FW_END).2,
            oo := (captureWords (startSession env s) body).oo + 4 } := by
  have hw1 : readWord env.host src s.pos = some FW_START4 := hwords.1
  have hw2 := (wordsAt_append env.host src body [FW_END] (s.pos + 4)).1 hwords.2
  have h1 : iterations env src 1 s = Outcome.next (startSession env s) := by
    rw [iterations_one, iteration_scan_start' env hio src s hs hw1]
  have hcap : (startSession env s).in_fw ≠ 0 := by simp [startSession]
  have h2 : iterations env src body.length (startSession env s)
      = Outcome.next (captureWords (startSession env s) body) :=
    iterations_capture env hio.2 src body _ hcap hw2.1 hbody
  have hcap' : (captureWords (startSession env s) body).in_fw ≠ 0 := by
    rw [captureWords_eq]; exact hcap
  have hpos : (captureWords (startSession env s) body).pos = s.pos + 4 + 4 * body.length := by
    rw [captureWords_eq]; rfl
  have hw3 : readWord env.host src (captureWords (startSession env s) body).pos
      = some FW_END := by
    rw [hpos]; exact hw2.2.1
  rw [iterations_next_add env src 1 _ s _ h1, iterations_next_add env src _ 1 _ _ h2,
    iterations_one]
  exact iteration_capture_end env src _ hcap' hw3
    (by rw [write_output_ok env hio.2])

theorem payloadEvents_length (f : Int) (ws : List Nat) :
    (payloadEvents f ws).length = 4 * ws.length := by
  induction ws with
  | nil => rfl
  | cons r ws ih => simp [payloadEvents, wordEvents, ih]; omega

theorem payloadEvents_cons (f : Int) (r : Nat) (ws : List Nat) :
    payloadEvents f (r :: ws) = wordEvents f r ++ payloadEvents f ws := rfl

theorem payloadEvents_nil (f : Int) : payloadEvents f [] = [] := rfl

theorem session_end_state (env : Env) (hio : env.ioOk) (s : State) (body : List Nat) :
    ({ captureWords (startSession env s) body with
        r := FW_END,
        pos := (captureWords (startSession env s) body).pos + 4,
        w := (write_output env (captureWords (startSession env s) body).w
                (captureWords (startSession env s) body).fdout
                (captureWords (startSession env s) body).oo FW_END).2,
        oo := (captureWords (startSession env s) body).oo + 4 } : State)
      = { s with
          r := FW_END, pos := s.pos + 4 * (body.length + 2), o := s.o + 4 * (body.length + 1),
          outname := sprintf_outname s.outname s.nout,
          o_start := s.o - 4, nout := s.nout + 1, in_fw := 1,
          oo := 4 * (body.length + 3),
          fdout := env.open_ret s.w.log.length,
          w := { decodeWords s.w 8 (body ++ [FW_END]) with
                 log := s.w.log
                  ++ (Event.openOut (sprintf_outname s.outname s.nout)
                        (env.open_ret s.w.log.length)
                      :: payloadEvents (env.open_ret s.w.log.length)
                          (s.r_old :: FW_START4 :: body ++ [FW_END])) } } := by
  rw [captureWords_eq, write_output_ok env hio.2]
  simp only [startSession]
  have e1 : decode { decodeWords
        { s.w with log := s.w.log
            ++ [Event.openOut (sprintf_outname s.outname s.nout) (env.open_ret s.w.log.length)]
            ++ wordEvents (env.open_ret s.w.log.length) s.r_old
            ++ wordEvents (env.open_ret s.w.log.length) FW_START4 } 8 body with
        log := s.w.log
            ++ [Event.openOut (sprintf_outname s.outname s.nout) (env.open_ret s.w.log.length)]
            ++ wordEvents (env.open_ret s.w.log.length) s.r_old
            ++ wordEvents (env.open_ret s.w.log.length) FW_START4
            ++ payloadEvents (env.open_ret s.w.log.length) body }
        (8 + 4 * (body.length : Int)) FW_END
      = { decodeWords s.w 8 (body ++ [FW_END]) with
          log := s.w.log
            ++ [Event.openOut (sprintf_outname s.outname s.nout) (env.open_ret s.w.log.length)]
            ++ wordEvents (env.open_ret s.w.log.length) s.r_old
            ++ wordEvents (env.open_ret s.w.log.length) FW_START4
            ++ payloadEvents (env.open_ret s.w.log.length) body } := by
    rw [decode_with_log, decodeWords_with_log, decode_with_log, decodeWords_append]
    rfl
  rw [e1]
  simp only [payloadEvents_cons, payloadEvents_nil, payloadEvents_append, List.append_assoc,
    List.cons_append, List.nil_append, List.append_nil]
  congr 1
  · omega
  · ring
  · ring

theorem iteration_ret_cases (env : Env) (src : List Nat) (s s' : State) (c : Int)
    (h : iteration env src s = Outcome.ret c s') :
    (readWord env.host src s.pos = none ∧ s.in_fw = 0 ∧ c = s.ret ∧ s' = s)
    ∨ (readWord env.host src s.pos = none ∧ s.in_fw ≠ 0 ∧ c = env.unlink_ret s.w.log.length ∧
        s' = { s with
          ret := env.unlink_ret s.w.log.length,
          w := { s.w with log := s.w.log
                  ++ [Event.unlink s.outname (env.unlink_ret s.w.log.length)] } })
    ∨ (s.in_fw = 0 ∧ readWord env.host src s.pos = some FW_START4 ∧ c = 1 ∧
        env.open_ret s.w.log.length < 0 ∧
        s' = { s with
          r := FW_START4, pos := s.pos + 4,
          outname := sprintf_outname s.outname s.nout,
          o_start := s.o - 4, nout := s.nout + 1, in_fw := 1, oo := 0,
          fdout := env.open_ret s.w.log.length,
          w := { s.w with log := s.w.log
                  ++ [Event.openOut (sprintf_outname s.outname s.nout)
                        (env.open_ret s.w.log.length)] } })
    ∨ (s.in_fw = 0 ∧ readWord env.host src s.pos = some FW_START4 ∧ c = 2 ∧
        s' = { s with
          r := FW_START4, pos := s.pos + 4,
          outname := sprintf_outname s.outname s.nout,
          o_start := s.o - 4, nout := s.nout + 1, in_fw := 1, oo := 0,
          fdout := env.open_ret s.w.log.length,
          w := (write_output env
                 { s.w with log := s.w.log
                    ++ [Event.openOut (sprintf_outname s.outname s.nout)
                          (env.open_ret s.w.log.length)] }
                 (env.open_ret s.w.log.length) 0 s.r_old).2 })
    ∨ (s.in_fw = 0 ∧ readWord env.host src s.pos = some FW_START4 ∧ c = 2 ∧
        s' = { s with
          r := FW_START4, pos := s.pos + 4,
          outname := sprintf_outname s.outname s.nout,
          o_start := s.o - 4, nout := s.nout + 1, in_fw := 1, oo := 4,
          fdout := env.open_ret s.w.log.length,
          w := (write_output env
                 (write_output env
                   { s.w with log := s.w.log
                      ++ [Event.openOut (sprintf_outname s.outname s.nout)
                            (env.open_ret s.w.log.length)] }
                   (env.open_ret s.w.log.length) 0 s.r_old).2
                 (env.open_ret s.w.log.length) 4 FW_START4).2 })
    ∨ (s.in_fw ≠ 0 ∧ c = 2 ∧ ∃ r, readWord env.host src s.pos = some r ∧
        (write_output env s.w s.fdout s.oo r).1 < 0 ∧
        s' = { s with
          r := r, pos := s.pos + 4,
          w := (write_output env s.w s.fdout s.oo r).2 }) := by
  unfold iteration at h
  cases hr : readWord env.host src s.pos with
  | none =>
    rw [hr] at h
    simp only [epilogue] at h
    by_cases hs : s.in_fw = 0
    · rw [if_neg (by simpa using hs)] at h
      simp only [Outcome.ret.injEq] at h
      exact Or.inl ⟨rfl, hs, h.1.symm, h.2.symm⟩
    · rw [if_pos hs] at h
      simp only [Outcome.ret.injEq] at h
      exact Or.inr (Or.inl ⟨rfl, hs, h.1.symm, h.2.symm⟩)
  | some r =>
    rw [hr] at h
    simp only [body] at h
    by_cases hs : s.in_fw = 0
    · rw [if_pos hs] at h
      by_cases hst : r = FW_START4
      · subst hst
        rw [if_pos rfl] at h
        split at h
        · rename_i ho
          simp only [Outcome.ret.injEq] at h
          refine Or.inr (Or.inr (Or.inl ⟨hs, rfl, h.1.symm, by simpa using ho, ?_⟩))
          rw [← h.2]
          simp [hs]
        · split at h
          · simp only [Outcome.ret.injEq] at h
            refine Or.inr (Or.inr (Or.inr (Or.inl ⟨hs, rfl, h.1.symm, ?_⟩)))
            rw [← h.2]
            simp [hs]
          · split at h
            · simp only [Outcome.ret.injEq] at h
              refine Or.inr (Or.inr (Or.inr (Or.inr (Or.inl ⟨hs, rfl, h.1.symm, ?_⟩))))
              rw [← h.2]
              simp [hs]
            · cases h
      · rw [if_neg hst] at h
        cases h
    · rw [if_neg hs] at h
      split at h
      · rename_i hw
        simp only [Outcome.ret.injEq] at h
        exact Or.inr (Or.inr (Or.inr (Or.inr (Or.inr
          ⟨hs, h.1.symm, r, rfl, by simpa using hw, h.2.symm⟩))))
      · by_cases hen : r = FW_END
        · subst hen
          rw [if_pos rfl] at h
          have hc := end_of_fw_cases env
            { s with
              r := FW_END, pos := s.pos + 4,
              w := (write_output env s.w s.fdout s.oo FW_END).2, oo := s.oo + 4 }
          rcases hc with ⟨-, he'⟩ | ⟨-, he'⟩ <;> rw [he'] at h <;> cases h
        · rw [if_neg hen] at h
          cases h

/-! ## Invariants of the trace -/

theorem write_output_log (env : Env) (w : World) (f : Int) (oo : Int) (r : Nat) :
    (write_output env w f oo r).2.log = w.log ++ writeEvents env w.log.length f r := by
  rw [write_output_snd]
  simp [decode_log, writeEvents]

theorem laterNames_nil (k : Nat) : LaterNames k [] ↔ True := by
  simp [LaterNames]

theorem laterNames_append (k : Nat) (a b : List Event) :
    LaterNames k (a ++ b) ↔ LaterNames k a ∧ LaterNames k b := by
  simp only [LaterNames, List.mem_append]
  constructor
  · intro h
    exact ⟨fun e he => h e (Or.inl he), fun e he => h e (Or.inr he)⟩
  · rintro ⟨ha, hb⟩ e (he | he)
    · exact ha e he
    · exact hb e he

theorem laterNames_cons (k : Nat) (e : Event) (l : List Event) :
    LaterNames k (e :: l)
      ↔ (∀ name, e.artifact = some name → ∃ j, k ≤ j ∧ name = provisionalName j)
        ∧ LaterNames k l := by
  simp only [LaterNames, List.mem_cons]
  constructor
  · intro h
    exact ⟨h e (Or.inl rfl), fun e' he => h e' (Or.inr he)⟩
  · rintro ⟨ha, hb⟩ e' (rfl | he)
    · exact ha
    · exact hb e' he

theorem laterNames_writeEvents (k : Nat) (env : Env) (n : Nat) (f : Int) (r : Nat) :
    LaterNames k (writeEvents env n f r) ↔ True := by
  simp [writeEvents, laterNames_cons, laterNames_nil, Event.artifact]

theorem iteration_trace (env : Env) (src : List Nat) (k : Nat) (s : State) (hi : Inv s)
    (hf : Fresh k s) :
    (iteration env src s).state.w.log = s.w.log ++ newEvents env src s
      ∧ LaterNames k (newEvents env src s)
      ∧ ∀ s', iteration env src s = Outcome.next s' → Fresh k s' := by
  obtain ⟨h1, h2, h3, h4⟩ := hi
  obtain ⟨hk, hk'⟩ := hf
  have hnew : ∃ j, k ≤ j ∧ sprintf_outname s.outname s.nout = provisionalName j :=
    ⟨s.nout, hk, sprintf_outname_eq _ _ h3⟩
  have hcur : s.in_fw ≠ 0 → ∃ j, k ≤ j ∧ s.outname = provisionalName j := by
    intro hs
    obtain ⟨-, -, -, hn, hname⟩ := h4 hs
    exact ⟨s.nout - 1, by have := hk' hs; omega, hname⟩
  unfold newEvents
  cases hit : iteration env src s with
  | next s' =>
    rcases iteration_next_cases5 env src s s' hit with
      ⟨hs, r, -, -, rfl⟩ | ⟨hs, -, -, rfl⟩ | ⟨hs, r, -, -, rfl⟩ | ⟨hs, -, -, -, rfl⟩
        | ⟨hs, -, -, -, rfl⟩
    · refine ⟨by simp [Outcome.state], by simp [Outcome.state, laterNames_nil], ?_⟩
      intro s' he
      cases he
      exact ⟨hk, fun hc => absurd hs hc⟩
    · refine ⟨by simp [Outcome.state, write_output_log], ?_, ?_⟩
      · simp [Outcome.state, write_output_log, laterNames_append, laterNames_cons,
          laterNames_nil, laterNames_writeEvents, Event.artifact, hnew]
      · intro s' he
        cases he
        exact ⟨by simp only; omega, fun _ => by simp only; omega⟩
    · refine ⟨by simp [Outcome.state, write_output_log], ?_, ?_⟩
      · simp [Outcome.state, write_output_log, laterNames_writeEvents]
      · intro s' he
        cases he
        exact ⟨hk, hk'⟩
    · refine ⟨by simp [Outcome.state, write_output_log], ?_, ?_⟩
      · simp [Outcome.state, write_output_log, laterNames_append, laterNames_cons,
          laterNames_nil, laterNames_writeEvents, Event.artifact, hcur hs]
      · intro s' he
        cases he
        exact ⟨hk, fun hc => absurd rfl hc⟩
    · refine ⟨by simp [Outcome.state, write_output_log], ?_, ?_⟩
      · simp [Outcome.state, write_output_log, laterNames_append, laterNames_cons,
          laterNames_nil, laterNames_writeEvents, Event.artifact, hcur hs]
      · intro s' he
        cases he
        exact ⟨hk, fun hc => absurd rfl hc⟩
  | ret c s' =>
    refine ⟨?_, ?_, fun s'' he => by cases he⟩
    · rcases iteration_ret_cases env src s s' c hit with
        ⟨-, hs, -, rfl⟩ | ⟨-, hs, -, rfl⟩ | ⟨hs, -, -, -, rfl⟩ | ⟨hs, -, -, rfl⟩
          | ⟨hs, -, -, rfl⟩ | ⟨hs, -, r, -, -, rfl⟩ <;>
        simp [Outcome.state, write_output_log]
    · rcases iteration_ret_cases env src s s' c hit with
        ⟨-, hs, -, rfl⟩ | ⟨-, hs, -, rfl⟩ | ⟨hs, -, -, -, rfl⟩ | ⟨hs, -, -, rfl⟩
          | ⟨hs, -, -, rfl⟩ | ⟨hs, -, r, -, -, rfl⟩
      · simp [Outcome.state, laterNames_nil]
      · simp [Outcome.state, laterNames_cons, laterNames_nil, Event.artifact, hcur hs]
      · simp [Outcome.state, laterNames_cons, laterNames_nil, Event.artifact, hnew]
      · simp [Outcome.state, write_output_log, laterNames_append, laterNames_cons,
          laterNames_nil, laterNames_writeEvents, Event.artifact, hnew]
      · simp [Outcome.state, write_output_log, laterNames_append, laterNames_cons,
          laterNames_nil, laterNames_writeEvents, Event.artifact, hnew]
      · simp [Outcome.state, write_output_log, laterNames_writeEvents]

theorem provisionalName_injective (j k : Nat) (h : provisionalName j = provisionalName k) :
    j = k := by
  have hd : ∀ n, (provisionalName n).data.drop 11 = (fmt_0d 3 n).data ++ '.' :: "bin".data := by
    intro n
    simp [provisionalName, String.data_append]
  have hj := parseField_fmt_0d 3 j "bin".data
  have hk := parseField_fmt_0d 3 k "bin".data
  rw [← hd, h, hd, hk] at hj
  simpa using hj.symm

theorem iterations_trace (env : Env) (src : List Nat) (k : Nat) :
    ∀ (n : Nat) (s : State), Inv s → Fresh k s →
      ∃ evs, (iterations env src n s).state.w.log = s.w.log ++ evs ∧ LaterNames k evs := by
  intro n
  induction n with
  | zero =>
    intro s _ _
    exact ⟨[], by simp [iterations, Outcome.state], (laterNames_nil k).2 trivial⟩
  | succ n ih =>
    intro s hi hf
    obtain ⟨h1, h2, h3⟩ := iteration_trace env src k s hi hf
    simp only [iterations]
    cases hit : iteration env src s with
    | ret c s' =>
      rw [hit] at h1
      exact ⟨_, h1, h2⟩
    | next s' =>
      rw [hit] at h1
      obtain ⟨evs, he1, he2⟩ := ih s' (inv_next env src s s' hi hit) (h3 s' hit)
      refine ⟨newEvents env src s ++ evs, ?_, (laterNames_append _ _ _).2 ⟨h2, he2⟩⟩
      rw [he1]
      simp only [Outcome.state] at h1
      rw [h1, List.append_assoc]

theorem openedNames_append (a b : List Event) :
    openedNames (a ++ b) = openedNames a ++ openedNames b := by
  induction a with
  | nil => rfl
  | cons e a ih =>
    cases e <;> simp [openedNames, ih]

theorem openedNames_writeEvents (env : Env) (n : Nat) (f : Int) (r : Nat) :
    openedNames (writeEvents env n f r) = [] := rfl

theorem iteration_opened (env : Env) (src : List Nat) (s : State) (hi : Inv s)
    (ho : openedNames s.w.log = (List.range s.nout).map provisionalName) :
    openedNames (iteration env src s).state.w.log
      = (List.range (iteration env src s).state.nout).map provisionalName := by
  obtain ⟨h1, h2, h3, h4⟩ := hi
  have hn := sprintf_outname_eq s.outname s.nout h3
  cases hit : iteration env src s with
  | next s' =>
    rcases iteration_next_cases5 env src s s' hit with
      ⟨hs, r, -, -, rfl⟩ | ⟨hs, -, -, rfl⟩ | ⟨hs, r, -, -, rfl⟩ | ⟨hs, -, -, -, rfl⟩
        | ⟨hs, -, -, -, rfl⟩ <;>
      simp [Outcome.state, write_output_log, openedNames_append, openedNames_writeEvents,
        openedNames, ho, hn, List.range_succ]
  | ret c s' =>
    rcases iteration_ret_cases env src s s' c hit with
      ⟨-, hs, -, rfl⟩ | ⟨-, hs, -, rfl⟩ | ⟨hs, -, -, -, rfl⟩ | ⟨hs, -, -, rfl⟩
        | ⟨hs, -, -, rfl⟩ | ⟨hs, -, r, -, -, rfl⟩ <;>
      simp [Outcome.state, write_output_log, openedNames_append, openedNames_writeEvents,
        openedNames, ho, hn, List.range_succ]

theorem iterations_opened (env : Env) (src : List Nat) :
    ∀ (n : Nat) (s : State), Inv s →
      openedNames s.w.log = (List.range s.nout).map provisionalName →
      openedNames (iterations env src n s).state.w.log
        = (List.range (iterations env src n s).state.nout).map provisionalName := by
  intro n
  induction n with
  | zero => intro s _ ho; exact ho
  | succ n ih =>
    intro s hi ho
    have h := iteration_opened env src s hi ho
    simp only [iterations]
    cases hit : iteration env src s with
    | ret c s' => rw [hit] at h; exact h
    | next s' =>
      rw [hit] at h
      exact ih s' (inv_next env src s s' hi hit) h

/-! ## From iterations to the result of the scan -/

theorem scan_eq_of_iterations (env : Env) (src : List Nat) (n : Nat) (c : Int) (st : State)
    (h : iterations env src n init = Outcome.ret c st) : scan env src = some (c, st) := by
  obtain ⟨c', st', hs, hi⟩ := scan_returns env src
  have h1 := iterations_ret_add env src n (fuelBound src.length) init st c h
  have h2 := iterations_ret_add env src (fuelBound src.length) n init st' c' hi
  rw [Nat.add_comm] at h2
  rw [h1] at h2
  cases h2
  exact hs

theorem scan_of_reached (env : Env) (src : List Nat) (n : Nat) (s : State)
    (h : iterations env src n init = Outcome.next s) :
    ∃ c st, scan env src = some (c, st)
      ∧ iterations env src (fuelBound src.length) s = Outcome.ret c st := by
  obtain ⟨c', st', hs, hi⟩ := scan_returns env src
  have h1 := iterations_next_add env src n (fuelBound src.length) init s h
  have h2 := iterations_ret_add env src (fuelBound src.length) n init st' c' hi
  rw [Nat.add_comm] at h2
  rw [h1] at h2
  exact ⟨c', st', hs, h2⟩

theorem byteswap_data_start_ne_zero (h : ByteOrder) : byteswap_data h FW_START4 ≠ 0 := by
  cases h <;> decide

theorem session_iterations (env : Env) (hio : env.ioOk) (src : List Nat) (s : State)
    (body : List Nat) (hs : s.in_fw = 0)
    (hwords : WordsAt env.host src s.pos (FW_START4 :: body ++ [FW_END]))
    (hbody : ∀ w ∈ body, w ≠ FW_END) :
    iterations env src (body.length + 2) s = end_of_fw env (endState env s body) := by
  have h := session_to_end env hio src s body hs hwords hbody
  rw [session_end_state env hio] at h
  have e : body.length + 2 = 1 + (body.length + 1) := by omega
  rw [e]
  exact h

theorem session_commit (env : Env) (hio : env.ioOk) (src : List Nat) (s : State)
    (body : List Nat) (hs : s.in_fw = 0)
    (hwords : WordsAt env.host src s.pos (FW_START4 :: body ++ [FW_END]))
    (hbody : ∀ w ∈ body, w ≠ FW_END)
    (hq : (((byteswap_data env.host s.r_old + 32) % 2 ^ 32 : Nat) : Int)
      = 4 * ((body.length : Int) + 3)) :
    iterations env src (body.length + 2) s
      = Outcome.next (commitState env (endState env s body)) := by
  rw [session_iterations env hio src s body hs hwords hbody]
  exact end_of_fw_commit env _ hq

theorem session_mismatch (env : Env) (hio : env.ioOk) (src : List Nat) (s : State)
    (body : List Nat) (hs : s.in_fw = 0)
    (hwords : WordsAt env.host src s.pos (FW_START4 :: body ++ [FW_END]))
    (hbody : ∀ w ∈ body, w ≠ FW_END)
    (hq : (((byteswap_data env.host s.r_old + 32) % 2 ^ 32 : Nat) : Int)
      ≠ 4 * ((body.length : Int) + 3)) :
    iterations env src (body.length + 2) s
      = Outcome.next (mismatchState env (endState env s body)) := by
  rw [session_iterations env hio src s body hs hwords hbody]
  exact end_of_fw_mismatch env _ hq

theorem iterations_at_end (env : Env) (src : List Nat) (s : State)
    (hp : src.length < s.pos + 4) (hs : s.in_fw = 0) :
    iterations env src 1 s = Outcome.ret s.ret s := by
  have hr : readWord env.host src s.pos = none := by
    cases hrd : readWord env.host src s.pos with
    | none => rfl
    | some r =>
      have := readWord_some_le _ _ _ _ hrd
      omega
  rw [iterations_one, iteration_eof env src s hr]
  simp [epilogue, hs]

theorem sprintf_outnamenew_with_log (w : World) (l : List Event) :
    sprintf_outnamenew { w with log := l } = sprintf_outnamenew w := rfl

theorem two_sessions_reached (env : Env) (hio : env.ioOk) (src : List Nat)
    (pre body1 gap body2 : List Nat) (L1 L2 : Nat)
    (hW : WordsAt env.host src 0
      ((pre ++ [L1]) ++ ((FW_START4 :: body1 ++ [FW_END])
        ++ ((gap ++ [L2]) ++ (FW_START4 :: body2 ++ [FW_END])))))
    (hpre : ∀ w ∈ pre, w ≠ FW_START4) (hL1 : L1 ≠ FW_START4)
    (hb1s : ∀ w ∈ body1, w ≠ FW_START4) (hgap : ∀ w ∈ gap, w ≠ FW_START4)
    (hL2 : L2 ≠ FW_START4)
    (hb1e : ∀ w ∈ body1, w ≠ FW_END) (hb2e : ∀ w ∈ body2, w ≠ FW_END)
    (hmis : (((byteswap_data env.host L1 + 32) % 2 ^ 32 : Nat) : Int)
      ≠ 4 * ((body1.length : Int) + 3))
    (hok : (((byteswap_data env.host L2 + 32) % 2 ^ 32 : Nat) : Int)
      = 4 * ((body2.length : Int) + 3)) :
    iterations env src
        (((pre ++ [L1]).length + (body1.length + 2))
          + ((body1 ++ [FW_END] ++ (gap ++ [L2])).length + (body2.length + 2))) init
      = Outcome.next
          (commitState env (endState env
            (skipWords (mismatchState env (endState env (skipWords init (pre ++ [L1])) body1))
              (body1 ++ [FW_END] ++ (gap ++ [L2])))
            body2)) := by
  obtain ⟨hWA, hW1⟩ := (wordsAt_append _ _ _ _ _).1 hW
  obtain ⟨hWS1, hW2⟩ := (wordsAt_append _ _ _ _ _).1 hW1
  obtain ⟨hWG, hWS2⟩ := (wordsAt_append _ _ _ _ _).1 hW2
  -- scanning up to the first length word
  have hA : iterations env src (pre ++ [L1]).length init
      = Outcome.next (skipWords init (pre ++ [L1])) :=
    iterations_skip env src _ init rfl hWA (by
      intro w hw
      rcases List.mem_append.1 hw with h | h
      · exact hpre w h
      · rw [List.mem_singleton.1 h]; exact hL1)
  have e1 : skipWords init (pre ++ [L1])
      = { init with
          r := L1, r_old := L1, pos := 4 * (pre.length + 1),
          o := 4 * ((pre.length : Int) + 1) } := by
    rw [skipWords_eq, lastWord_append_singleton, lastWord_append_singleton]
    simp [init]
  -- the first session fails the length check
  have hB := session_mismatch env hio src (skipWords init (pre ++ [L1])) body1
    (by rw [e1]; rfl) (by rw [e1]; simpa using hWS1) hb1e (by rw [e1]; exact hmis)
  have hAB := iterations_next_add env src _ (body1.length + 2) init _ hA
  rw [hB] at hAB
  -- scanning resumes behind the first start marker
  have hpos2 : (mismatchState env (endState env (skipWords init (pre ++ [L1])) body1)).pos
      = 4 * (pre ++ [L1]).length + 4 := by
    rw [e1]
    simp only [mismatchState, endState, lseek_set, List.length_append, List.length_singleton]
    rw [if_pos (by omega)]
    omega
  have hWR : WordsAt env.host src (4 * (pre ++ [L1]).length + 4)
      (body1 ++ [FW_END] ++ (gap ++ [L2])) := by
    refine (wordsAt_append _ _ _ _ _).2 ⟨?_, ?_⟩
    · have := hWS1.2
      simpa using this
    · have e : 4 * (pre ++ [L1]).length + 4 + 4 * (body1 ++ [FW_END]).length
          = 0 + 4 * (pre ++ [L1]).length + 4 * (FW_START4 :: body1 ++ [FW_END]).length := by
        simp only [List.length_append, List.length_cons, List.length_singleton,
          List.length_nil]
        omega
      rw [e]
      exact hWG
  have hC : iterations env src (body1 ++ [FW_END] ++ (gap ++ [L2])).length
      (mismatchState env (endState env (skipWords init (pre ++ [L1])) body1))
      = Outcome.next (skipWords
          (mismatchState env (endState env (skipWords init (pre ++ [L1])) body1))
          (body1 ++ [FW_END] ++ (gap ++ [L2]))) :=
    iterations_skip env src _ _ rfl (by rw [hpos2]; exact hWR) (by
      intro w hw
      simp only [List.mem_append, List.mem_singleton] at hw
      rcases hw with (h | h) | (h | h)
      · exact hb1s w h
      · rw [h]; decide
      · exact hgap w h
      · rw [h]; exact hL2)
  -- the second session passes the length check
  have e3 : ∀ s : State, (skipWords s (body1 ++ [FW_END] ++ (gap ++ [L2]))).r_old = L2 := by
    intro s
    have e : body1 ++ [FW_END] ++ (gap ++ [L2]) = (body1 ++ [FW_END] ++ gap) ++ [L2] := by
      simp
    rw [e, skipWords_eq]
    exact lastWord_append_singleton _ _ _
  have e3' : ∀ s : State, (skipWords s (body1 ++ [FW_END] ++ (gap ++ [L2]))).in_fw
      = s.in_fw := by
    intro s
    rw [skipWords_eq]
  have e3p : ∀ s : State, (skipWords s (body1 ++ [FW_END] ++ (gap ++ [L2]))).pos
      = s.pos + 4 * (body1 ++ [FW_END] ++ (gap ++ [L2])).length := by
    intro s
    rw [skipWords_eq]
  have hD := session_commit env hio src
    (skipWords (mismatchState env (endState env (skipWords init (pre ++ [L1])) body1))
      (body1 ++ [FW_END] ++ (gap ++ [L2]))) body2
    (by rw [e3']; rfl)
    (by
      rw [e3p, hpos2]
      have e : 4 * (pre ++ [L1]).length + 4
            + 4 * (body1 ++ [FW_END] ++ (gap ++ [L2])).length
          = 0 + 4 * (pre ++ [L1]).length + 4 * (FW_START4 :: body1 ++ [FW_END]).length
            + 4 * (gap ++ [L2]).length := by
        simp only [List.length_append, List.length_cons, List.length_singleton,
          List.length_nil]
        omega
      rw [e]
      exact hWS2)
    hb2e (by rw [e3]; exact hok)
  have hCD := iterations_next_add env src _ (body2.length + 2) _ _ hC
  rw [hD] at hCD
  have hAll := iterations_next_add env src _
    ((body1 ++ [FW_END] ++ (gap ++ [L2])).length + (body2.length + 2)) init _ hAB
  rw [hCD] at hAll
  exact hAll

theorem mem_payloadEvents (f : Int) (ws : List Nat) (e : Event)
    (h : e ∈ payloadEvents f ws) : ∃ d, e = Event.write f d 1 := by
  induction ws with
  | nil => cases h
  | cons r ws ih =>
    rw [payloadEvents_cons] at h
    rcases List.mem_append.1 h with h | h
    · simp only [wordEvents, List.mem_cons, List.mem_singleton, List.not_mem_nil,
        or_false] at h
      rcases h with rfl | rfl | rfl | rfl <;> exact ⟨_, rfl⟩
    · exact ih h

theorem rename_not_mem_sessionEvents (name : String) (fd : Int) (ws : List Nat)
    (a b : String) (c : Int) : Event.rename a b c ∉ sessionEvents name fd ws := by
  intro h
  simp only [sessionEvents, List.cons_append, List.mem_cons, List.mem_append,
    List.mem_singleton, List.not_mem_nil, or_false] at h
  rcases h with h | h | h
  · cases h
  · obtain ⟨d, hd⟩ := mem_payloadEvents _ _ _ h
    cases hd
  · cases h

theorem decodeWords_payload (w : World) (a b : Nat) (rest : List Nat) :
    decodeWords w 0 ([a, b] ++ rest) = decodeWords w 8 rest := by
  show decodeWords (decode (decode w 0 a) (0 + 4) b) (0 + 4 + 4) rest = decodeWords w 8 rest
  rw [decode_of_lt w 0 a (by decide), decode_of_lt w (0 + 4) b (by decide)]
  rfl

theorem mismatch_session_world (env : Env) (s : State) (body : List Nat) :
    ∃ fd r,
      (mismatchState env (endState env s body)).w
        = { decodeWords s.w 8 (body ++ [FW_END]) with
            log := s.w.log
              ++ sessionEvents (sprintf_outname s.outname s.nout) fd
                  ([s.r_old, FW_START4] ++ body ++ [FW_END])
              ++ [Event.unlink (sprintf_outname s.outname s.nout) r,
                  Event.lseek (s.o - 4 + 8)] } :=
  ⟨env.open_ret s.w.log.length, (mismatchState env (endState env s body)).ret, by
    simp [mismatchState, endState, sessionEvents]⟩

theorem commit_session_world (env : Env) (s : State) (body : List Nat) :
    ∃ fd r,
      (commitState env (endState env s body)).w
        = { decodeWords s.w 8 (body ++ [FW_END]) with
            log := s.w.log
              ++ sessionEvents (sprintf_outname s.outname s.nout) fd
                  ([s.r_old, FW_START4] ++ body ++ [FW_END])
              ++ [Event.rename (sprintf_outname s.outname s.nout)
                    (sprintf_outnamenew (decodeWords s.w 8 (body ++ [FW_END]))) r] } :=
  ⟨env.open_ret s.w.log.length, (commitState env (endState env s body)).ret, by
    simp [commitState, endState, sessionEvents, sprintf_outnamenew_with_log]⟩

theorem two_sessions_state (env : Env) (pre body1 gap body2 : List Nat) (L1 L2 : Nat) :
    ∃ fd0 r0 fd1 r1,
      (commitState env (endState env
          (skipWords (mismatchState env (endState env (skipWords init (pre ++ [L1])) body1))
            (body1 ++ [FW_END] ++ (gap ++ [L2])))
          body2)).w.log
        = sessionEvents "marvell_fw_000.bin" fd0 ([L1, FW_START4] ++ body1 ++ [FW_END])
          ++ [Event.unlink "marvell_fw_000.bin" r0, Event.lseek (4 * (pre.length : Int) + 8)]
          ++ sessionEvents "marvell_fw_001.bin" fd1 ([L2, FW_START4] ++ body2 ++ [FW_END])
          ++ [Event.rename "marvell_fw_001.bin"
                (sprintf_outnamenew
                  (decodeWords (decodeWords init.w 0 ([L1, FW_START4] ++ body1 ++ [FW_END]))
                    0 ([L2, FW_START4] ++ body2 ++ [FW_END]))) r1]
      ∧ (commitState env (endState env
          (skipWords (mismatchState env (endState env (skipWords init (pre ++ [L1])) body1))
            (body1 ++ [FW_END] ++ (gap ++ [L2])))
          body2)).nout = 2
      ∧ (commitState env (endState env
          (skipWords (mismatchState env (endState env (skipWords init (pre ++ [L1])) body1))
            (body1 ++ [FW_END] ++ (gap ++ [L2])))
          body2)).in_fw = 0 := by
  have hp0 : sprintf_outname init.outname 0 = "marvell_fw_000.bin" := by decide
  have hp1 : sprintf_outname "marvell_fw_000.bin" 1 = "marvell_fw_001.bin" := by decide
  have hl0 : init.w.log = [] := rfl
  -- the state at the first start marker
  have f1w : (skipWords init (pre ++ [L1])).w = init.w := by rw [skipWords_eq]
  have f1n : (skipWords init (pre ++ [L1])).nout = 0 := by rw [skipWords_eq]; rfl
  have f1m : (skipWords init (pre ++ [L1])).outname = init.outname := by rw [skipWords_eq]
  have f1r : (skipWords init (pre ++ [L1])).r_old = L1 := by
    rw [skipWords_eq]
    exact lastWord_append_singleton _ _ _
  have f1o : (skipWords init (pre ++ [L1])).o - 4 + 8 = 4 * (pre.length : Int) + 8 := by
    rw [skipWords_eq]
    simp only [List.length_append, List.length_singleton, init]
    push_cast
    ring
  generalize skipWords init (pre ++ [L1]) = s1 at *
  -- the state after the recovery
  obtain ⟨fd0, r0, hw0⟩ := mismatch_session_world env s1 body1
  have g1n : (mismatchState env (endState env s1 body1)).nout = s1.nout + 1 := rfl
  have g1m : (mismatchState env (endState env s1 body1)).outname
      = sprintf_outname s1.outname s1.nout := rfl
  generalize mismatchState env (endState env s1 body1) = x at *
  -- the state at the second start marker
  have f3w : (skipWords x (body1 ++ [FW_END] ++ (gap ++ [L2]))).w = x.w := by
    rw [skipWords_eq]
  have f3n : (skipWords x (body1 ++ [FW_END] ++ (gap ++ [L2]))).nout = x.nout := by
    rw [skipWords_eq]
  have f3m : (skipWords x (body1 ++ [FW_END] ++ (gap ++ [L2]))).outname = x.outname := by
    rw [skipWords_eq]
  have f3r : (skipWords x (body1 ++ [FW_END] ++ (gap ++ [L2]))).r_old = L2 := by
    have e : body1 ++ [FW_END] ++ (gap ++ [L2]) = (body1 ++ [FW_END] ++ gap) ++ [L2] := by
      simp
    rw [skipWords_eq, e]
    exact lastWord_append_singleton _ _ _
  generalize skipWords x (body1 ++ [FW_END] ++ (gap ++ [L2])) = s3 at *
  obtain ⟨fd1, r1, hw1⟩ := commit_session_world env s3 body2
  have g3n : (commitState env (endState env s3 body2)).nout = s3.nout + 1 := rfl
  refine ⟨fd0, r0, fd1, r1, ?_, ?_, rfl⟩
  · rw [hw1]
    simp only [f3w, f3n, f3m, f3r, hw0, g1n, g1m, f1w, f1n, f1m, f1r, f1o, hp0, hp1, hl0,
      decodeWords_payload, decodeWords_with_log, sprintf_outnamenew_with_log,
      List.nil_append, List.append_assoc, Nat.zero_add]
  · rw [g3n, f3n, g1n, f1n]

/-! ## The offset counter `oo` counts the bytes written -/

theorem write_output_fst (env : Env) (w : World) (f : Int) (oo : Int) (r : Nat) :
    (write_output env w f oo r).1
      = if env.write_ret (decode w oo r).log.length
            + env.write_ret ((decode w oo r).log.length + 1)
            + env.write_ret ((decode w oo r).log.length + 2)
            + env.write_ret ((decode w oo r).log.length + 3) < 4 then -2 else 0 := by
  simp only [write_output, write1, List.length_append, List.length_singleton, Nat.add_assoc,
    Int.zero_add]
  split <;> rfl

theorem writeEvents_of_ok (env : Env) (hle : ∀ i, env.write_ret i ≤ 1) (w : World) (f : Int)
    (oo : Int) (r : Nat) (h : 0 ≤ (write_output env w f oo r).1) :
    writeEvents env (decode w oo r).log.length f r = wordEvents f r := by
  have h0 := hle (decode w oo r).log.length
  have h1 := hle ((decode w oo r).log.length + 1)
  have h2 := hle ((decode w oo r).log.length + 2)
  have h3 := hle ((decode w oo r).log.length + 3)
  rw [write_output_fst] at h
  split at h
  · exact absurd h (by decide)
  · have e0 : env.write_ret (decode w oo r).log.length = 1 := by omega
    have e1 : env.write_ret ((decode w oo r).log.length + 1) = 1 := by omega
    have e2 : env.write_ret ((decode w oo r).log.length + 2) = 1 := by omega
    have e3 : env.write_ret ((decode w oo r).log.length + 3) = 1 := by omega
    simp [writeEvents, wordEvents, byteAt, e0, e1, e2, e3]

theorem write_output_log_ok (env : Env) (hle : ∀ i, env.write_ret i ≤ 1) (w : World) (f : Int)
    (oo : Int) (r : Nat) (h : 0 ≤ (write_output env w f oo r).1) :
    (write_output env w f oo r).2.log = w.log ++ wordEvents f r := by
  have := writeEvents_of_ok env hle w f oo r h
  rw [decode_log] at this
  rw [write_output_log, this]

theorem sessionBytes_append_wordEvents (l : List Event) (f : Int) (r : Nat) :
    sessionBytes (l ++ wordEvents f r) = sessionBytes l + 4 := by
  simp only [sessionBytes, wordEvents, List.foldl_append, List.foldl_cons, List.foldl_nil]
  omega

theorem sessionBytes_append_openOut (l : List Event) (name : String) (fd : Int) :
    sessionBytes (l ++ [Event.openOut name fd]) = 0 := by
  simp [sessionBytes, List.foldl_append]

theorem iteration_next_writes (env : Env) (src : List Nat) (s s' : State)
    (h : iteration env src s = Outcome.next s') :
    (s.in_fw = 0 → readWord env.host src s.pos = some FW_START4 →
        0 ≤ (write_output env
              { s.w with log := s.w.log
                  ++ [Event.openOut (sprintf_outname s.outname s.nout)
                        (env.open_ret s.w.log.length)] }
              (env.open_ret s.w.log.length) 0 s.r_old).1
          ∧ 0 ≤ (write_output env
              (write_output env
                { s.w with log := s.w.log
                    ++ [Event.openOut (sprintf_outname s.outname s.nout)
                          (env.open_ret s.w.log.length)] }
                (env.open_ret s.w.log.length) 0 s.r_old).2
              (env.open_ret s.w.log.length) 4 FW_START4).1)
      ∧ (s.in_fw ≠ 0 → ∀ r, readWord env.host src s.pos = some r →
          0 ≤ (write_output env s.w s.fdout s.oo r).1) := by
  unfold iteration at h
  cases hr : readWord env.host src s.pos with
  | none =>
    rw [hr] at h
    simp only [epilogue] at h
    split at h <;> cases h
  | some r =>
    rw [hr] at h
    simp only [body] at h
    by_cases hs : s.in_fw = 0
    · refine ⟨?_, fun hc => absurd hs hc⟩
      intro _ hst
      cases hst
      rw [if_pos hs, if_pos rfl] at h
      split at h
      · cases h
      · split at h
        · cases h
        · rename_i h1
          split at h
          · cases h
          · rename_i h2
            exact ⟨by simpa using h1, by simpa using h2⟩
    · refine ⟨fun hc => absurd hc hs, ?_⟩
      intro _ r' hr'
      cases hr'
      rw [if_neg hs] at h
      split at h
      · cases h
      · rename_i hw
        simpa using hw

theorem oo_counts_bytes_next (env : Env) (hle : ∀ i, env.write_ret i ≤ 1) (src : List Nat)
    (s s' : State) (hb : s.in_fw ≠ 0 → s.oo = sessionBytes s.w.log)
    (h : iteration env src s = Outcome.next s') :
    s'.in_fw ≠ 0 → s'.oo = sessionBytes s'.w.log := by
  obtain ⟨hw1, hw2⟩ := iteration_next_writes env src s s' h
  rcases iteration_next_cases5 env src s s' h with
    ⟨hs, r, -, -, rfl⟩ | ⟨hs, hr, -, rfl⟩ | ⟨hs, r, hr, -, rfl⟩ | ⟨hs, -, -, -, rfl⟩
      | ⟨hs, -, -, -, rfl⟩
  · intro hc; exact absurd hs hc
  · intro _
    obtain ⟨ha, hb'⟩ := hw1 hs hr
    simp only [write_output_log_ok env hle _ _ _ _ hb',
      write_output_log_ok env hle _ _ _ _ ha, sessionBytes_append_wordEvents,
      sessionBytes_append_openOut]
    rfl
  · intro _
    show s.oo + 4 = sessionBytes (write_output env s.w s.fdout s.oo r).2.log
    rw [write_output_log_ok env hle _ _ _ _ (hw2 hs r hr), sessionBytes_append_wordEvents,
      hb hs]
  · intro hc; exact absurd rfl hc
  · intro hc; exact absurd rfl hc

theorem oo_counts_bytes (env : Env) (hle : ∀ i, env.write_ret i ≤ 1) (src : List Nat) :
    ∀ (n : Nat) (s s' : State), (s.in_fw ≠ 0 → s.oo = sessionBytes s.w.log) →
      iterations env src n s = Outcome.next s' →
      s'.in_fw ≠ 0 → s'.oo = sessionBytes s'.w.log := by
  intro n
  induction n with
  | zero =>
    intro s s' hb h
    simp only [iterations, Outcome.next.injEq] at h
    exact h ▸ hb
  | succ n ih =>
    intro s s' hb h
    simp only [iterations] at h
    cases hit : iteration env src s with
    | ret c t => rw [hit] at h; cases h
    | next t =>
      rw [hit] at h
      exact ih t s' (oo_counts_bytes_next env hle src s t hb hit) h

theorem toDigits_length_le_three (k : Nat) (h : k < 1000) :
    (Nat.toDigits 10 k).length ≤ 3 := by
  unfold Nat.toDigits
  simp only [Nat.toDigitsCore]
  split
  · simp
  · obtain ⟨k1, rfl⟩ : ∃ k1, k = k1 + 1 := ⟨k - 1, by omega⟩
    simp only [Nat.toDigitsCore]
    split
    · simp
    · obtain ⟨k2, rfl⟩ : ∃ k2, k1 = k2 + 1 := ⟨k1 - 1, by omega⟩
      simp only [Nat.toDigitsCore]
      rw [if_pos (by omega)]
      simp

theorem fmt_0d_three_digits (k : Nat) (h : k < 1000) : (fmt_0d 3 k).data.length = 3 := by
  have := toDigits_length_le_three k h
  simp only [fmt_0d, List.length_append, List.length_replicate]
  omega

/-! ## The session flag -/

theorem in_fw_next (env : Env) (src : List Nat) (s s' : State) (hle : s.in_fw ≤ 1)
    (h : iteration env src s = Outcome.next s') : s'.in_fw ≤ 1 := by
  rcases iteration_next_cases5 env src s s' h with
    ⟨hs, r, -, -, rfl⟩ | ⟨hs, -, -, rfl⟩ | ⟨hs, r, -, -, rfl⟩ | ⟨hs, -, -, -, rfl⟩
      | ⟨hs, -, -, -, rfl⟩ <;> simp only <;> omega

theorem iterations_in_fw (env : Env) (src : List Nat) :
    ∀ (n : Nat) (s t : State), s.in_fw ≤ 1 → iterations env src n s = Outcome.next t →
      t.in_fw ≤ 1 := by
  intro n
  induction n with
  | zero =>
    intro s t hle h
    simp only [iterations, Outcome.next.injEq] at h
    rw [← h]
    exact hle
  | succ n ih =>
    intro s t hle h
    simp only [iterations] at h
    cases hit : iteration env src s with
    | ret c s' => rw [hit] at h; cases h
    | next s' =>
      rw [hit] at h
      exact ih s' t (in_fw_next env src s s' hle hit) h

theorem openOut_not_mem_writeEvents (env : Env) (n : Nat) (f : Int) (r : Nat) (name : String)
    (fd : Int) : Event.openOut name fd ∉ writeEvents env n f r := by
  simp [writeEvents]

theorem capturing_opens_nothing (env : Env) (src : List Nat) (s : State) (hcap : s.in_fw ≠ 0)
    (name : String) (fd : Int) : Event.openOut name fd ∉ newEvents env src s := by
  unfold newEvents
  cases hit : iteration env src s with
  | next s' =>
    rcases iteration_next_cases5 env src s s' hit with
      ⟨hs, r, -, -, rfl⟩ | ⟨hs, -, -, rfl⟩ | ⟨hs, r, -, -, rfl⟩ | ⟨hs, -, -, -, rfl⟩
        | ⟨hs, -, -, -, rfl⟩
    · exact absurd hs hcap
    · exact absurd hs hcap
    · simp [Outcome.state, write_output_log, writeEvents]
    · simp [Outcome.state, write_output_log, writeEvents]
    · simp [Outcome.state, write_output_log, writeEvents]
  | ret c s' =>
    rcases iteration_ret_cases env src s s' c hit with
      ⟨-, hs, -, rfl⟩ | ⟨-, hs, -, rfl⟩ | ⟨hs, -, -, -, rfl⟩ | ⟨hs, -, -, rfl⟩
        | ⟨hs, -, -, rfl⟩ | ⟨hs, -, r, -, -, rfl⟩
    · exact absurd hs hcap
    · simp [Outcome.state]
    · exact absurd hs hcap
    · exact absurd hs hcap
    · exact absurd hs hcap
    · simp [Outcome.state, write_output_log, writeEvents]

/-! ## The bytes of a word -/

theorem wordBytes_little_eq (y : Nat) :
    wordBytes ByteOrder.little y = [byteAt 0 y, byteAt 1 y, byteAt 2 y, byteAt 3 y] := by
  have hm : ∀ z : Nat, z &&& 0xff = z % 256 := fun z => Nat.and_pow_two_sub_one_eq_mod z 8
  simp only [wordBytes, byteAt, hm, Nat.shiftRight_eq_div_pow]
  norm_num

theorem byteswap_data_little_low (x : Nat) (hx : x < 2 ^ 32) :
    byteswap_data ByteOrder.little x &&& 0xffff = (byteAt 0 x <<< 8) ||| byteAt 1 x := by
  rw [byteswap_data_little_eq x hx]
  apply Nat.eq_of_testBit_eq
  intro i
  simp only [byteAt, Nat.testBit_and, Nat.testBit_or, Nat.testBit_shiftLeft,
    Nat.testBit_shiftRight, testBit_00ff00ff, testBit_ff, testBit_ffff]
  by_cases hi : i < 16
  · interval_cases i <;> simp
  · have a1 : ¬ i < 8 := by omega
    have a2 : ¬ i - 8 < 8 := by omega
    simp [hi, a1, a2]

/-! ## The start marker of the session in progress -/

theorem markerAt_next (env : Env) (src : List Nat) (s s' : State) (hi : Inv s)
    (hm : MarkerAt env src s) (h : iteration env src s = Outcome.next s') :
    MarkerAt env src s' := by
  obtain ⟨h1, -, -, -⟩ := hi
  rcases iteration_next_cases5 env src s s' h with
    ⟨hs, r, -, -, rfl⟩ | ⟨hs, hr, -, rfl⟩ | ⟨hs, r, -, -, rfl⟩ | ⟨hs, -, -, -, rfl⟩
      | ⟨hs, -, -, -, rfl⟩
  · intro hc; exact absurd hs hc
  · intro _
    have : (s.o - 4 + 4).toNat = s.pos := by omega
    simp only [this, hr]
  · intro _; exact hm hs
  · intro hc; exact absurd rfl hc
  · intro hc; exact absurd rfl hc

theorem iterations_markerAt (env : Env) (src : List Nat) :
    ∀ (n : Nat) (s t : State), Inv s → MarkerAt env src s →
      iterations env src n s = Outcome.next t → MarkerAt env src t := by
  intro n
  induction n with
  | zero =>
    intro s t _ hm h
    simp only [iterations, Outcome.next.injEq] at h
    exact h ▸ hm
  | succ n ih =>
    intro s t hi hm h
    simp only [iterations] at h
    cases hit : iteration env src s with
    | ret c s' => rw [hit] at h; cases h
    | next s' =>
      rw [hit] at h
      exact ih s' t (inv_next env src s s' hi hit) (markerAt_next env src s s' hi hm hit) h

/-! ## The status that is returned -/

theorem lastStatus_append_wordEvents (l : List Event) (f : Int) (r : Nat) :
    lastStatus (l ++ wordEvents f r) = lastStatus l := by
  simp [lastStatus, wordEvents, List.foldl_append]

theorem lastStatus_append_singleton (l : List Event) (e : Event) :
    lastStatus (l ++ [e])
      = match e with
        | Event.rename _ _ ret => ret
        | Event.unlink _ ret => ret
        | _ => lastStatus l := by
  simp only [lastStatus, List.foldl_append, List.foldl_cons, List.foldl_nil]

theorem last_status_next (env : Env) (hio : env.ioOk) (src : List Nat) (s s' : State)
    (h0 : s.ret = lastStatus s.w.log) (h : iteration env src s = Outcome.next s') :
    s'.ret = lastStatus s'.w.log := by
  rcases iteration_next_cases5 env src s s' h with
    ⟨hs, r, -, -, rfl⟩ | ⟨hs, -, -, rfl⟩ | ⟨hs, r, -, -, rfl⟩ | ⟨hs, -, -, -, rfl⟩
      | ⟨hs, -, -, -, rfl⟩
  · exact h0
  · simp only [write_output_ok env hio.2, lastStatus_append_wordEvents,
      lastStatus_append_singleton, h0]
  · simp only [write_output_ok env hio.2, lastStatus_append_wordEvents, h0]
  · simp only [write_output_ok env hio.2, lastStatus_append_singleton]
  · simp only [write_output_ok env hio.2, lastStatus_append_singleton]

theorem last_status_ret (env : Env) (hio : env.ioOk) (src : List Nat) (s s' : State) (c : Int)
    (h0 : s.ret = lastStatus s.w.log) (h : iteration env src s = Outcome.ret c s') :
    c = lastStatus s'.w.log := by
  rcases iteration_ret_cases env src s s' c h with
    ⟨-, hs, hc, rfl⟩ | ⟨-, hs, hc, rfl⟩ | ⟨hs, hr, -, -, rfl⟩ | ⟨hs, hr, -, rfl⟩
      | ⟨hs, hr, -, rfl⟩ | ⟨hs, -, r, hr, hw, rfl⟩
  · rw [hc, h0]
  · rw [hc]
    simp only [lastStatus_append_singleton]
  · rw [iteration_scan_start env hio src s hs hr] at h; cases h
  · rw [iteration_scan_start env hio src s hs hr] at h; cases h
  · rw [iteration_scan_start env hio src s hs hr] at h; cases h
  · rw [write_output_ok env hio.2] at hw
    simp at hw

theorem iterations_last_status (env : Env) (hio : env.ioOk) (src : List Nat) :
    ∀ (n : Nat) (s s' : State) (c : Int), s.ret = lastStatus s.w.log →
      iterations env src n s = Outcome.ret c s' → c = lastStatus s'.w.log := by
  intro n
  induction n with
  | zero => intro s s' c _ h; cases h
  | succ n ih =>
    intro s s' c h0 h
    simp only [iterations] at h
    cases hit : iteration env src s with
    | ret c' t =>
      rw [hit] at h
      cases h
      exact last_status_ret env hio src s s' c h0 hit
    | next t =>
      rw [hit] at h
      exact ih t s' c (last_status_next env hio src s t h0 hit) h

theorem scan_last_status (env : Env) (hio : env.ioOk) (src : List Nat) (c : Int) (st : State)
    (h : scan env src = some (c, st)) : c = lastStatus st.w.log := by
  obtain ⟨c', st', hs, hi⟩ := scan_returns env src
  rw [hs] at h
  cases h
  exact iterations_last_status env hio src _ init st c rfl hi

/-! ## A payload that passes the length check -/

theorem committed_payload (env : Env) (hio : env.ioOk) (src : List Nat) (s : State)
    (gap body : List Nat) (L : Nat) (hs : s.in_fw = 0) (hi : Inv s)
    (hW : WordsAt env.host src s.pos ((gap ++ [L]) ++ (FW_START4 :: body ++ [FW_END])))
    (hgap : ∀ w ∈ gap, w ≠ FW_START4) (hL : L ≠ FW_START4)
    (hbody : ∀ w ∈ body, w ≠ FW_END)
    (hq : (((byteswap_data env.host L + 32) % 2 ^ 32 : Nat) : Int)
      = 4 * ((body.length : Int) + 3)) :
    ∃ t fd ret,
      iterations env src ((gap ++ [L]).length + (body.length + 2)) s = Outcome.next t
      ∧ t.in_fw = 0 ∧ Inv t
      ∧ t.pos = s.pos + 4 * (gap ++ [L]).length + 4 * (FW_START4 :: body ++ [FW_END]).length
      ∧ t.nout = s.nout + 1
      ∧ t.w = { decodeWords s.w 8 (body ++ [FW_END]) with
                log := s.w.log
                  ++ sessionEvents (provisionalName s.nout) fd
                      ([L, FW_START4] ++ body ++ [FW_END])
                  ++ [Event.rename (provisionalName s.nout)
                        (sprintf_outnamenew (decodeWords s.w 8 (body ++ [FW_END]))) ret] } := by
  obtain ⟨hWA, hWS⟩ := (wordsAt_append _ _ _ _ _).1 hW
  have hA : iterations env src (gap ++ [L]).length s
      = Outcome.next (skipWords s (gap ++ [L])) :=
    iterations_skip env src _ s hs hWA (by
      intro w hw
      rcases List.mem_append.1 hw with h | h
      · exact hgap w h
      · rw [List.mem_singleton.1 h]; exact hL)
  have e1 : skipWords s (gap ++ [L])
      = { s with r := L, r_old := L, pos := s.pos + 4 * (gap ++ [L]).length,
                 o := s.o + 4 * (gap ++ [L]).length } := by
    rw [skipWords_eq, lastWord_append_singleton, lastWord_append_singleton]
  have hB := session_commit env hio src (skipWords s (gap ++ [L])) body
    (by rw [e1]; exact hs) (by rw [e1]; exact hWS) hbody (by rw [e1]; exact hq)
  have hAB := iterations_next_add env src _ (body.length + 2) s _ hA
  rw [hB] at hAB
  have hn := sprintf_outname_eq s.outname s.nout hi.2.2.1
  refine ⟨_, env.open_ret s.w.log.length,
    (commitState env (endState env (skipWords s (gap ++ [L])) body)).ret, hAB, rfl,
    iterations_inv env src _ s _ hi hAB, ?_, ?_, ?_⟩
  · rw [e1]
    simp only [commitState, endState, List.length_append, List.length_cons,
      List.length_singleton, List.length_nil]
  · rw [e1]; rfl
  · rw [e1]
    simp [commitState, endState, sessionEvents, sprintf_outnamenew_with_log, hn]

theorem phyLabel_injective (p q : Phy) (h : phyLabel p = phyLabel q) : p = q := by
  cases p <;> cases q <;> first | rfl | (revert h; decide)

theorem sprintf_outnamenew_take (w : World) :
    (sprintf_outnamenew w).data.take 5 = (phyLabel w.phy).data := by
  cases hp : w.phy <;> simp [sprintf_outnamenew, phyLabel, hp, String.data_append]

theorem sprintf_outnamenew_inj (a b : World) :
    sprintf_outnamenew a = sprintf_outnamenew b
      ↔ a.phy = b.phy ∧ a.version = b.version ∧ a.version2 = b.version2 := by
  constructor
  · intro h
    have hp := sprintf_outnamenew_take a
    rw [h, sprintf_outnamenew_take] at hp
    have hpar := parseFinalName_sprintf a
    rw [h, parseFinalName_sprintf] at hpar
    simp only [Option.some.injEq, Prod.mk.injEq] at hpar
    obtain ⟨h0, h1, h2, h3, h4⟩ := hpar
    refine ⟨(phyLabel_injective _ _ (String.ext hp)).symm, ?_, h4.symm⟩
    exact Prod.ext h0.symm (Prod.ext h1.symm (Prod.ext h2.symm h3.symm))
  · rintro ⟨h1, h2, h3⟩
    simp only [sprintf_outnamenew, h1, h2, h3]

/-! ## The names that occur in a trace -/

theorem traceNames_append (k : Nat) (a b : List Event) :
    TraceNames k (a ++ b) ↔ TraceNames k a ∧ TraceNames k b := by
  simp only [TraceNames, List.mem_append]
  constructor
  · intro h
    exact ⟨fun e he => h e (Or.inl he), fun e he => h e (Or.inr he)⟩
  · rintro ⟨ha, hb⟩ e (he | he)
    · exact ha e he
    · exact hb e he

theorem traceNames_mono (j k : Nat) (hjk : j ≤ k) (l : List Event) (h : TraceNames j l) :
    TraceNames k l := by
  intro e he
  obtain ⟨h1, h2⟩ := h e he
  refine ⟨fun name hn => ?_, h2⟩
  obtain ⟨i, hi, hname⟩ := h1 name hn
  exact ⟨i, by omega, hname⟩

theorem traceNames_writeEvents (k : Nat) (env : Env) (n : Nat) (f : Int) (r : Nat) :
    TraceNames k (writeEvents env n f r) := by
  intro e he
  simp only [writeEvents, List.mem_cons, List.mem_singleton, List.not_mem_nil, or_false] at he
  rcases he with rfl | rfl | rfl | rfl <;>
    exact ⟨fun name hn => by simp [Event.artifact] at hn, fun _ _ _ hc => by cases hc⟩

theorem traceNames_openOut (k j : Nat) (hj : j < k) (fd : Int) :
    TraceNames k [Event.openOut (provisionalName j) fd] := by
  intro e he
  rw [List.mem_singleton.1 he]
  refine ⟨fun name hn => ⟨j, hj, ?_⟩, fun _ _ _ hc => by cases hc⟩
  simp only [Event.artifact, Option.some.injEq] at hn
  exact hn.symm

theorem traceNames_unlink (k j : Nat) (hj : j < k) (r : Int) :
    TraceNames k [Event.unlink (provisionalName j) r] := by
  intro e he
  rw [List.mem_singleton.1 he]
  refine ⟨fun name hn => ⟨j, hj, ?_⟩, fun _ _ _ hc => by cases hc⟩
  simp only [Event.artifact, Option.some.injEq] at hn
  exact hn.symm

theorem traceNames_rename (k j : Nat) (hj : j < k) (w : World) (r : Int) :
    TraceNames k [Event.rename (provisionalName j) (sprintf_outnamenew w) r] := by
  intro e he
  rw [List.mem_singleton.1 he]
  refine ⟨fun name hn => ⟨j, hj, ?_⟩, fun _ _ _ hc => ⟨w, ?_⟩⟩
  · simp only [Event.artifact, Option.some.injEq] at hn
    exact hn.symm
  · simp only [Event.rename.injEq] at hc
    exact hc.2.1.symm

theorem traceNames_close (k : Nat) (fd : Int) : TraceNames k [Event.close fd] := by
  intro e he
  rw [List.mem_singleton.1 he]
  exact ⟨fun name hn => by simp [Event.artifact] at hn, fun _ _ _ hc => by cases hc⟩

theorem traceNames_lseek (k : Nat) (off : Int) : TraceNames k [Event.lseek off] := by
  intro e he
  rw [List.mem_singleton.1 he]
  exact ⟨fun name hn => by simp [Event.artifact] at hn, fun _ _ _ hc => by cases hc⟩

theorem iteration_traceNames (env : Env) (src : List Nat) (s : State) (hi : Inv s)
    (ht : TraceNames s.nout s.w.log) :
    TraceNames (iteration env src s).state.nout (iteration env src s).state.w.log := by
  obtain ⟨h1, h2, h3, h4⟩ := hi
  have hn := sprintf_outname_eq s.outname s.nout h3
  have ht' := traceNames_mono s.nout (s.nout + 1) (by omega) _ ht
  have hcur : s.in_fw ≠ 0 → ∃ j, j < s.nout ∧ s.outname = provisionalName j := by
    intro hs
    obtain ⟨-, -, -, hn, hname⟩ := h4 hs
    exact ⟨s.nout - 1, by omega, hname⟩
  cases hit : iteration env src s with
  | next s' =>
    rcases iteration_next_cases5 env src s s' hit with
      ⟨hs, r, -, -, rfl⟩ | ⟨hs, -, -, rfl⟩ | ⟨hs, r, -, -, rfl⟩ | ⟨hs, -, -, -, rfl⟩
        | ⟨hs, -, -, -, rfl⟩
    · exact ht
    · simp only [Outcome.state, write_output_log, traceNames_append, hn]
      exact ⟨⟨⟨ht', traceNames_openOut _ _ (by omega) _⟩, traceNames_writeEvents _ _ _ _ _⟩,
        traceNames_writeEvents _ _ _ _ _⟩
    · simp only [Outcome.state, write_output_log, traceNames_append]
      exact ⟨ht, traceNames_writeEvents _ _ _ _ _⟩
    · obtain ⟨j, hj, hname⟩ := hcur hs
      simp only [Outcome.state, write_output_log, traceNames_append, hname]
      exact ⟨⟨⟨ht, traceNames_writeEvents _ _ _ _ _⟩, traceNames_close _ _⟩,
        traceNames_rename _ _ hj _ _⟩
    · obtain ⟨j, hj, hname⟩ := hcur hs
      simp only [Outcome.state, write_output_log, traceNames_append, hname]
      exact ⟨⟨⟨⟨ht, traceNames_writeEvents _ _ _ _ _⟩, traceNames_close _ _⟩,
        traceNames_unlink _ _ hj _⟩, traceNames_lseek _ _⟩
  | ret c s' =>
    rcases iteration_ret_cases env src s s' c hit with
      ⟨-, hs, -, rfl⟩ | ⟨-, hs, -, rfl⟩ | ⟨hs, -, -, -, rfl⟩ | ⟨hs, -, -, rfl⟩
        | ⟨hs, -, -, rfl⟩ | ⟨hs, -, r, -, -, rfl⟩
    · exact ht
    · obtain ⟨j, hj, hname⟩ := hcur hs
      simp only [Outcome.state, traceNames_append, hname]
      exact ⟨ht, traceNames_unlink _ _ hj _⟩
    · simp only [Outcome.state, traceNames_append, hn]
      exact ⟨ht', traceNames_openOut _ _ (by omega) _⟩
    · simp only [Outcome.state, write_output_log, traceNames_append, hn]
      exact ⟨⟨ht', traceNames_openOut _ _ (by omega) _⟩, traceNames_writeEvents _ _ _ _ _⟩
    · simp only [Outcome.state, write_output_log, traceNames_append, hn]
      exact ⟨⟨⟨ht', traceNames_openOut _ _ (by omega) _⟩, traceNames_writeEvents _ _ _ _ _⟩,
        traceNames_writeEvents _ _ _ _ _⟩
    · simp only [Outcome.state, write_output_log, traceNames_append]
      exact ⟨ht, traceNames_writeEvents _ _ _ _ _⟩

theorem iterations_traceNames (env : Env) (src : List Nat) :
    ∀ (n : Nat) (s : State), Inv s → TraceNames s.nout s.w.log →
      TraceNames (iterations env src n s).state.nout (iterations env src n s).state.w.log := by
  intro n
  induction n with
  | zero => intro s _ ht; exact ht
  | succ n ih =>
    intro s hi ht
    have h := iteration_traceNames env src s hi ht
    simp only [iterations]
    cases hit : iteration env src s with
    | ret c s' => rw [hit] at h; exact h
    | next s' =>
      rw [hit] at h
      exact ih s' (inv_next env src s s' hi hit) h

/-! ## The words up to the end of the input -/

theorem exists_words_to_end (h : ByteOrder) (src : List Nat) :
    ∀ (m pos : Nat), src.length - pos ≤ m →
      ∃ body, WordsAt h src pos body ∧ readWord h src (pos + 4 * body.length) = none := by
  intro m
  induction m with
  | zero =>
    intro pos hm
    refine ⟨[], trivial, ?_⟩
    cases hr : readWord h src (pos + 4 * ([] : List Nat).length) with
    | none => rfl
    | some r =>
      have := readWord_some_le _ _ _ _ hr
      simp only [List.length_nil] at this
      omega
  | succ m ih =>
    intro pos hm
    cases hr : readWord h src pos with
    | none => exact ⟨[], trivial, by simpa using hr⟩
    | some r =>
      have hle := readWord_some_le _ _ _ _ hr
      obtain ⟨body, hb, hn⟩ := ih (pos + 4) (by omega)
      refine ⟨r :: body, ⟨hr, hb⟩, ?_⟩
      have e : pos + 4 * (r :: body).length = pos + 4 + 4 * body.length := by
        simp only [List.length_cons]; omega
      rw [e]
      exact hn

theorem wordsAt_no_end (h : ByteOrder) (src : List Nat) :
    ∀ (body : List Nat) (pos : Nat), WordsAt h src pos body →
      (∀ k, readWord h src (pos + 4 * k) ≠ some FW_END) → ∀ w ∈ body, w ≠ FW_END := by
  intro body
  induction body with
  | nil => intro _ _ _ w hw; cases hw
  | cons r body ih =>
    intro pos hW hno w hw
    rcases List.mem_cons.1 hw with rfl | hw
    · intro hc
      have := hno 0
      rw [Nat.mul_zero, Nat.add_zero, hW.1, hc] at this
      exact this rfl
    · refine ih (pos + 4) hW.2 (fun k => ?_) w hw
      have := hno (k + 1)
      have e : pos + 4 * (k + 1) = pos + 4 + 4 * k := by omega
      rw [e] at this
      exact this

theorem final_name_ne_provisional (w : World) (k : Nat) :
    sprintf_outnamenew w ≠ provisionalName k := by
  intro h
  have h1 := sprintf_outnamenew_take w
  have h2 := provisionalName_take k
  rw [h] at h1
  have h3 : (provisionalName k).data.take 5 = "marve".data := by
    have := congrArg (List.take 5) h2
    rw [List.take_take] at this
    exact this
  rw [h3] at h1
  cases hp : w.phy <;> rw [hp] at h1 <;> revert h1 <;> decide

/-! ## The start markers that open sessions -/

theorem frontier_next (env : Env) (src : List Nat) (s s' : State) (hi : Inv s)
    (h : iteration env src s = Outcome.next s') :
    frontier s ≤ frontier s'
      ∧ (s.in_fw = 0 → readWord env.host src s.pos = some FW_START4 →
          frontier s' = s.pos + 4) := by
  obtain ⟨h1, h2, h3, h4⟩ := hi
  rcases iteration_next_cases5 env src s s' h with
    ⟨hs, r, hr, hne, rfl⟩ | ⟨hs, hr, -, rfl⟩ | ⟨hs, r, hr, -, rfl⟩ | ⟨hs, hr, -, -, rfl⟩
      | ⟨hs, hr, -, -, rfl⟩
  · refine ⟨by simp [frontier, hs], fun _ hc => ?_⟩
    rw [hr] at hc
    exact absurd (Option.some.inj hc) hne
  · have hf : (s.o - 4 + 8).toNat = s.pos + 4 := by omega
    exact ⟨by simp [frontier, hs, hf], fun _ _ => by simp [frontier, hf]⟩
  · exact ⟨by simp [frontier, hs], fun hc => absurd hc hs⟩
  · obtain ⟨a, b, c, d, e⟩ := h4 hs
    refine ⟨?_, fun hc => absurd hc hs⟩
    simp only [frontier, hs, if_false, if_true]
    omega
  · obtain ⟨a, b, c, d, e⟩ := h4 hs
    have hl : lseek_set (s.pos + 4) (s.o_start + 8) = (s.o_start + 8).toNat := by
      simp only [lseek_set]
      rw [if_pos (by omega)]
    refine ⟨?_, fun hc => absurd hc hs⟩
    simp [frontier, hs, hl]

theorem frontier_le_pos (s : State) (hi : Inv s) : frontier s ≤ s.pos := by
  obtain ⟨h1, h2, h3, h4⟩ := hi
  by_cases hs : s.in_fw = 0
  · simp [frontier, hs]
  · obtain ⟨a, b, c, d, e⟩ := h4 hs
    simp only [frontier, hs, if_false]
    omega

theorem sessionStarts_succ (env : Env) (src : List Nat) (n : Nat) (s : State) :
    sessionStarts env src (n + 1) s
      = (if s.in_fw = 0 ∧ readWord env.host src s.pos = some FW_START4 then [s.pos] else [])
        ++ (match iteration env src s with
            | Outcome.next s' => sessionStarts env src n s'
            | Outcome.ret _ _ => []) := by
  simp only [sessionStarts]
  cases iteration env src s <;> simp

theorem sessionStarts_ge (env : Env) (src : List Nat) :
    ∀ (n : Nat) (s : State), Inv s → ∀ p ∈ sessionStarts env src n s,
      frontier s ≤ p ∧ readWord env.host src p = some FW_START4 := by
  intro n
  induction n with
  | zero => intro s _ p hp; cases hp
  | succ n ih =>
    intro s hi p hp
    rw [sessionStarts_succ] at hp
    rcases List.mem_append.1 hp with hp | hp
    · split at hp
      · rename_i hc
        rw [List.mem_singleton.1 hp]
        exact ⟨frontier_le_pos s hi, hc.2⟩
      · cases hp
    · cases hit : iteration env src s with
      | ret c s' => rw [hit] at hp; cases hp
      | next s' =>
        rw [hit] at hp
        obtain ⟨h1, h2⟩ := ih s' (inv_next env src s s' hi hit) p hp
        exact ⟨le_trans (frontier_next env src s s' hi hit).1 h1, h2⟩

theorem sessionStarts_pairwise (env : Env) (src : List Nat) :
    ∀ (n : Nat) (s : State), Inv s → List.Pairwise (· < ·) (sessionStarts env src n s) := by
  intro n
  induction n with
  | zero => intro s _; exact List.Pairwise.nil
  | succ n ih =>
    intro s hi
    rw [sessionStarts_succ]
    cases hit : iteration env src s with
    | ret c s' =>
      simp only [List.append_nil]
      split
      · exact List.pairwise_singleton _ _
      · exact List.Pairwise.nil
    | next s' =>
      simp only
      have hi' := inv_next env src s s' hi hit
      split
      · rename_i hc
        rw [List.singleton_append, List.pairwise_cons]
        refine ⟨fun p hp => ?_, ih s' hi'⟩
        have h1 := (sessionStarts_ge env src n s' hi' p hp).1
        have h2 := (frontier_next env src s s' hi hit).2 hc.1 hc.2
        omega
      · rw [List.nil_append]
        exact ih s' hi'

theorem sessionStarts_length_le (env : Env) (src : List Nat) :
    ∀ (n : Nat) (s : State), Inv s →
      (sessionStarts env src n s).length ≤ remWords src.length (frontier s) := by
  intro n
  induction n with
  | zero => intro s _; exact Nat.zero_le _
  | succ n ih =>
    intro s hi
    rw [sessionStarts_succ, List.length_append]
    have hmono : ∀ a b : Nat, a ≤ b → remWords src.length b ≤ remWords src.length a := by
      intro a b hab
      simp only [remWords]
      exact Nat.div_le_div_right (by omega)
    split
    · rename_i hc
      have hle := readWord_some_le _ _ _ _ hc.2
      have hf : frontier s = s.pos := by simp [frontier, hc.1]
      have h1 : 1 + remWords src.length (s.pos + 4) ≤ remWords src.length s.pos := by
        simp only [remWords]; omega
      rw [hf, List.length_singleton]
      cases hit : iteration env src s with
      | ret c s' => simp only [List.length_nil]; omega
      | next s' =>
        simp only
        have h2 := ih s' (inv_next env src s s' hi hit)
        rw [(frontier_next env src s s' hi hit).2 hc.1 hc.2] at h2
        omega
    · rw [List.length_nil, Nat.zero_add]
      cases hit : iteration env src s with
      | ret c s' => exact Nat.zero_le _
      | next s' =>
        simp only
        exact le_trans (ih s' (inv_next env src s s' hi hit))
          (hmono _ _ (frontier_next env src s s' hi hit).1)

theorem sessionStarts_count (env : Env) (src : List Nat) :
    ∀ (n : Nat) (s : State),
      (sessionStarts env src n s).length + s.nout = (iterations env src n s).state.nout := by
  intro n
  induction n with
  | zero => intro s; simp [sessionStarts, iterations, Outcome.state]
  | succ n ih =>
    intro s
    rw [sessionStarts_succ, List.length_append]
    simp only [iterations]
    cases hit : iteration env src s with
    | next s' =>
      simp only
      rw [← ih s']
      rcases iteration_next_cases5 env src s s' hit with
        ⟨hs, r, hr, hne, rfl⟩ | ⟨hs, hr, -, rfl⟩ | ⟨hs, r, hr, -, rfl⟩ | ⟨hs, hr, -, -, rfl⟩
          | ⟨hs, hr, -, -, rfl⟩
      · have : ¬ (s.in_fw = 0 ∧ readWord env.host src s.pos = some FW_START4) := by
          rw [hr]; intro hc; exact hne (Option.some.inj hc.2)
        rw [if_neg this]; simp
      · rw [if_pos ⟨hs, hr⟩]; simp only [List.length_singleton]; omega
      · rw [if_neg (fun hc => hs hc.1)]; simp
      · rw [if_neg (fun hc => hs hc.1)]; simp
      · rw [if_neg (fun hc => hs hc.1)]; simp
    | ret c s' =>
      simp only [Outcome.state, List.length_nil, Nat.add_zero]
      rcases iteration_ret_cases env src s s' c hit with
        ⟨hr, hs, -, rfl⟩ | ⟨hr, hs, -, rfl⟩ | ⟨hs, hr, -, -, rfl⟩ | ⟨hs, hr, -, rfl⟩
          | ⟨hs, hr, -, rfl⟩ | ⟨hs, -, r, -, -, rfl⟩
      · rw [if_neg (by rw [hr]; simp)]; simp
      · rw [if_neg (fun hc => hs hc.1)]; simp
      · rw [if_pos ⟨hs, hr⟩]; simp only [List.length_singleton]; omega
      · rw [if_pos ⟨hs, hr⟩]; simp only [List.length_singleton]; omega
      · rw [if_pos ⟨hs, hr⟩]; simp only [List.length_singleton]; omega
      · rw [if_neg (fun hc => hs hc.1)]; simp

/-! ## The decoded metadata along a run -/

theorem metadata_write_output (env : Env) (w : World) (f : Int) (oo : Int) (r : Nat) :
    metadata (write_output env w f oo r).2 = metadata (decode w oo r) := by
  rw [write_output_snd]
  rfl

theorem metadata_with_log (w : World) (l : List Event) :
    metadata { w with log := l } = metadata w := rfl

theorem metadata_decode_congr (a b : World) (oo : Int) (r : Nat)
    (h : metadata a = metadata b) : metadata (decode a oo r) = metadata (decode b oo r) := by
  simp only [metadata, Prod.mk.injEq] at h
  obtain ⟨h1, h2, h3⟩ := h
  simp only [decode]
  split
  · simp [metadata, h2, h3]
  · split
    · simp [metadata, h1, h3]
    · split
      · split <;> simp [metadata, h1, h2]
      · simp [metadata, h1, h2, h3]

theorem applyCalls_append (w : World) (a b : List (Int × Nat)) :
    applyCalls w (a ++ b) = applyCalls (applyCalls w a) b := by
  simp [applyCalls, List.foldl_append]

theorem metadata_applyCalls_congr (cs : List (Int × Nat)) :
    ∀ (a b : World), metadata a = metadata b →
      metadata (applyCalls a cs) = metadata (applyCalls b cs) := by
  induction cs with
  | nil => intro a b h; exact h
  | cons c cs ih =>
    intro a b h
    exact ih _ _ (metadata_decode_congr a b c.1 c.2 h)

theorem applyCalls_scanning (env : Env) (src : List Nat) (s : State) (hs : s.in_fw = 0) :
    applyCalls s.w (callsOf env src s) = s.w := by
  unfold callsOf
  cases readWord env.host src s.pos with
  | none => rfl
  | some r =>
    simp only [hs, if_true]
    split
    · split
      · rfl
      · split
        · simp [applyCalls, decode_of_lt]
        · simp [applyCalls, decode_of_lt]
    · rfl

theorem callsOf_capturing (env : Env) (src : List Nat) (s : State) (r : Nat)
    (hs : s.in_fw ≠ 0) (hr : readWord env.host src s.pos = some r) :
    callsOf env src s = [(s.oo, r)] := by
  simp [callsOf, hr, hs]

theorem callsOf_eof (env : Env) (src : List Nat) (s : State)
    (hr : readWord env.host src s.pos = none) : callsOf env src s = [] := by
  simp [callsOf, hr]

theorem decode_zero (w : World) (r : Nat) : decode w 0 r = w :=
  decode_of_lt w 0 r (by norm_num)

theorem decode_four (w : World) (r : Nat) : decode w 4 r = w :=
  decode_of_lt w 4 r (by norm_num)

theorem applyCalls_singleton (w : World) (oo : Int) (r : Nat) :
    applyCalls w [(oo, r)] = decode w oo r := by
  simp only [applyCalls, List.foldl_cons, List.foldl_nil]

theorem iteration_metadata (env : Env) (src : List Nat) (s : State) :
    metadata (iteration env src s).state.w = metadata (applyCalls s.w (callsOf env src s)) := by
  cases hit : iteration env src s with
  | next s' =>
    rcases iteration_next_cases5 env src s s' hit with
      ⟨hs, r, hr, hne, rfl⟩ | ⟨hs, hr, -, rfl⟩ | ⟨hs, r, hr, -, rfl⟩ | ⟨hs, hr, -, -, rfl⟩
        | ⟨hs, hr, -, -, rfl⟩
    · rw [applyCalls_scanning env src s hs]
      simp only [Outcome.state]
    · rw [applyCalls_scanning env src s hs]
      simp only [Outcome.state, metadata_write_output, decode_four, decode_zero,
        metadata_with_log]
    · rw [callsOf_capturing env src s r hs hr, applyCalls_singleton]
      simp only [Outcome.state, metadata_write_output]
    · rw [callsOf_capturing env src s _ hs hr, applyCalls_singleton]
      simp only [Outcome.state, metadata_with_log, metadata_write_output]
    · rw [callsOf_capturing env src s _ hs hr, applyCalls_singleton]
      simp only [Outcome.state, metadata_with_log, metadata_write_output]
  | ret c s' =>
    rcases iteration_ret_cases env src s s' c hit with
      ⟨hr, hs, -, rfl⟩ | ⟨hr, hs, -, rfl⟩ | ⟨hs, hr, -, -, rfl⟩ | ⟨hs, hr, -, rfl⟩
        | ⟨hs, hr, -, rfl⟩ | ⟨hs, -, r, hr, -, rfl⟩
    · rw [callsOf_eof env src _ hr]
      simp only [Outcome.state, applyCalls, List.foldl_nil]
    · rw [callsOf_eof env src _ hr]
      simp only [Outcome.state, applyCalls, List.foldl_nil, metadata_with_log]
    · rw [applyCalls_scanning env src _ hs]
      simp only [Outcome.state, metadata_with_log]
    · rw [applyCalls_scanning env src _ hs]
      simp only [Outcome.state, metadata_write_output, decode_zero, metadata_with_log]
    · rw [applyCalls_scanning env src _ hs]
      simp only [Outcome.state, metadata_write_output, decode_four, decode_zero,
        metadata_with_log]
    · rw [callsOf_capturing env src _ r hs hr, applyCalls_singleton]
      simp only [Outcome.state, metadata_write_output]

theorem iterations_metadata (env : Env) (src : List Nat) :
    ∀ (n : Nat) (s : State),
      metadata (iterations env src n s).state.w
        = metadata (applyCalls s.w (runCalls env src n s)) := by
  intro n
  induction n with
  | zero => intro s; rfl
  | succ n ih =>
    intro s
    have h := iteration_metadata env src s
    simp only [iterations, runCalls]
    cases hit : iteration env src s with
    | ret c s' =>
      rw [hit] at h
      exact h
    | next s' =>
      rw [hit] at h
      simp only [Outcome.state] at h
      simp only
      rw [ih s', applyCalls_append]
      exact metadata_applyCalls_congr _ _ _ h

/-! ## The most recent call at a payload offset -/

theorem lastCall_append_singleton (off : Int) (cs : List (Int × Nat)) (c : Int × Nat) :
    lastCall off (cs ++ [c]) = if c.1 = off then some c.2 else lastCall off cs := by
  simp only [lastCall, List.foldl_append, List.foldl_cons, List.foldl_nil]

theorem applyCalls_append_singleton (w : World) (cs : List (Int × Nat)) (c : Int × Nat) :
    applyCalls w (cs ++ [c]) = decode (applyCalls w cs) c.1 c.2 := by
  simp only [applyCalls, List.foldl_append, List.foldl_cons, List.foldl_nil]

theorem decode_version (w : World) (oo : Int) (r : Nat) :
    (decode w oo r).version
      = if oo = 0x120 then (byteAt 1 r, byteAt 0 r, byteAt 3 r, byteAt 2 r) else w.version := by
  simp only [decode]
  split
  · simp [byteAt]
  · split
    · rfl
    · split
      · split <;> rfl
      · rfl

theorem decode_version2 (w : World) (oo : Int) (r : Nat) :
    (decode w oo r).version2
      = if oo = 0x124 then (byteAt 0 r <<< 8) ||| byteAt 1 r else w.version2 := by
  simp only [decode]
  split
  · rename_i h
    rw [if_neg (by omega)]
  · split
    · simp only [decode_version2_eq]
    · split
      · split <;> rfl
      · rfl

theorem decode_phy (w : World) (oo : Int) (r : Nat) :
    (decode w oo r).phy
      = if oo = 0x138 then
          (match byteAt 1 r with
           | 1 => Phy.X3310
           | 3 => Phy.E2010
           | _ => Phy.UNKNOWN)
        else w.phy := by
  simp only [decode]
  split
  · rename_i h
    rw [if_neg (by omega)]
  · split
    · rename_i h1 h2
      rw [if_neg (by omega)]
    · split
      · have hb : byteAt 1 r = (r >>> 8) &&& 0xff := by simp [byteAt]
        rw [hb]
        split <;> rename_i hm <;> simp [hm]
      · rfl

theorem applyCalls_version (w : World) (cs : List (Int × Nat)) :
    (applyCalls w cs).version
      = match lastCall 0x120 cs with
        | some r => (byteAt 1 r, byteAt 0 r, byteAt 3 r, byteAt 2 r)
        | none => w.version := by
  induction cs using List.reverseRecOn with
  | nil => rfl
  | append_singleton cs c ih =>
    rw [applyCalls_append_singleton, lastCall_append_singleton, decode_version]
    split
    · rfl
    · exact ih

theorem applyCalls_version2 (w : World) (cs : List (Int × Nat)) :
    (applyCalls w cs).version2
      = match lastCall 0x124 cs with
        | some r => (byteAt 0 r <<< 8) ||| byteAt 1 r
        | none => w.version2 := by
  induction cs using List.reverseRecOn with
  | nil => rfl
  | append_singleton cs c ih =>
    rw [applyCalls_append_singleton, lastCall_append_singleton, decode_version2]
    split
    · rfl
    · exact ih

theorem applyCalls_phy (w : World) (cs : List (Int × Nat)) :
    (applyCalls w cs).phy
      = match lastCall 0x138 cs with
        | some r =>
          (match byteAt 1 r with
           | 1 => Phy.X3310
           | 3 => Phy.E2010
           | _ => Phy.UNKNOWN)
        | none => w.phy := by
  induction cs using List.reverseRecOn with
  | nil => rfl
  | append_singleton cs c ih =>
    rw [applyCalls_append_singleton, lastCall_append_singleton, decode_phy]
    split
    · rfl
    · exact ih

theorem reached_metadata (env : Env) (src : List Nat) (n : Nat) (s : State)
    (h : iterations env src n init = Outcome.next s) :
    s.w.version = versionAfter (runCalls env src n init)
      ∧ s.w.version2 = version2After (runCalls env src n init)
      ∧ s.w.phy = phyAfter (runCalls env src n init) := by
  have hm := iterations_metadata env src n init
  rw [h] at hm
  simp only [Outcome.state, metadata, Prod.mk.injEq] at hm
  obtain ⟨h1, h2, h3⟩ := hm
  rw [h1, h2, h3, applyCalls_version, applyCalls_version2, applyCalls_phy]
  exact ⟨rfl, rfl, rfl⟩

theorem decodeWords_phy_of_lt (ws : List Nat) :
    ∀ (w : World) (oo : Int), oo + 4 * ws.length ≤ 0x138 →
      (decodeWords w oo ws).phy = w.phy := by
  induction ws with
  | nil => intro w oo _; rfl
  | cons r ws ih =>
    intro w oo h
    simp only [List.length_cons, Nat.cast_add, Nat.cast_one] at h
    simp only [decodeWords]
    rw [ih _ _ (by omega), decode_phy, if_neg (by omega)]

theorem first_session_metadata (env : Env) (src : List Nat) :
    ∀ (n : Nat) (s t : State),
      (s.nout = 0 → s.in_fw = 0 ∧ metadata s.w = metadata init.w) →
      iterations env src n s = Outcome.next t →
      (t.nout = 0 → t.in_fw = 0 ∧ metadata t.w = metadata init.w) := by
  intro n
  induction n with
  | zero =>
    intro s t hp h
    simp only [iterations, Outcome.next.injEq] at h
    exact h ▸ hp
  | succ n ih =>
    intro s t hp h
    simp only [iterations] at h
    cases hit : iteration env src s with
    | ret c s' => rw [hit] at h; cases h
    | next s' =>
      rw [hit] at h
      refine ih s' t ?_ h
      rcases iteration_next_cases5 env src s s' hit with
        ⟨hs, r, -, -, rfl⟩ | ⟨hs, -, -, rfl⟩ | ⟨hs, r, -, -, rfl⟩ | ⟨hs, -, -, -, rfl⟩
          | ⟨hs, -, -, -, rfl⟩
      · exact hp
      · intro hc; simp at hc
      · intro hc; exact absurd (hp hc).1 hs
      · intro hc; exact absurd (hp hc).1 hs
      · intro hc; exact absurd (hp hc).1 hs

/-! ## Iterations that commit a payload -/

theorem commitsAt_step (env : Env) (src : List Nat) (s : State) (hc : CommitsAt env src s) :
    ∃ t r, iteration env src s = Outcome.next t
      ∧ t.in_fw = 0 ∧ t.nout = s.nout
      ∧ newEvents env src s
          = writeEvents env s.w.log.length s.fdout FW_END
            ++ [Event.close s.fdout, Event.rename s.outname (sprintf_outnamenew t.w) r]
      ∧ t.w.log = s.w.log ++ newEvents env src s := by
  obtain ⟨hcap, hread, hw, hq⟩ := hc
  have hit := iteration_capture_end env src s hcap hread hw
  rw [end_of_fw_commit env
    { s with r := FW_END, pos := s.pos + 4,
             w := (write_output env s.w s.fdout s.oo FW_END).2, oo := s.oo + 4 } hq] at hit
  refine ⟨_, env.rename_ret ((write_output env s.w s.fdout s.oo FW_END).2.log.length + 1),
    hit, rfl, rfl, ?_, ?_⟩
  · simp [newEvents, hit, Outcome.state, write_output_log, sprintf_outnamenew_with_log]
  · simp [newEvents, hit, Outcome.state, write_output_log]

theorem iterations_fresh (env : Env) (src : List Nat) (k : Nat) :
    ∀ (n : Nat) (s t : State), Inv s → Fresh k s →
      iterations env src n s = Outcome.next t → Fresh k t := by
  intro n
  induction n with
  | zero =>
    intro s t _ hf h
    simp only [iterations, Outcome.next.injEq] at h
    exact h ▸ hf
  | succ n ih =>
    intro s t hi hf h
    simp only [iterations] at h
    cases hit : iteration env src s with
    | ret c s' => rw [hit] at h; cases h
    | next s' =>
      rw [hit] at h
      exact ih s' t (inv_next env src s s' hi hit)
        ((iteration_trace env src k s hi hf).2.2 s' hit) h

theorem iterations_succ_of_step (env : Env) (src : List Nat) (n : Nat) (s t : State)
    (h : iterations env src n init = Outcome.next s)
    (hit : iteration env src s = Outcome.next t) :
    iterations env src (n + 1) init = Outcome.next t := by
  rw [iterations_next_add env src n 1 init s h, iterations_one, hit]

theorem later_session_counter (env : Env) (src : List Nat) (n1 n2 : Nat) (s1 s2 : State)
    (h1 : iterations env src n1 init = Outcome.next s1)
    (h2 : iterations env src n2 init = Outcome.next s2) (hlt : n1 < n2)
    (c1 : CommitsAt env src s1) (hcap : s2.in_fw ≠ 0) : s1.nout < s2.nout := by
  obtain ⟨t, r, hit, hin, hn, -, -⟩ := commitsAt_step env src s1 c1
  have ht := iterations_succ_of_step env src n1 s1 t h1 hit
  have hi := iterations_inv env src (n1 + 1) init t inv_init ht
  obtain ⟨d, rfl⟩ : ∃ d, n2 = n1 + 1 + d := ⟨n2 - (n1 + 1), by omega⟩
  rw [iterations_next_add env src (n1 + 1) d init t ht] at h2
  have hf : Fresh s1.nout t := ⟨by omega, fun hc => absurd hin hc⟩
  exact (iterations_fresh env src s1.nout d t s2 hi hf h2).2 hcap

theorem commit_sources_differ (env : Env) (src : List Nat) (n1 n2 : Nat) (s1 s2 : State)
    (h1 : iterations env src n1 init = Outcome.next s1)
    (h2 : iterations env src n2 init = Outcome.next s2) (hlt : n1 < n2)
    (c1 : CommitsAt env src s1) (c2 : CommitsAt env src s2) : s1.outname ≠ s2.outname := by
  have hlt' := later_session_counter env src n1 n2 s1 s2 h1 h2 hlt c1 c2.1
  obtain ⟨-, -, -, a1⟩ := iterations_inv env src n1 init s1 inv_init h1
  obtain ⟨-, -, -, a2⟩ := iterations_inv env src n2 init s2 inv_init h2
  obtain ⟨-, -, -, b1, e1⟩ := a1 c1.1
  obtain ⟨-, -, -, b2, e2⟩ := a2 c2.1
  rw [e1, e2]
  intro hc
  have := provisionalName_injective _ _ hc
  omega

theorem committed_rename_in_trace (env : Env) (src : List Nat) (n : Nat) (s : State)
    (h : iterations env src n init = Outcome.next s) (hc : CommitsAt env src s) :
    ∃ t r, iteration env src s = Outcome.next t
      ∧ newEvents env src s
          = writeEvents env s.w.log.length s.fdout FW_END
            ++ [Event.close s.fdout, Event.rename s.outname (sprintf_outnamenew t.w) r]
      ∧ ∀ c st, scan env src = some (c, st) →
          Event.rename s.outname (sprintf_outnamenew t.w) r ∈ st.w.log := by
  obtain ⟨t, r, hit, hin, hn, hnew, hlog⟩ := commitsAt_step env src s hc
  refine ⟨t, r, hit, hnew, ?_⟩
  intro c st hscan
  have ht := iterations_succ_of_step env src n s t h hit
  have hi := iterations_inv env src (n + 1) init t inv_init ht
  obtain ⟨c', st', hscan', hfin⟩ := scan_of_reached env src (n + 1) t ht
  rw [hscan] at hscan'
  cases hscan'
  obtain ⟨evs, hl, -⟩ := iterations_trace env src 0 (fuelBound src.length) t hi
    ⟨Nat.zero_le _, fun hc' => absurd hin hc'⟩
  rw [hfin] at hl
  simp only [Outcome.state] at hl
  rw [hl, hlog, hnew]
  simp

/-! ## The scan loop: length check, recovery, start of a session -/

/-- C1: at every evaluation of the loop condition reached in a run, if the state is
capturing, the word read is the end marker `0xaaaaaaaa`, its write succeeds and the
declared length `byteswap_data r_old` is below `2^32 - 32`, then the loop goes on in the
scanning state with `oo` advanced by four (`oo` being the number of bytes written to the
artifact, when a `write` of one byte never returns more than `1`), and: when
`byteswap_data r_old + 32` equals the new `oo`, the calls issued are the four writes,
`close` and `rename(outname, outnamenew)`; otherwise they are the four writes, `close`,
`unlink(outname)` and `lseek(o_start + 8)`, and no later call of the run opens, renames
or deletes `outname` again. So the artifact is renamed if and only if the lengths
agree. -/
theorem length_check_decides_commit (env : Env) (src : List Nat) (n : Nat) (s : State)
    (hreach : iterations env src n init = Outcome.next s)
    (hcap : s.in_fw ≠ 0)
    (hread : readWord env.host src s.pos = some FW_END)
    (hw : 0 ≤ (write_output env s.w s.fdout s.oo FW_END).1)
    (hlen : byteswap_data env.host s.r_old < 2 ^ 32 - 32) :
    ∃ s', iteration env src s = Outcome.next s' ∧ s'.in_fw = 0 ∧ s'.oo = s.oo + 4
      ∧ ((∀ i, env.write_ret i ≤ 1) → s'.oo = sessionBytes s'.w.log)
      ∧ s'.w.log = s.w.log ++ newEvents env src s
      ∧ (renamed (newEvents env src s) s.outname
          ↔ ((byteswap_data env.host s.r_old : Nat) : Int) + 32 = s'.oo)
      ∧ (((byteswap_data env.host s.r_old : Nat) : Int) + 32 = s'.oo →
          newEvents env src s
            = writeEvents env s.w.log.length s.fdout FW_END
              ++ [Event.close s.fdout,
                  Event.rename s.outname (sprintf_outnamenew s'.w) s'.ret])
      ∧ (((byteswap_data env.host s.r_old : Nat) : Int) + 32 ≠ s'.oo →
          newEvents env src s
              = writeEvents env s.w.log.length s.fdout FW_END
                ++ [Event.close s.fdout, Event.unlink s.outname s'.ret,
                    Event.lseek (s.o_start + 8)]
            ∧ ∀ m, ∀ e ∈ ((iterations env src m s').state.w.log).drop s'.w.log.length,
                e.artifact ≠ some s.outname) := by
  have hinv : Inv s := iterations_inv env src n init s inv_init hreach
  have hmod : (byteswap_data env.host s.r_old + 32) % 2 ^ 32
      = byteswap_data env.host s.r_old + 32 := Nat.mod_eq_of_lt (by omega)
  obtain ⟨-, -, -, hn1, hname⟩ := hinv.2.2.2 hcap
  have hit := iteration_capture_end env src s hcap hread hw
  have hbytes : (∀ i, env.write_ret i ≤ 1) →
      s.oo + 4 = sessionBytes ((write_output env s.w s.fdout s.oo FW_END).2.log) := by
    intro hle
    have hb := oo_counts_bytes env hle src n init s (fun h => absurd rfl h) hreach hcap
    rw [write_output_log_ok env hle _ _ _ _ hw, sessionBytes_append_wordEvents, hb]
  by_cases hq : ((byteswap_data env.host s.r_old : Nat) : Int) + 32 = s.oo + 4
  · have hc := end_of_fw_commit env
      { s with
        r := FW_END, pos := s.pos + 4,
        w := (write_output env s.w s.fdout s.oo FW_END).2, oo := s.oo + 4 }
      (by simp only [hmod]; push_cast; exact hq)
    rw [hc] at hit
    have hnew : newEvents env src s
        = writeEvents env s.w.log.length s.fdout FW_END
          ++ [Event.close s.fdout,
              Event.rename s.outname
                (sprintf_outnamenew (write_output env s.w s.fdout s.oo FW_END).2)
                (env.rename_ret ((write_output env s.w s.fdout s.oo FW_END).2.log.length + 1))] := by
      simp [newEvents, hit, Outcome.state, write_output_log]
    refine ⟨_, hit, rfl, rfl, ?_, ?_, ?_, ?_, ?_⟩
    · intro hle
      have := hbytes hle
      simpa [sessionBytes, List.foldl_append] using this
    · rw [hnew]
      simp [write_output_log]
    · rw [hnew]
      simp only [hq, iff_true]
      exact ⟨_, _, List.mem_append_right _ (List.mem_cons_of_mem _ (List.mem_singleton.2 rfl))⟩
    · intro _
      rw [hnew]
      simp [sprintf_outnamenew]
    · intro hne
      exact absurd hq hne
  · have hc := end_of_fw_mismatch env
      { s with
        r := FW_END, pos := s.pos + 4,
        w := (write_output env s.w s.fdout s.oo FW_END).2, oo := s.oo + 4 }
      (by simp only [hmod]; push_cast; exact hq)
    rw [hc] at hit
    have hnew : newEvents env src s
        = writeEvents env s.w.log.length s.fdout FW_END
          ++ [Event.close s.fdout,
              Event.unlink s.outname
                (env.unlink_ret ((write_output env s.w s.fdout s.oo FW_END).2.log.length + 1)),
              Event.lseek (s.o_start + 8)] := by
      simp [newEvents, hit, Outcome.state, write_output_log]
    refine ⟨_, hit, rfl, rfl, ?_, ?_, ?_, ?_, ?_⟩
    · intro hle
      have := hbytes hle
      simpa [sessionBytes, List.foldl_append] using this
    · rw [hnew]
      simp [write_output_log]
    · rw [hnew]
      simp only [hq, iff_false]
      rintro ⟨new, ret, hmem⟩
      simp [writeEvents] at hmem
    · intro he
      exact absurd he hq
    · intro _
      refine ⟨hnew, ?_⟩
      intro m e he hart
      have hinv' := inv_next env src s _ hinv hit
      obtain ⟨evs, hlog, hlater⟩ := iterations_trace env src s.nout m _ hinv'
        ⟨le_refl _, fun hc => absurd rfl hc⟩
      rw [hlog, List.drop_left] at he
      obtain ⟨j, hj, hnm⟩ := hlater e he _ hart
      have := provisionalName_injective _ _ (hname.symm.trans hnm)
      omega

theorem length_check_decides_commit_witness :
    (iterations (envOk ByteOrder.little) exampleSrc 2 init = Outcome.next exampleCapturing
      ∧ exampleCapturing.in_fw ≠ 0
      ∧ readWord (envOk ByteOrder.little).host exampleSrc exampleCapturing.pos = some FW_END
      ∧ 0 ≤ (write_output (envOk ByteOrder.little) exampleCapturing.w exampleCapturing.fdout
              exampleCapturing.oo FW_END).1
      ∧ byteswap_data (envOk ByteOrder.little).host exampleCapturing.r_old < 2 ^ 32 - 32)
    ∧ (
    ∃ s', iteration (envOk ByteOrder.little) exampleSrc exampleCapturing = Outcome.next s' ∧ s'.in_fw = 0 ∧ s'.oo = exampleCapturing.oo + 4
      ∧ ((∀ i, (envOk ByteOrder.little).write_ret i ≤ 1) → s'.oo = sessionBytes s'.w.log)
      ∧ s'.w.log = exampleCapturing.w.log ++ newEvents (envOk ByteOrder.little) exampleSrc exampleCapturing
      ∧ (renamed (newEvents (envOk ByteOrder.little) exampleSrc exampleCapturing) exampleCapturing.outname
          ↔ ((byteswap_data (envOk ByteOrder.little).host exampleCapturing.r_old : Nat) : Int) + 32 = s'.oo)
      ∧ (((byteswap_data (envOk ByteOrder.little).host exampleCapturing.r_old : Nat) : Int) + 32 = s'.oo →
          newEvents (envOk ByteOrder.little) exampleSrc exampleCapturing
            = writeEvents (envOk ByteOrder.little) exampleCapturing.w.log.length exampleCapturing.fdout FW_END
              ++ [Event.close exampleCapturing.fdout,
                  Event.rename exampleCapturing.outname (sprintf_outnamenew s'.w) s'.ret])
      ∧ (((byteswap_data (envOk ByteOrder.little).host exampleCapturing.r_old : Nat) : Int) + 32 ≠ s'.oo →
          newEvents (envOk ByteOrder.little) exampleSrc exampleCapturing
              = writeEvents (envOk ByteOrder.little) exampleCapturing.w.log.length exampleCapturing.fdout FW_END
                ++ [Event.close exampleCapturing.fdout, Event.unlink exampleCapturing.outname s'.ret,
                    Event.lseek (exampleCapturing.o_start + 8)]
            ∧ ∀ m, ∀ e ∈ ((iterations (envOk ByteOrder.little) exampleSrc m s').state.w.log).drop s'.w.log.length,
                e.artifact ≠ some exampleCapturing.outname)) :=
  ⟨⟨by decide, by decide, by decide, by decide, by decide⟩,
    length_check_decides_commit (envOk ByteOrder.little) exampleSrc 2 exampleCapturing
      (by decide) (by decide) (by decide) (by decide) (by decide)⟩

/-- C2, as stated, fails: the code adds 32 to the declared length modulo `2^32`. With
`L1 = 0xffffecff` (`byteswap_data L1 = 0xffffffec`) and an empty first body,
`byteswap_data L1 + 32` differs from the 12 captured bytes as integers, yet the check
passes and the first artifact is renamed instead of deleted. -/
theorem wrapped_length_defeats_mismatch :
    byteswap_data ByteOrder.little 0xffffecff + 32 ≠ 4 * (([] : List Nat).length + 3)
      ∧ byteswap_data ByteOrder.little 0 + 32 = 4 * (([1, 2, 3, 4, 5] : List Nat).length + 3)
      ∧ ∃ st, scan (envOk ByteOrder.little)
            (bytesOfWords ByteOrder.little
              ([] ++ [0xffffecff, FW_START4] ++ [] ++ [FW_END] ++ [] ++ [0, FW_START4]
                ++ [1, 2, 3, 4, 5] ++ [FW_END] ++ []))
          = some (0, st)
        ∧ st.w.log
            = sessionEvents "marvell_fw_000.bin" 3 [0xffffecff, FW_START4, FW_END]
              ++ [Event.rename "marvell_fw_000.bin" "x3310fw_0_0_0_0_0000.hdr.new" 0]
              ++ sessionEvents "marvell_fw_001.bin" 3 [0, FW_START4, 1, 2, 3, 4, 5, FW_END]
              ++ [Event.rename "marvell_fw_001.bin" "x3310fw_0_0_0_0_0000.hdr.new" 0] := by
  refine ⟨by decide, by decide, ?_⟩
  refine ⟨((scan (envOk ByteOrder.little)
      (bytesOfWords ByteOrder.little
        ([] ++ [0xffffecff, FW_START4] ++ [] ++ [FW_END] ++ [] ++ [0, FW_START4]
          ++ [1, 2, 3, 4, 5] ++ [FW_END] ++ []))).getD (0, init)).2, ?_, ?_⟩ <;> decide

/-- C2, amended: the two length conditions are taken as the code computes them, with
`byteswap_data L + 32` reduced modulo `2^32`. For every source
`pre ++ [L1, START] ++ body1 ++ [END] ++ gap ++ [L2, START] ++ body2 ++ [END] ++ rest`
of 32-bit words, where no word of `pre`, `L1`, `body1`, `gap`, `L2` is the start marker,
no word of `body1`, `body2` is the end marker, the first length does not match and the
second one does, and every `open` and `write` succeeds: the run returns; its trace
starts with the capture of the first payload under `marvell_fw_000.bin`, the `unlink`
of that artifact and the `lseek` to 8 bytes past the recorded start offset
`4 * length pre`, then the capture under `marvell_fw_001.bin` of the second payload,
with `L2` as its first word, and its `rename` to the final name; and no call of the run
renames `marvell_fw_000.bin`. -/
theorem mismatch_then_recover (env : Env) (hio : env.ioOk)
    (pre body1 gap body2 rest : List Nat) (L1 L2 : Nat)
    (hu : AllU32 (pre ++ [L1, FW_START4] ++ body1 ++ [FW_END] ++ gap ++ [L2, FW_START4]
      ++ body2 ++ [FW_END] ++ rest))
    (hpre : ∀ w ∈ pre, w ≠ FW_START4) (hL1 : L1 ≠ FW_START4)
    (hb1s : ∀ w ∈ body1, w ≠ FW_START4) (hgap : ∀ w ∈ gap, w ≠ FW_START4)
    (hL2 : L2 ≠ FW_START4)
    (hb1e : ∀ w ∈ body1, w ≠ FW_END) (hb2e : ∀ w ∈ body2, w ≠ FW_END)
    (hmis : (((byteswap_data env.host L1 + 32) % 2 ^ 32 : Nat) : Int)
      ≠ 4 * ((body1.length : Int) + 3))
    (hok : (((byteswap_data env.host L2 + 32) % 2 ^ 32 : Nat) : Int)
      = 4 * ((body2.length : Int) + 3)) :
    ∃ c st fd0 r0 fd1 r1 evs,
      scan env (bytesOfWords env.host
          (pre ++ [L1, FW_START4] ++ body1 ++ [FW_END] ++ gap ++ [L2, FW_START4]
            ++ body2 ++ [FW_END] ++ rest))
        = some (c, st)
      ∧ st.w.log
          = sessionEvents "marvell_fw_000.bin" fd0 ([L1, FW_START4] ++ body1 ++ [FW_END])
            ++ [Event.unlink "marvell_fw_000.bin" r0, Event.lseek (4 * (pre.length : Int) + 8)]
            ++ sessionEvents "marvell_fw_001.bin" fd1 ([L2, FW_START4] ++ body2 ++ [FW_END])
            ++ [Event.rename "marvell_fw_001.bin"
                  (sprintf_outnamenew
                    (decodeWords (decodeWords init.w 0 ([L1, FW_START4] ++ body1 ++ [FW_END]))
                      0 ([L2, FW_START4] ++ body2 ++ [FW_END]))) r1]
            ++ evs
      ∧ (∀ e ∈ evs, e.artifact ≠ some "marvell_fw_000.bin")
      ∧ ¬ renamed st.w.log "marvell_fw_000.bin" := by
  have hws : pre ++ [L1, FW_START4] ++ body1 ++ [FW_END] ++ gap ++ [L2, FW_START4]
        ++ body2 ++ [FW_END] ++ rest
      = ((pre ++ [L1]) ++ ((FW_START4 :: body1 ++ [FW_END])
          ++ ((gap ++ [L2]) ++ (FW_START4 :: body2 ++ [FW_END])))) ++ rest := by
    simp
  rw [hws] at hu ⊢
  have hW0 := wordsAt_bytesOfWords env.host _ hu []
  rw [List.append_nil] at hW0
  generalize bytesOfWords env.host (((pre ++ [L1]) ++ ((FW_START4 :: body1 ++ [FW_END])
    ++ ((gap ++ [L2]) ++ (FW_START4 :: body2 ++ [FW_END])))) ++ rest) = src at hW0 ⊢
  have hW := ((wordsAt_append _ _ _ _ _).1 hW0).1
  have hreach := two_sessions_reached env hio src pre body1 gap body2 L1 L2 hW hpre hL1
    hb1s hgap hL2 hb1e hb2e hmis hok
  obtain ⟨fd0, r0, fd1, r1, hlog, hn, hin⟩ := two_sessions_state env pre body1 gap body2 L1 L2
  have hinv := iterations_inv env src _ init _ inv_init hreach
  obtain ⟨c, st, hscan, hiter⟩ := scan_of_reached env src _ _ hreach
  obtain ⟨evs, hl, hlater⟩ := iterations_trace env src 2 (fuelBound src.length) _ hinv
    ⟨by omega, fun h => absurd hin h⟩
  rw [hiter] at hl
  simp only [Outcome.state] at hl
  have hevs : ∀ e ∈ evs, e.artifact ≠ some "marvell_fw_000.bin" := by
    intro e he hart
    obtain ⟨j, hj, hname⟩ := hlater e he _ hart
    have h0 : provisionalName 0 = "marvell_fw_000.bin" := by decide
    have := provisionalName_injective 0 j (h0.trans hname)
    omega
  refine ⟨c, st, fd0, r0, fd1, r1, evs, hscan, ?_, hevs, ?_⟩
  · rw [hl, hlog]
  · rintro ⟨new, ret, hmem⟩
    rw [hl, hlog] at hmem
    simp only [List.mem_append, List.mem_cons, List.mem_singleton, List.not_mem_nil,
      or_false] at hmem
    rcases hmem with (((h | h) | h) | h) | h
    · exact rename_not_mem_sessionEvents _ _ _ _ _ _ h
    · rcases h with h | h <;> cases h
    · exact rename_not_mem_sessionEvents _ _ _ _ _ _ h
    · have e : "marvell_fw_000.bin" = "marvell_fw_001.bin" := by
        injection h
      exact absurd e (by decide)
    · exact hevs _ h rfl
theorem mismatch_then_recover_witness :
    ((envOk ByteOrder.little).ioOk
      ∧ (AllU32 (([7] : List Nat) ++ [0, FW_START4] ++ ([] : List Nat) ++ [FW_END] ++ ([9] : List Nat) ++ [0, FW_START4]
      ++ ([1, 2, 3, 4, 5] : List Nat) ++ [FW_END] ++ ([11] : List Nat)))
      ∧ (∀ w ∈ ([7] : List Nat), w ≠ FW_START4)
      ∧ (0 ≠ FW_START4)
      ∧ (∀ w ∈ ([] : List Nat), w ≠ FW_START4)
      ∧ (∀ w ∈ ([9] : List Nat), w ≠ FW_START4)
      ∧ (0 ≠ FW_START4)
      ∧ (∀ w ∈ ([] : List Nat), w ≠ FW_END)
      ∧ (∀ w ∈ ([1, 2, 3, 4, 5] : List Nat), w ≠ FW_END)
      ∧ ((((byteswap_data (envOk ByteOrder.little).host 0 + 32) % 2 ^ 32 : Nat) : Int)
      ≠ 4 * ((([] : List Nat).length : Int) + 3))
      ∧ ((((byteswap_data (envOk ByteOrder.little).host 0 + 32) % 2 ^ 32 : Nat) : Int)
      = 4 * ((([1, 2, 3, 4, 5] : List Nat).length : Int) + 3))
    )
    ∧ (
    ∃ c st fd0 r0 fd1 r1 evs,
      scan (envOk ByteOrder.little) (bytesOfWords (envOk ByteOrder.little).host
          (([7] : List Nat) ++ [0, FW_START4] ++ ([] : List Nat) ++ [FW_END] ++ ([9] : List Nat) ++ [0, FW_START4]
            ++ ([1, 2, 3, 4, 5] : List Nat) ++ [FW_END] ++ ([11] : List Nat)))
        = some (c, st)
      ∧ st.w.log
          = sessionEvents "marvell_fw_000.bin" fd0 ([0, FW_START4] ++ ([] : List Nat) ++ [FW_END])
            ++ [Event.unlink "marvell_fw_000.bin" r0, Event.lseek (4 * (([7] : List Nat).length : Int) + 8)]
            ++ sessionEvents "marvell_fw_001.bin" fd1 ([0, FW_START4] ++ ([1, 2, 3, 4, 5] : List Nat) ++ [FW_END])
            ++ [Event.rename "marvell_fw_001.bin"
                  (sprintf_outnamenew
                    (decodeWords (decodeWords init.w 0 ([0, FW_START4] ++ ([] : List Nat) ++ [FW_END]))
                      0 ([0, FW_START4] ++ ([1, 2, 3, 4, 5] : List Nat) ++ [FW_END]))) r1]
            ++ evs
      ∧ (∀ e ∈ evs, e.artifact ≠ some "marvell_fw_000.bin")
      ∧ ¬ renamed st.w.log "marvell_fw_000.bin") :=
  ⟨⟨⟨fun _ => by simp [envOk], fun _ => rfl⟩, by unfold AllU32; decide, by decide,
      by decide, by decide, by decide, by decide, by decide, by decide, by decide,
      by decide⟩,
    mismatch_then_recover (envOk ByteOrder.little) ⟨fun _ => by simp [envOk], fun _ => rfl⟩
      [7] [] [9] [1, 2, 3, 4, 5] [11] 0 0
      (by unfold AllU32; decide) (by decide) (by decide) (by decide) (by decide)
      (by decide) (by decide) (by decide) (by decide) (by decide)⟩

/-- C3, as stated, fails: with a length word `0` (so `byteswap_data 0 = 0`), the start
marker, six filler words and the end marker, the capture holds 36 bytes (the length
word is written too), the check `0 + 32 == 36` fails, and the run deletes the artifact
and renames nothing. -/
theorem six_filler_words_are_rejected :
    byteswap_data ByteOrder.little 0 = 0
      ∧ ∃ st, scan (envOk ByteOrder.little)
            (bytesOfWords ByteOrder.little [0, FW_START4, 1, 2, 3, 4, 5, 6, FW_END])
          = some (0, st)
        ∧ st.oo = 36
        ∧ st.w.log
            = sessionEvents "marvell_fw_000.bin" 3 [0, FW_START4, 1, 2, 3, 4, 5, 6, FW_END]
              ++ [Event.unlink "marvell_fw_000.bin" 0, Event.lseek 8] := by
  refine ⟨by decide, ?_⟩
  refine ⟨((scan (envOk ByteOrder.little)
      (bytesOfWords ByteOrder.little [0, FW_START4, 1, 2, 3, 4, 5, 6, FW_END])).getD
        (0, init)).2, ?_, ?_, ?_⟩ <;> decide

/-- C3, amended: for a source consisting of a length word `L` with `byteswap_data L = 0`,
the start marker, five filler words (20 bytes) none of which is the end marker, and the
end marker, with every `open` and `write` succeeding, the capture holds 32 bytes
(length word, start marker, filler, end marker), the length check passes
(`0 + 32 == 32`), and the run issues exactly one `rename` and no `unlink`. -/
theorem exact_length_success (env : Env) (hio : env.ioOk) (L : Nat) (hL : L < 2 ^ 32)
    (hbs : byteswap_data env.host L = 0) (filler : List Nat) (hlen : filler.length = 5)
    (hu : AllU32 filler) (hne : ∀ w ∈ filler, w ≠ FW_END) :
    ∃ st, scan env (bytesOfWords env.host ([L, FW_START4] ++ filler ++ [FW_END]))
          = some (env.rename_ret 34, st)
      ∧ st.oo = 32
      ∧ (payloadEvents (env.open_ret 0) ([L, FW_START4] ++ filler ++ [FW_END])).length = 32
      ∧ st.w.log
          = sessionEvents "marvell_fw_000.bin" (env.open_ret 0)
              ([L, FW_START4] ++ filler ++ [FW_END])
            ++ [Event.rename "marvell_fw_000.bin" "x3310fw_0_0_0_0_0000.hdr.new"
                  (env.rename_ret 34)] := by
  have hLs : L ≠ FW_START4 := by
    intro h
    rw [h] at hbs
    exact byteswap_data_start_ne_zero _ hbs
  have hall : AllU32 ([L] ++ (FW_START4 :: filler ++ [FW_END])) := by
    intro w hw
    simp only [List.mem_append, List.mem_cons, List.mem_singleton, List.not_mem_nil,
      or_false] at hw
    rcases hw with rfl | (rfl | hw) | rfl
    · exact hL
    · decide
    · exact hu w hw
    · decide
  have hW := wordsAt_bytesOfWords env.host _ hall []
  rw [List.append_nil] at hW
  have hsrc : ([L, FW_START4] ++ filler ++ [FW_END] : List Nat)
      = [L] ++ (FW_START4 :: filler ++ [FW_END]) := by simp
  rw [hsrc]
  generalize hS : bytesOfWords env.host ([L] ++ (FW_START4 :: filler ++ [FW_END])) = src at hW
  have hW2 := (wordsAt_append env.host src [L] _ 0).1 hW
  have hA : iterations env src 1 init = Outcome.next (skipWords init [L]) :=
    iterations_skip env src [L] init rfl hW2.1 (by simpa using hLs)
  have hB := session_commit env hio src (skipWords init [L]) filler rfl hW2.2 hne
    (by
      show (((byteswap_data env.host L + 32) % 2 ^ 32 : Nat) : Int)
        = 4 * ((filler.length : Int) + 3)
      rw [hbs, hlen]
      rfl)
  have hlenS : src.length = 32 := by
    rw [← hS, bytesOfWords_length]
    simp [hlen]
  have hAB := iterations_next_add env src 1 (filler.length + 2) init _ hA
  rw [hB] at hAB
  have hABC := iterations_next_add env src _ 1 init _ hAB
  rw [iterations_at_end env src _
    (by simp [commitState, endState, skipWords, init, hlen, hlenS]) rfl] at hABC
  have hscan := scan_eq_of_iterations env src _ _ _ hABC
  have hname : sprintf_outnamenew (decodeWords init.w 8 (filler ++ [FW_END]))
      = "x3310fw_0_0_0_0_0000.hdr.new" := by
    rw [decodeWords_of_lt _ _ _ (by simp [hlen])]
    decide
  have hprov : sprintf_outname init.outname init.nout = "marvell_fw_000.bin" := by decide
  have hsn : ∀ (w : World) (l : List Event),
      sprintf_outnamenew { w with log := l } = sprintf_outnamenew w := fun _ _ => rfl
  have hl0 : init.w.log = [] := rfl
  refine ⟨commitState env (endState env (skipWords init [L]) filler), ?_, ?_, ?_, ?_⟩
  · rw [hscan]
    simp [commitState, endState, skipWords, init, payloadEvents_length, hlen]
  · simp [commitState, endState, hlen]
  · simp [payloadEvents_length, hlen]
  · simp only [commitState, endState, skipWords, List.foldl_cons, List.foldl_nil, sessionEvents]
    rw [hsn, hname, hprov, hl0]
    simp [payloadEvents_length, hlen]
theorem exact_length_success_witness :
    ((envOk ByteOrder.little).ioOk ∧ (0 : Nat) < 2 ^ 32
      ∧ byteswap_data (envOk ByteOrder.little).host 0 = 0
      ∧ ([1, 2, 3, 4, 5] : List Nat).length = 5 ∧ AllU32 [1, 2, 3, 4, 5]
      ∧ ∀ w ∈ ([1, 2, 3, 4, 5] : List Nat), w ≠ FW_END)
    ∧ ∃ st, scan (envOk ByteOrder.little)
          (bytesOfWords (envOk ByteOrder.little).host
            ([0, FW_START4] ++ [1, 2, 3, 4, 5] ++ [FW_END]))
          = some ((envOk ByteOrder.little).rename_ret 34, st)
      ∧ st.oo = 32
      ∧ (payloadEvents ((envOk ByteOrder.little).open_ret 0)
          ([0, FW_START4] ++ [1, 2, 3, 4, 5] ++ [FW_END])).length = 32
      ∧ st.w.log
          = sessionEvents "marvell_fw_000.bin" ((envOk ByteOrder.little).open_ret 0)
              ([0, FW_START4] ++ [1, 2, 3, 4, 5] ++ [FW_END])
            ++ [Event.rename "marvell_fw_000.bin" "x3310fw_0_0_0_0_0000.hdr.new"
                  ((envOk ByteOrder.little).rename_ret 34)] :=
  ⟨⟨⟨fun _ => by simp [envOk], fun _ => rfl⟩, by decide, by decide, rfl,
      by unfold AllU32; decide, by decide⟩,
    exact_length_success (envOk ByteOrder.little) ⟨fun _ => by simp [envOk], fun _ => rfl⟩ 0
      (by decide) (by decide) [1, 2, 3, 4, 5] rfl (by unfold AllU32; decide) (by decide)⟩

/-- C4, evaluated where the code departs from it: on the words `0`, start marker, start
marker, end marker, the first session fails the length check and the scan resumes at
offset 8, where it matches the second start marker; the word written at payload offset 0
of that second session is `0`, the stale `r_old`, although the word at offset 4,
immediately before that marker, is `0x10000000`. -/
theorem stale_length_word_after_recovery :
    readWord ByteOrder.little
        (bytesOfWords ByteOrder.little [0, FW_START4, FW_START4, FW_END]) 4 = some FW_START4
      ∧ readWord ByteOrder.little
        (bytesOfWords ByteOrder.little [0, FW_START4, FW_START4, FW_END]) 8 = some FW_START4
      ∧ ∃ st, scan (envOk ByteOrder.little)
            (bytesOfWords ByteOrder.little [0, FW_START4, FW_START4, FW_END])
          = some (0, st)
        ∧ st.w.log
            = sessionEvents "marvell_fw_000.bin" 3 [0, FW_START4, FW_START4, FW_END]
              ++ [Event.unlink "marvell_fw_000.bin" 0, Event.lseek 8]
              ++ sessionEvents "marvell_fw_001.bin" 3 [0, FW_START4, FW_END]
              ++ [Event.unlink "marvell_fw_001.bin" 0, Event.lseek 12] := by
  refine ⟨by decide, by decide, ?_⟩
  refine ⟨((scan (envOk ByteOrder.little)
      (bytesOfWords ByteOrder.little [0, FW_START4, FW_START4, FW_END])).getD
        (0, init)).2, ?_, ?_⟩ <;> decide

/-! ## The header decoding of write_output -/

/-- C5: for every word `r`, `write_output` at payload offset `0x120` sets
`version[0..3]` to `[byte1 r, byte0 r, byte3 r, byte2 r]`, at offset `0x124` it sets
`version2` to `(byte0 r << 8) | byte1 r`, and at every offset other than `0x120`,
`0x124` and `0x138` it leaves `version`, `version2` and `phy` unchanged. -/
theorem write_output_header_decoding (env : Env) (w : World) (f : Int) (r : Nat) :
    (write_output env w f 0x120 r).2.version = (byteAt 1 r, byteAt 0 r, byteAt 3 r, byteAt 2 r)
      ∧ (write_output env w f 0x124 r).2.version2 = (byteAt 0 r <<< 8) ||| byteAt 1 r
      ∧ ∀ oo : Int, oo ≠ 0x120 → oo ≠ 0x124 → oo ≠ 0x138 →
          (write_output env w f oo r).2.version = w.version
            ∧ (write_output env w f oo r).2.version2 = w.version2
            ∧ (write_output env w f oo r).2.phy = w.phy := by
  refine ⟨?_, ?_, ?_⟩
  · rw [write_output_snd]
    simp [decode, byteAt]
  · rw [write_output_snd]
    have h := decode_version2_eq r
    simp only [decode]
    rw [if_neg (by decide), if_pos trivial]
    exact h
  · intro oo h1 h2 h3
    rw [write_output_snd]
    simp [decode, h1, h2, h3]

/-- C6: for every word `r` written at payload offset `0x138`, the device type is decoded
from `byte1 r`: `1` gives `X3310`, `3` gives `E2010`, every other value gives `UNKNOWN`;
and the final name built from the globals after that write starts with `x3310`, `e2010`
or `unknw` respectively. -/
theorem device_type_table (env : Env) (w : World) (f : Int) (r : Nat) :
    (write_output env w f 0x138 r).2.phy
        = (if byteAt 1 r = 1 then Phy.X3310
           else if byteAt 1 r = 3 then Phy.E2010 else Phy.UNKNOWN)
      ∧ ∃ rest : String, sprintf_outnamenew (write_output env w f 0x138 r).2
          = (if byteAt 1 r = 1 then "x3310"
             else if byteAt 1 r = 3 then "e2010" else "unknw") ++ rest := by
  have hp : (write_output env w f 0x138 r).2.phy
      = (if byteAt 1 r = 1 then Phy.X3310
         else if byteAt 1 r = 3 then Phy.E2010 else Phy.UNKNOWN) := by
    rw [write_output_snd]
    simp only [decode, byteAt, Nat.mul_one]
    rw [if_neg (by decide), if_neg (by decide), if_pos trivial]
    split
    · rename_i h; simp [h]
    · rename_i h; simp [h]
    · rename_i h1 h3
      rw [if_neg h1, if_neg h3]
  refine ⟨hp, ?_⟩
  refine ⟨"fw_" ++ fmt_d (write_output env w f 0x138 r).2.version.1 ++ "_"
    ++ fmt_d (write_output env w f 0x138 r).2.version.2.1 ++ "_"
    ++ fmt_d (write_output env w f 0x138 r).2.version.2.2.1 ++ "_"
    ++ fmt_d (write_output env w f 0x138 r).2.version.2.2.2 ++ "_"
    ++ fmt_0d 4 (write_output env w f 0x138 r).2.version2 ++ ".hdr.new", ?_⟩
  simp only [sprintf_outnamenew, hp, phyLabel, String.append_assoc]
  by_cases h1 : byteAt 1 r = 1
  · simp [h1]
  · by_cases h3 : byteAt 1 r = 3
    · simp [h1, h3]
    · simp [h1, h3]

/-! ## Properties of byteswap_data -/

/-- C7: on a little-endian host, where `__be16_to_cpu` exchanges the two bytes of a
16-bit value, `byteswap_data x = ((x & 0x00ff00ff) << 8) | ((x >> 8) & 0x00ff00ff)` for
every 32-bit `x`: bytes 0 and 1 are exchanged, bytes 2 and 3 are exchanged, each pair
stays in its own half, and the result is not in general the reversal of the four bytes. -/
theorem byteswap_data_little_formula (x : Nat) (hx : x < 2 ^ 32) :
    byteswap_data ByteOrder.little x
        = ((x &&& 0x00ff00ff) <<< 8) ||| ((x >>> 8) &&& 0x00ff00ff)
      ∧ (byteAt 0 (byteswap_data ByteOrder.little x) = byteAt 1 x
        ∧ byteAt 1 (byteswap_data ByteOrder.little x) = byteAt 0 x
        ∧ byteAt 2 (byteswap_data ByteOrder.little x) = byteAt 3 x
        ∧ byteAt 3 (byteswap_data ByteOrder.little x) = byteAt 2 x)
      ∧ byteswap_data ByteOrder.little 0x11223344 ≠ reverse4 0x11223344 :=
  ⟨byteswap_data_little_eq x hx, byteAt_byteswap_little x hx, by decide⟩

theorem byteswap_data_little_formula_witness :
    (0x11223344 : Nat) < 2 ^ 32
      ∧ (byteswap_data ByteOrder.little 0x11223344
          = ((0x11223344 &&& 0x00ff00ff) <<< 8) ||| ((0x11223344 >>> 8) &&& 0x00ff00ff)
        ∧ (byteAt 0 (byteswap_data ByteOrder.little 0x11223344) = byteAt 1 0x11223344
          ∧ byteAt 1 (byteswap_data ByteOrder.little 0x11223344) = byteAt 0 0x11223344
          ∧ byteAt 2 (byteswap_data ByteOrder.little 0x11223344) = byteAt 3 0x11223344
          ∧ byteAt 3 (byteswap_data ByteOrder.little 0x11223344) = byteAt 2 0x11223344)
        ∧ byteswap_data ByteOrder.little 0x11223344 ≠ reverse4 0x11223344) :=
  ⟨by decide, byteswap_data_little_formula 0x11223344 (by decide)⟩

/-- C8: `byteswap_data (byteswap_data x) = x` for every 32-bit `x`, on a little-endian
host (where `__be16_to_cpu` exchanges two bytes) and on a big-endian host (where it is
the identity, and so is `byteswap_data`). -/
theorem byteswap_data_involution (h : ByteOrder) (x : Nat) (hx : x < 2 ^ 32) :
    byteswap_data h (byteswap_data h x) = x
      ∧ byteswap_data ByteOrder.big x = x := by
  refine ⟨?_, byteswap_data_big_eq x hx⟩
  cases h
  · exact byteswap_data_little_twice x hx
  · rw [byteswap_data_big_eq x hx, byteswap_data_big_eq x hx]

theorem byteswap_data_involution_witness :
    (0x11223344 : Nat) < 2 ^ 32
      ∧ (byteswap_data ByteOrder.little (byteswap_data ByteOrder.little 0x11223344)
          = 0x11223344
        ∧ byteswap_data ByteOrder.big 0x11223344 = 0x11223344) :=
  ⟨by decide, byteswap_data_involution ByteOrder.little 0x11223344 (by decide)⟩

/-! ## Final names and provisional names -/

/-- C9: for every device type, version bytes `v0..v3` and secondary value `s`, the final
name is the label, `fw_`, the four version bytes in decimal separated and followed by
`_`, `s` in decimal padded with zeros to at least four digits, and `.hdr.new`; parsing
the five decimal fields of that name gives back `(v0, v1, v2, v3, s)`. -/
theorem final_name_round_trip (p : Phy) (v0 v1 v2 v3 s : Nat) (l : List Event) :
    sprintf_outnamenew { version := (v0, v1, v2, v3), version2 := s, phy := p, log := l }
        = deviceLabel p ++ "fw_" ++ dec v0 ++ "_" ++ dec v1 ++ "_" ++ dec v2 ++ "_" ++ dec v3
            ++ "_" ++ decPadded 4 s ++ ".hdr.new"
      ∧ parseFinalName
          (sprintf_outnamenew { version := (v0, v1, v2, v3), version2 := s, phy := p, log := l })
        = some (v0, v1, v2, v3, s) := by
  refine ⟨?_, parseFinalName_sprintf _⟩
  simp only [sprintf_outnamenew, phyLabel_eq]
  rfl

/-- C10: every run returns, and the artifacts it opened are, in order, the provisional
names with counters `0, 1, ..., nout - 1`, whatever became of the sessions. At every
evaluation of the loop condition reached in a run, if the state is scanning and the word
read is the start marker, the first call issued is the `open` of `marvell_fw_` followed
by the number of artifacts opened so far, in decimal padded with zeros to three digits,
and `.bin`; the counter field reads back as the counter and has exactly three digits for
counters below 1000. Three sessions use `marvell_fw_000.bin`, `marvell_fw_001.bin`,
`marvell_fw_002.bin`. -/
theorem sequential_provisional_names (env : Env) (src : List Nat) :
    (∃ c st, scan env src = some (c, st)
        ∧ openedNames st.w.log = (List.range st.nout).map provisionalName)
      ∧ (∀ n s, iterations env src n init = Outcome.next s → s.in_fw = 0 →
          readWord env.host src s.pos = some FW_START4 →
          (newEvents env src s).head?
            = some (Event.openOut (provisionalName (openedNames s.w.log).length)
                (env.open_ret s.w.log.length)))
      ∧ (∀ k, provisionalName k = "marvell_fw_" ++ fmt_0d 3 k ++ ".bin"
          ∧ parseDec (fmt_0d 3 k).data = k
          ∧ (k < 1000 → (fmt_0d 3 k).data.length = 3))
      ∧ (List.range 3).map provisionalName
          = ["marvell_fw_000.bin", "marvell_fw_001.bin", "marvell_fw_002.bin"] := by
  refine ⟨?_, ?_, fun k => ⟨rfl, ?_, fmt_0d_three_digits k⟩, by decide⟩
  rotate_left 2
  · rw [fmt_0d, parseDec_zeros, parseDec_toDigits]
  · obtain ⟨c, st, hscan, hiter⟩ := scan_returns env src
    refine ⟨c, st, hscan, ?_⟩
    have h := iterations_opened env src (fuelBound src.length) init inv_init rfl
    rw [hiter] at h
    exact h
  · intro n s hreach hs hread
    have hinv := iterations_inv env src n init s inv_init hreach
    have hop := iterations_opened env src n init inv_init rfl
    rw [hreach] at hop
    simp only [Outcome.state] at hop
    have hlen : (openedNames s.w.log).length = s.nout := by
      rw [hop]; simp
    have hname := sprintf_outname_eq s.outname s.nout hinv.2.2.1
    rw [hlen]
    unfold newEvents
    cases hit : iteration env src s with
    | next s' =>
      rcases iteration_next_cases5 env src s s' hit with
        ⟨-, r, hr, hne, -⟩ | ⟨-, -, -, rfl⟩ | ⟨hc, -⟩ | ⟨hc, -⟩ | ⟨hc, -⟩
      · rw [hread] at hr
        cases hr
        exact absurd rfl hne
      · simp [Outcome.state, write_output_log, hname]
      · exact absurd hs hc
      · exact absurd hs hc
      · exact absurd hs hc
    | ret c s' =>
      rcases iteration_ret_cases env src s s' c hit with
        ⟨hr, -⟩ | ⟨hr, -⟩ | ⟨-, -, -, -, rfl⟩ | ⟨-, -, -, rfl⟩ | ⟨-, -, -, rfl⟩ | ⟨hc, -⟩
      · rw [hread] at hr; cases hr
      · rw [hread] at hr; cases hr
      · simp [Outcome.state, hname]
      · simp [Outcome.state, write_output_log, hname]
      · simp [Outcome.state, write_output_log, hname]
      · exact absurd hs hc

/-! ## Sessions do not nest -/

/-- C14 (no nested session): when the capturing state reads a word equal to the start
marker `0x10000000` and `write_output` succeeds, the iteration issues the four `write`
calls of that word on the current descriptor and nothing else, adds `4` to `oo`, stays
capturing and leaves the counter `nout`, the start offset `o_start`, `r_old`, the
provisional name and the descriptor as they were. No iteration that starts in the
capturing state opens an artifact, and at every evaluation of the loop condition of a
run the session flag `in_fw` is at most `1`. -/
theorem start_marker_while_capturing_is_payload (env : Env) (src : List Nat) (s : State)
    (hcap : s.in_fw ≠ 0) (hread : readWord env.host src s.pos = some FW_START4) :
    (0 ≤ (write_output env s.w s.fdout s.oo FW_START4).1 →
      ∃ s', iteration env src s = Outcome.next s'
        ∧ newEvents env src s = writeEvents env s.w.log.length s.fdout FW_START4
        ∧ s'.oo = s.oo + 4 ∧ s'.in_fw = s.in_fw ∧ s'.nout = s.nout
        ∧ s'.o_start = s.o_start ∧ s'.r_old = s.r_old ∧ s'.outname = s.outname
        ∧ s'.fdout = s.fdout)
    ∧ (∀ name fd, Event.openOut name fd ∉ newEvents env src s)
    ∧ (∀ n t, iterations env src n init = Outcome.next t → t.in_fw ≤ 1) := by
  refine ⟨?_, capturing_opens_nothing env src s hcap, ?_⟩
  · intro hw
    have hit : iteration env src s = Outcome.next { s with
          r := FW_START4, pos := s.pos + 4,
          w := (write_output env s.w s.fdout s.oo FW_START4).2,
          oo := s.oo + 4, o := s.o + 4 } := by
      simp only [iteration, hread, body]
      rw [if_neg hcap, if_neg (by omega), if_neg (by decide)]
    refine ⟨_, hit, ?_, rfl, rfl, rfl, rfl, rfl, rfl, rfl⟩
    simp [newEvents, hit, Outcome.state, write_output_log]
  · intro n t h
    exact iterations_in_fw env src n init t (by decide) h

/-- The hypotheses of `start_marker_while_capturing_is_payload` hold in a run: on the
words `0`, start marker, start marker the second start marker is read while
capturing and is written as payload. -/
theorem start_marker_while_capturing_is_payload_witness :
    (iterations (envOk ByteOrder.little)
        (bytesOfWords ByteOrder.little [0, FW_START4, FW_START4]) 2 init).state.in_fw ≠ 0
    ∧ ∃ s', iteration (envOk ByteOrder.little)
        (bytesOfWords ByteOrder.little [0, FW_START4, FW_START4])
        (iterations (envOk ByteOrder.little)
          (bytesOfWords ByteOrder.little [0, FW_START4, FW_START4]) 2 init).state
          = Outcome.next s' ∧ s'.oo = 12 ∧ s'.nout = 1 :=
  ⟨by decide,
   by
    obtain ⟨s', h1, -, h2, -, h3, -⟩ :=
      (start_marker_while_capturing_is_payload (envOk ByteOrder.little)
        (bytesOfWords ByteOrder.little [0, FW_START4, FW_START4])
        (iterations (envOk ByteOrder.little)
          (bytesOfWords ByteOrder.little [0, FW_START4, FW_START4]) 2 init).state
        (by decide) (by decide)).1 (by decide)
    exact ⟨s', h1, by rw [h2]; decide, by rw [h3]; decide⟩⟩

/-! ## The expected length is computed in 32 bits -/

/-- C19 (the expected length wraps at 32 bits): when the capturing state reads the
end marker and `write_output` succeeds, the artifact is renamed exactly when
`(byteswap_data(r_old) + 32) mod 2^32` equals the new value of `oo`. On a
little-endian host the words `0xffffecff`, start marker, end marker declare the
length `0xffffffec`; three words, `12` bytes, are captured, `0xffffffec + 32` is not
`12`, and the artifact is renamed all the same. -/
theorem expected_length_wraps (env : Env) (src : List Nat) (s : State)
    (hcap : s.in_fw ≠ 0) (hread : readWord env.host src s.pos = some FW_END)
    (hw : 0 ≤ (write_output env s.w s.fdout s.oo FW_END).1) :
    (renamed (newEvents env src s) s.outname
        ↔ (((byteswap_data env.host s.r_old + 32) % 2 ^ 32 : Nat) : Int) = s.oo + 4)
    ∧ byteswap_data ByteOrder.little 0xffffecff = 0xffffffec
    ∧ (0xffffffec + 32 : Nat) ≠ 12
    ∧ (∃ st, scan (envOk ByteOrder.little)
          (bytesOfWords ByteOrder.little [0xffffecff, FW_START4, FW_END]) = some (0, st)
        ∧ st.w.log = sessionEvents "marvell_fw_000.bin" 3 [0xffffecff, FW_START4, FW_END]
            ++ [Event.rename "marvell_fw_000.bin" "x3310fw_0_0_0_0_0000.hdr.new" 0]
        ∧ st.oo = 12 ∧ sessionBytes st.w.log = 12) := by
  refine ⟨?_, by decide, by decide, ?_⟩
  · rw [newEvents, iteration_capture_end env src s hcap hread hw]
    rcases end_of_fw_cases env
        { s with r := FW_END, pos := s.pos + 4,
                 w := (write_output env s.w s.fdout s.oo FW_END).2, oo := s.oo + 4 }
      with ⟨hq, he⟩ | ⟨hq, he⟩
    · rw [he]
      simp only at hq
      simp only [hq, iff_true, Outcome.state, write_output_log, renamed]
      refine ⟨sprintf_outnamenew (write_output env s.w s.fdout s.oo FW_END).2,
        env.rename_ret ((write_output env s.w s.fdout s.oo FW_END).2.log.length + 1), ?_⟩
      simp [write_output_log]
    · rw [he]
      simp only at hq
      simp only [hq, iff_false, Outcome.state, write_output_log, renamed]
      simp [writeEvents]
  · refine ⟨((scan (envOk ByteOrder.little)
      (bytesOfWords ByteOrder.little [0xffffecff, FW_START4, FW_END])).getD (0, init)).2,
      ?_, ?_, ?_, ?_⟩ <;> decide

/-- The hypotheses of `expected_length_wraps` hold in a run: after `0xffffecff` and
the start marker the state is capturing, the next word is the end marker, and the
artifact is renamed. -/
theorem expected_length_wraps_witness :
    renamed (newEvents (envOk ByteOrder.little)
        (bytesOfWords ByteOrder.little [0xffffecff, FW_START4, FW_END])
        (iterations (envOk ByteOrder.little)
          (bytesOfWords ByteOrder.little [0xffffecff, FW_START4, FW_END]) 2 init).state)
      "marvell_fw_000.bin" :=
  ((expected_length_wraps (envOk ByteOrder.little)
      (bytesOfWords ByteOrder.little [0xffffecff, FW_START4, FW_END])
      (iterations (envOk ByteOrder.little)
        (bytesOfWords ByteOrder.little [0xffffecff, FW_START4, FW_END]) 2 init).state
      (by decide) (by decide) (by decide)).1).2 (by decide)

/-! ## The bytes written and the values decoded -/

/-- C18 (written bytes agree with `byteswap_data` and the decoder): for every 32-bit
word `r`, when no `write` returns more than `1` and `write_output` succeeds, it
returns `0` and appends to the trace exactly the four `write` calls of byte 1, byte 0,
byte 3, byte 2 of `r`, in this order, each returning `1`. On a little-endian host
these four bytes are the little-endian bytes of `byteswap_data(r)`. At payload offset
`0x120` the four version bytes are, in order, the four bytes written by this call, and
at payload offset `0x124` the value of `version2` is `byteswap_data(r) & 0xffff`.
In a run, whenever the loop condition is evaluated in the capturing state, `oo` is the
number of bytes written to the artifact so far, so the bytes of the call at payload
offset `0x120` are stored at the offsets `0x120` to `0x123` of the artifact. -/
theorem written_bytes_agree_with_byteswap (env : Env) (hle : ∀ i, env.write_ret i ≤ 1)
    (hh : env.host = ByteOrder.little) (w : World) (f : Int) (oo : Int) (r : Nat)
    (hr : r < 2 ^ 32) (hok : 0 ≤ (write_output env w f oo r).1) :
    (write_output env w f oo r).1 = 0
    ∧ (write_output env w f oo r).2.log
        = w.log ++ [Event.write f (byteAt 1 r) 1, Event.write f (byteAt 0 r) 1,
                    Event.write f (byteAt 3 r) 1, Event.write f (byteAt 2 r) 1]
    ∧ [byteAt 1 r, byteAt 0 r, byteAt 3 r, byteAt 2 r]
        = wordBytes ByteOrder.little (byteswap_data env.host r)
    ∧ (oo = 0x120 → (write_output env w f oo r).2.version
        = (byteAt 1 r, byteAt 0 r, byteAt 3 r, byteAt 2 r))
    ∧ (oo = 0x124 → (write_output env w f oo r).2.version2
        = byteswap_data env.host r &&& 0xffff)
    ∧ (∀ src n s, iterations env src n init = Outcome.next s → s.in_fw ≠ 0 →
        s.oo = sessionBytes s.w.log) := by
  obtain ⟨b0, b1, b2, b3⟩ := byteAt_byteswap_little r hr
  refine ⟨?_, ?_, ?_, ?_, ?_,
    fun src n s h hs => oo_counts_bytes env hle src n init s (fun h0 => absurd rfl h0) h hs⟩
  · rw [write_output_fst] at hok ⊢
    split at hok
    · exact absurd hok (by decide)
    · rename_i hc
      rw [if_neg hc]
  · exact write_output_log_ok env hle w f oo r hok
  · rw [hh, wordBytes_little_eq, b0, b1, b2, b3]
  · intro ho
    rw [write_output_snd]
    simp [decode, ho, byteAt]
  · intro ho
    rw [write_output_snd, hh, byteswap_data_little_low r hr, ← decode_version2_eq]
    simp [decode, ho]

/-- The hypotheses of `written_bytes_agree_with_byteswap` hold for the word
`0x04030201` written at payload offset `0x120` on a little-endian host where every
call succeeds: the bytes `2, 1, 4, 3` are written and decoded. -/
theorem written_bytes_agree_with_byteswap_witness :
    (write_output (envOk ByteOrder.little) init.w 3 0x120 0x04030201).2.version = (2, 1, 4, 3)
    ∧ wordBytes ByteOrder.little (byteswap_data ByteOrder.little 0x04030201) = [2, 1, 4, 3] :=
  ⟨((written_bytes_agree_with_byteswap (envOk ByteOrder.little) (fun _ => by simp [envOk]) rfl
      init.w 3 0x120 0x04030201 (by decide) (by decide)).2.2.2.1 rfl).trans (by decide),
   by decide⟩

/-! ## The tracked offset and the recovery point -/

/-- C15 (position invariant with recovery): at every evaluation of the loop condition
of a run, the tracked offset `o` is the position of the input from which the next word
is read, and it is a multiple of four. An iteration that goes on to the next evaluation
either ends a session whose length check fails, and then the position and `o` are both
set to `o_start + 8`, which is not beyond the old position, the word at offset
`o_start + 4` being the start marker; or it advances the position and `o` by exactly
`4`. When a start marker opens a session, `o_start + 4` is the offset at which it was
read. -/
theorem position_invariant_with_recovery (env : Env) (src : List Nat) (n : Nat) (s : State)
    (h : iterations env src n init = Outcome.next s) :
    s.o = (s.pos : Int) ∧ s.o % 4 = 0
    ∧ ∀ s', iteration env src s = Outcome.next s' →
        ((s.in_fw ≠ 0 ∧ readWord env.host src s.pos = some FW_END
            ∧ (((byteswap_data env.host s.r_old + 32) % 2 ^ 32 : Nat) : Int) ≠ s.oo + 4) →
          s'.o = s.o_start + 8 ∧ (s'.pos : Int) = s.o_start + 8
            ∧ s.o_start + 8 ≤ s.o
            ∧ readWord env.host src (s.o_start + 4).toNat = some FW_START4
            ∧ (s'.pos : Int) = ((s.o_start + 4).toNat : Int) + 4)
        ∧ (¬ (s.in_fw ≠ 0 ∧ readWord env.host src s.pos = some FW_END
            ∧ (((byteswap_data env.host s.r_old + 32) % 2 ^ 32 : Nat) : Int) ≠ s.oo + 4) →
          s'.o = s.o + 4 ∧ s'.pos = s.pos + 4)
        ∧ (s.in_fw = 0 → s'.in_fw ≠ 0 →
            readWord env.host src s.pos = some FW_START4 ∧ s'.o_start + 4 = (s.pos : Int)) := by
  have hi := iterations_inv env src n init s inv_init h
  have hm := iterations_markerAt env src n init s inv_init (fun hc => absurd rfl hc) h
  obtain ⟨h1, h2, h3, h4⟩ := hi
  refine ⟨h1, by omega, ?_⟩
  intro s' hit
  rcases iteration_next_cases5 env src s s' hit with
    ⟨hs, r, hr, hne, rfl⟩ | ⟨hs, hr, -, rfl⟩ | ⟨hs, r, hr, hne, rfl⟩ | ⟨hs, hr, -, hq, rfl⟩
      | ⟨hs, hr, -, hq, rfl⟩
  · refine ⟨fun hc => absurd hs hc.1, fun _ => ⟨rfl, rfl⟩, fun _ hc => absurd hs hc⟩
  · refine ⟨fun hc => absurd hs hc.1, fun _ => ⟨rfl, rfl⟩, fun _ _ => ⟨hr, ?_⟩⟩
    simp only
    omega
  · refine ⟨fun hc => ?_, fun _ => ⟨rfl, rfl⟩, fun hc => absurd hc hs⟩
    rw [hr] at hc
    exact absurd (Option.some.inj hc.2.1) hne
  · exact ⟨fun hc => absurd hq hc.2.2, fun _ => ⟨rfl, rfl⟩, fun hc => absurd hc hs⟩
  · obtain ⟨a, b, c, d, e⟩ := h4 hs
    have hl : lseek_set (s.pos + 4) (s.o_start + 8) = (s.o_start + 8).toNat := by
      simp only [lseek_set]
      rw [if_pos (by omega)]
    refine ⟨fun _ => ⟨rfl, ?_, b, hm hs, ?_⟩, fun hc => absurd ⟨hs, hr, hq⟩ hc,
      fun hc => absurd hc hs⟩
    · simp only [hl]; omega
    · simp only [hl]; omega

/-- The hypothesis of `position_invariant_with_recovery` holds in a run: on the words
`0`, start marker, end marker the state after two evaluations of the loop condition is
capturing at offset `8`, and the next iteration, whose length check fails, sets the
position and `o` back to `o_start + 8 = 8`. -/
theorem position_invariant_with_recovery_witness :
    iterations (envOk ByteOrder.little) exampleSrc 2 init = Outcome.next exampleCapturing
    ∧ exampleCapturing.o = (exampleCapturing.pos : Int)
    ∧ ∀ s', iteration (envOk ByteOrder.little) exampleSrc exampleCapturing = Outcome.next s' →
        s'.o = exampleCapturing.o_start + 8 :=
  ⟨by decide,
   (position_invariant_with_recovery (envOk ByteOrder.little) exampleSrc 2 exampleCapturing
      (by decide)).1,
   fun s' hs' =>
    (((position_invariant_with_recovery (envOk ByteOrder.little) exampleSrc 2 exampleCapturing
      (by decide)).2.2 s' hs').1 ⟨by decide, by decide, by decide⟩).1⟩

/-! ## The status returned by the scan -/

/-- C13 (final status and filesystem failures): the variable `ret` is overwritten by
every `rename` and `unlink`, so the status returned after a scan to exhaustion is the
value returned by the last such call, `0` when there was none. On two payloads that
both pass the length check, with the first `rename` failing (`-1`) and the second one
succeeding, the scan returns `0` although a `rename` of the run has failed. -/
theorem failed_rename_is_forgotten :
    (∀ (env : Env), env.ioOk → ∀ src c st, scan env src = some (c, st) →
        c = lastStatus st.w.log)
    ∧ envFirstRenameFails.ioOk
    ∧ ∃ st, scan envFirstRenameFails twoValidPayloads = some (0, st)
        ∧ st.w.log
            = sessionEvents "marvell_fw_000.bin" 3 [0, FW_START4, 1, 2, 3, 4, 5, FW_END]
              ++ [Event.rename "marvell_fw_000.bin" "x3310fw_0_0_0_0_0000.hdr.new" (-1)]
              ++ sessionEvents "marvell_fw_001.bin" 3 [0, FW_START4, 1, 2, 3, 4, 5, FW_END]
              ++ [Event.rename "marvell_fw_001.bin" "x3310fw_0_0_0_0_0000.hdr.new" 0] := by
  refine ⟨fun env hio src c st h => scan_last_status env hio src c st h,
    ⟨fun _ => by simp [envFirstRenameFails], fun _ => by simp [envFirstRenameFails]⟩, ?_⟩
  refine ⟨((scan envFirstRenameFails twoValidPayloads).getD (0, init)).2, ?_, ?_⟩ <;> decide

/-! ## Final names of several payloads -/

set_option maxRecDepth 8000 in
/-- C11, as stated, fails: the final name is built from the decoded metadata alone.
Three payloads that each pass the length check and are too short to reach the header
fields are renamed, from `marvell_fw_000.bin`, `marvell_fw_001.bin` and
`marvell_fw_002.bin`, to one and the same final name `x3310fw_0_0_0_0_0000.hdr.new`. -/
theorem three_payloads_one_final_name :
    ∃ st, scan (envOk ByteOrder.little) threeValidPayloads = some (0, st)
      ∧ st.w.log
          = sessionEvents "marvell_fw_000.bin" 3 [0, FW_START4, 1, 2, 3, 4, 5, FW_END]
            ++ [Event.rename "marvell_fw_000.bin" "x3310fw_0_0_0_0_0000.hdr.new" 0]
            ++ sessionEvents "marvell_fw_001.bin" 3 [0, FW_START4, 1, 2, 3, 4, 5, FW_END]
            ++ [Event.rename "marvell_fw_001.bin" "x3310fw_0_0_0_0_0000.hdr.new" 0]
            ++ sessionEvents "marvell_fw_002.bin" 3 [0, FW_START4, 1, 2, 3, 4, 5, FW_END]
            ++ [Event.rename "marvell_fw_002.bin" "x3310fw_0_0_0_0_0000.hdr.new" 0] := by
  refine ⟨((scan (envOk ByteOrder.little) threeValidPayloads).getD (0, init)).2, ?_, ?_⟩
    <;> decide

/-- C11, amended: the final names of three committed payloads are distinct exactly when
their decoded metadata differ. In every run, for every environment, let three
different iterations each end a session whose length check passes (`CommitsAt`), at
the states `s1`, `s2`, `s3` in this order. Then each of them issues, after the `write`
calls of the end marker and the `close`, one `rename` of the provisional name of its
session to the final name built from the globals after that iteration; these three
`rename` calls are in the trace of the run; the three provisional names are pairwise
distinct; and two of the three final names are equal if and only if the device type,
the version bytes and the secondary value they are built from are equal. -/
theorem final_names_follow_metadata (env : Env) (src : List Nat) (n1 n2 n3 : Nat)
    (s1 s2 s3 : State)
    (h1 : iterations env src n1 init = Outcome.next s1)
    (h2 : iterations env src n2 init = Outcome.next s2)
    (h3 : iterations env src n3 init = Outcome.next s3)
    (h12 : n1 < n2) (h23 : n2 < n3)
    (c1 : CommitsAt env src s1) (c2 : CommitsAt env src s2) (c3 : CommitsAt env src s3) :
    ∃ c st t1 t2 t3 r1 r2 r3,
      scan env src = some (c, st)
      ∧ iteration env src s1 = Outcome.next t1
      ∧ iteration env src s2 = Outcome.next t2
      ∧ iteration env src s3 = Outcome.next t3
      ∧ newEvents env src s1
          = writeEvents env s1.w.log.length s1.fdout FW_END
            ++ [Event.close s1.fdout, Event.rename s1.outname (sprintf_outnamenew t1.w) r1]
      ∧ newEvents env src s2
          = writeEvents env s2.w.log.length s2.fdout FW_END
            ++ [Event.close s2.fdout, Event.rename s2.outname (sprintf_outnamenew t2.w) r2]
      ∧ newEvents env src s3
          = writeEvents env s3.w.log.length s3.fdout FW_END
            ++ [Event.close s3.fdout, Event.rename s3.outname (sprintf_outnamenew t3.w) r3]
      ∧ Event.rename s1.outname (sprintf_outnamenew t1.w) r1 ∈ st.w.log
      ∧ Event.rename s2.outname (sprintf_outnamenew t2.w) r2 ∈ st.w.log
      ∧ Event.rename s3.outname (sprintf_outnamenew t3.w) r3 ∈ st.w.log
      ∧ s1.outname ≠ s2.outname ∧ s1.outname ≠ s3.outname ∧ s2.outname ≠ s3.outname
      ∧ (sprintf_outnamenew t1.w = sprintf_outnamenew t2.w
          ↔ t1.w.phy = t2.w.phy ∧ t1.w.version = t2.w.version
            ∧ t1.w.version2 = t2.w.version2)
      ∧ (sprintf_outnamenew t1.w = sprintf_outnamenew t3.w
          ↔ t1.w.phy = t3.w.phy ∧ t1.w.version = t3.w.version
            ∧ t1.w.version2 = t3.w.version2)
      ∧ (sprintf_outnamenew t2.w = sprintf_outnamenew t3.w
          ↔ t2.w.phy = t3.w.phy ∧ t2.w.version = t3.w.version
            ∧ t2.w.version2 = t3.w.version2) := by
  obtain ⟨c, st, hscan, -⟩ := scan_returns env src
  obtain ⟨t1, r1, hi1, hn1, hm1⟩ := committed_rename_in_trace env src n1 s1 h1 c1
  obtain ⟨t2, r2, hi2, hn2, hm2⟩ := committed_rename_in_trace env src n2 s2 h2 c2
  obtain ⟨t3, r3, hi3, hn3, hm3⟩ := committed_rename_in_trace env src n3 s3 h3 c3
  exact ⟨c, st, t1, t2, t3, r1, r2, r3, hscan, hi1, hi2, hi3, hn1, hn2, hn3,
    hm1 c st hscan, hm2 c st hscan, hm3 c st hscan,
    commit_sources_differ env src n1 n2 s1 s2 h1 h2 h12 c1 c2,
    commit_sources_differ env src n1 n3 s1 s3 h1 h3 (by omega) c1 c3,
    commit_sources_differ env src n2 n3 s2 s3 h2 h3 h23 c2 c3,
    sprintf_outnamenew_inj _ _, sprintf_outnamenew_inj _ _, sprintf_outnamenew_inj _ _⟩

set_option maxRecDepth 8000 in
/-- The hypotheses of `final_names_follow_metadata` hold in a run on a little-endian
host where every call succeeds: of four sessions the first, the third and the fourth
pass the length check, at the evaluations `7`, `19` and `27` of the loop condition,
and the second one fails it; the three committed artifacts have the provisional names
with counters `0`, `2`, `3`. -/
theorem final_names_follow_metadata_witness :
    (CommitsAt (envOk ByteOrder.little) threeValidOneFailed
        (iterations (envOk ByteOrder.little) threeValidOneFailed 7 init).state
      ∧ CommitsAt (envOk ByteOrder.little) threeValidOneFailed
        (iterations (envOk ByteOrder.little) threeValidOneFailed 19 init).state
      ∧ CommitsAt (envOk ByteOrder.little) threeValidOneFailed
        (iterations (envOk ByteOrder.little) threeValidOneFailed 27 init).state)
    ∧ (iterations (envOk ByteOrder.little) threeValidOneFailed 7 init).state.outname
        = "marvell_fw_000.bin"
    ∧ (iterations (envOk ByteOrder.little) threeValidOneFailed 19 init).state.outname
        = "marvell_fw_002.bin"
    ∧ (iterations (envOk ByteOrder.little) threeValidOneFailed 27 init).state.outname
        = "marvell_fw_003.bin"
    ∧ (iterations (envOk ByteOrder.little) threeValidOneFailed 7 init).state.outname
        ≠ (iterations (envOk ByteOrder.little) threeValidOneFailed 19 init).state.outname :=
  ⟨⟨by unfold CommitsAt; decide, by unfold CommitsAt; decide, by unfold CommitsAt; decide⟩,
   by decide, by decide, by decide,
   by
    obtain ⟨-, -, -, -, -, -, -, -, -, -, -, -, -, -, -, -, -, -, h, -⟩ :=
      final_names_follow_metadata (envOk ByteOrder.little) threeValidOneFailed 7 19 27
        (iterations (envOk ByteOrder.little) threeValidOneFailed 7 init).state
        (iterations (envOk ByteOrder.little) threeValidOneFailed 19 init).state
        (iterations (envOk ByteOrder.little) threeValidOneFailed 27 init).state
        (by decide) (by decide) (by decide) (by decide) (by decide)
        (by unfold CommitsAt; decide) (by unfold CommitsAt; decide)
        (by unfold CommitsAt; decide)
    exact h⟩

/-! ## The input ends inside a session -/

/-- C12 (premature end): in a run where every `open` and `write` succeeds, let the
scanning state read a start marker such that no word read after it up to the end of
the input is the end marker. Then the run returns in the capturing state with the
value of the final `unlink`; after the trace up to the marker it consists of the
`open` of the provisional name with the current counter, the `write` calls of
`r_old`, the marker and all words `body` that follow up to the end of the input, and
the `unlink` of that provisional name. That name is never renamed, no earlier event
touches it, and it is not the target of an earlier `rename`, so the artifacts of
earlier sessions are not touched. -/
theorem premature_end_deletes_artifact (env : Env) (hio : env.ioOk) (src : List Nat)
    (n : Nat) (s : State) (h : iterations env src n init = Outcome.next s)
    (hs : s.in_fw = 0) (hread : readWord env.host src s.pos = some FW_START4)
    (hno : ∀ k, readWord env.host src (s.pos + 4 + 4 * k) ≠ some FW_END) :
    ∃ c st body fd,
      scan env src = some (c, st)
      ∧ st.in_fw ≠ 0
      ∧ WordsAt env.host src (s.pos + 4) body
      ∧ readWord env.host src (s.pos + 4 + 4 * body.length) = none
      ∧ st.w.log
          = s.w.log
            ++ (Event.openOut (provisionalName s.nout) fd
                :: payloadEvents fd (s.r_old :: FW_START4 :: body))
            ++ [Event.unlink (provisionalName s.nout) c]
      ∧ ¬ renamed st.w.log (provisionalName s.nout)
      ∧ (∀ e ∈ s.w.log, e.artifact ≠ some (provisionalName s.nout))
      ∧ (∀ old new r, Event.rename old new r ∈ s.w.log → new ≠ provisionalName s.nout) := by
  have hi := iterations_inv env src n init s inv_init h
  have ht : TraceNames s.nout s.w.log := by
    have := iterations_traceNames env src n init inv_init (fun e he => by cases he)
    rw [h] at this
    exact this
  obtain ⟨body, hW, hend⟩ := exists_words_to_end env.host src (src.length - (s.pos + 4))
    (s.pos + 4) (Nat.le_refl _)
  have hbody := wordsAt_no_end env.host src body (s.pos + 4) hW hno
  have hn := sprintf_outname_eq s.outname s.nout hi.2.2.1
  have h1 : iterations env src 1 s = Outcome.next (startSession env s) := by
    rw [iterations_one, iteration_scan_start' env hio src s hs hread]
  have hcap : (startSession env s).in_fw ≠ 0 := by simp [startSession]
  have h2 := iterations_capture env hio.2 src body (startSession env s) hcap hW hbody
  have e2 := captureWords_eq body (startSession env s)
  have hcap' : (captureWords (startSession env s) body).in_fw ≠ 0 := by
    rw [e2]; exact hcap
  have hr3 : readWord env.host src (captureWords (startSession env s) body).pos = none := by
    rw [e2]; exact hend
  have h3 : iterations env src 1 (captureWords (startSession env s) body)
      = Outcome.ret (env.unlink_ret (captureWords (startSession env s) body).w.log.length)
          { captureWords (startSession env s) body with
            ret := env.unlink_ret (captureWords (startSession env s) body).w.log.length,
            w := { (captureWords (startSession env s) body).w with
                   log := (captureWords (startSession env s) body).w.log
                    ++ [Event.unlink (captureWords (startSession env s) body).outname
                          (env.unlink_ret
                            (captureWords (startSession env s) body).w.log.length)] } } := by
    rw [iterations_one, iteration_eof env src _ hr3]
    simp only [epilogue]
    rw [if_pos hcap']
  have h12 := iterations_next_add env src 1 body.length s _ h1
  rw [h2] at h12
  have h123 := iterations_next_add env src (1 + body.length) 1 s _ h12
  rw [h3] at h123
  have hall := iterations_next_add env src n (1 + body.length + 1) init s h
  rw [h123] at hall
  have hscan := scan_eq_of_iterations env src _ _ _ hall
  have hfresh : ∀ e ∈ s.w.log, e.artifact ≠ some (provisionalName s.nout) := by
    intro e he hc
    obtain ⟨j, hj, hname⟩ := (ht e he).1 _ hc
    have := provisionalName_injective _ _ hname
    omega
  have hlog : (captureWords (startSession env s) body).w.log
        ++ [Event.unlink (captureWords (startSession env s) body).outname
              (env.unlink_ret (captureWords (startSession env s) body).w.log.length)]
      = s.w.log
        ++ (Event.openOut (provisionalName s.nout) (env.open_ret s.w.log.length)
            :: payloadEvents (env.open_ret s.w.log.length) (s.r_old :: FW_START4 :: body))
        ++ [Event.unlink (provisionalName s.nout)
              (env.unlink_ret (captureWords (startSession env s) body).w.log.length)] := by
    rw [e2]
    simp [startSession, hn, payloadEvents_cons]
  refine ⟨_, _, body, env.open_ret s.w.log.length, hscan, hcap', hW, hend, hlog, ?_, hfresh, ?_⟩
  · rintro ⟨new, r, hmem⟩
    have hmem' : Event.rename (provisionalName s.nout) new r
        ∈ (captureWords (startSession env s) body).w.log
          ++ [Event.unlink (captureWords (startSession env s) body).outname
                (env.unlink_ret (captureWords (startSession env s) body).w.log.length)] := hmem
    rw [hlog] at hmem'
    simp only [List.mem_append, List.mem_singleton, List.mem_cons] at hmem'
    rcases hmem' with (hm | hm | hm) | hm | hm
    · exact hfresh _ hm rfl
    · cases hm
    · obtain ⟨d, hd⟩ := mem_payloadEvents _ _ _ hm
      cases hd
    · cases hm
    · cases hm
  · intro old new r hmem hc
    obtain ⟨w, hw⟩ := (ht _ hmem).2 old new r rfl
    rw [hw] at hc
    exact final_name_ne_provisional w s.nout hc

/-- The hypotheses of `premature_end_deletes_artifact` hold in a run: on the words `0`,
start marker, `1`, `2` the start marker is read in the scanning state after one
evaluation of the loop condition and no end marker follows; the run returns. -/
theorem premature_end_deletes_artifact_witness :
    (iterations (envOk ByteOrder.little) prematureSrc 1 init).state.in_fw = 0
    ∧ readWord ByteOrder.little prematureSrc
        (iterations (envOk ByteOrder.little) prematureSrc 1 init).state.pos = some FW_START4
    ∧ ∃ c st, scan (envOk ByteOrder.little) prematureSrc = some (c, st) ∧ st.in_fw ≠ 0 :=
  ⟨by decide, by decide,
   by
    obtain ⟨c, st, -, -, h1, h2, -⟩ :=
      premature_end_deletes_artifact (envOk ByteOrder.little)
        ⟨fun _ => by simp [envOk], fun _ => rfl⟩ prematureSrc 1
        (iterations (envOk ByteOrder.little) prematureSrc 1 init).state
        (by decide) (by decide) (by decide)
        (fun k hc => by
          have hle := readWord_some_le _ _ _ _ hc
          have hp : (iterations (envOk ByteOrder.little) prematureSrc 1 init).state.pos = 4 := by
            decide
          have hl : prematureSrc.length = 16 := by decide
          rw [hp, hl] at hle
          have hk : k < 2 := by omega
          rw [hp] at hc
          interval_cases k <;> revert hc <;> decide)
    exact ⟨c, st, h1, h2⟩⟩

/-! ## Termination and the number of sessions -/

/-- C16 (termination despite backward seeks): for every input and every environment
the scan returns within `fuelBound` evaluations of the loop condition. An iteration
that does not advance the position by `4` sets it to a value that is not beyond the
old position, and on the words `0`, start marker, `1`, end marker the recovery moves
the position from `12` back to `8`. The offsets of the start markers that open
sessions are strictly increasing in the order of the run, each of them holds a start
marker, their number is the final value of the counter `nout`, and it is at most the
number of whole words of the input. -/
theorem scan_terminates_sessions_bounded (env : Env) (src : List Nat) :
    (∃ c st, scan env src = some (c, st)
        ∧ (sessionStarts env src (fuelBound src.length) init).length = st.nout
        ∧ st.nout ≤ src.length / 4)
    ∧ List.Pairwise (· < ·) (sessionStarts env src (fuelBound src.length) init)
    ∧ (∀ p ∈ sessionStarts env src (fuelBound src.length) init,
        readWord env.host src p = some FW_START4)
    ∧ (∀ n s s', iterations env src n init = Outcome.next s →
        iteration env src s = Outcome.next s' → s'.pos ≠ s.pos + 4 → s'.pos ≤ s.pos)
    ∧ (∃ s s', iterations (envOk ByteOrder.little) recoverySrc 3 init = Outcome.next s
        ∧ iteration (envOk ByteOrder.little) recoverySrc s = Outcome.next s'
        ∧ s.pos = 12 ∧ s'.pos = 8) := by
  refine ⟨?_, sessionStarts_pairwise env src _ init inv_init,
    fun p hp => (sessionStarts_ge env src _ init inv_init p hp).2, ?_, ?_⟩
  · obtain ⟨c, st, hscan, hit⟩ := scan_returns env src
    have hc := sessionStarts_count env src (fuelBound src.length) init
    rw [hit] at hc
    simp only [Outcome.state] at hc
    have hb := sessionStarts_length_le env src (fuelBound src.length) init inv_init
    have h0 : init.nout = 0 := rfl
    have hf : remWords src.length (frontier init) = src.length / 4 := by
      simp [remWords, frontier, init]
    rw [hf] at hb
    rw [h0, Nat.add_zero] at hc
    exact ⟨c, st, hscan, hc, by omega⟩
  · intro n s s' h hit hne
    have hi := iterations_inv env src n init s inv_init h
    obtain ⟨h1, h2, h3, h4⟩ := hi
    rcases iteration_next_cases5 env src s s' hit with
      ⟨hs, r, -, -, rfl⟩ | ⟨hs, -, -, rfl⟩ | ⟨hs, r, -, -, rfl⟩ | ⟨hs, -, -, -, rfl⟩
        | ⟨hs, -, -, -, rfl⟩
    · exact absurd rfl hne
    · exact absurd rfl hne
    · exact absurd rfl hne
    · exact absurd rfl hne
    · obtain ⟨a, b, c, d, e⟩ := h4 hs
      simp only [lseek_set]
      rw [if_pos (by omega)]
      omega
  · exact ⟨(iterations (envOk ByteOrder.little) recoverySrc 3 init).state,
      (iteration (envOk ByteOrder.little) recoverySrc
        (iterations (envOk ByteOrder.little) recoverySrc 3 init).state).state,
      by decide, by decide, by decide, by decide⟩

/-! ## The decoded metadata is never reset -/

/-- C17 (decoded metadata is not reset at a start marker): at every evaluation of the
loop condition of any run, the version bytes, the secondary field and the device type
are the values set by the most recent call of `write_output` of the whole run at
payload offset `0x120`, `0x124` and `0x138` respectively, or `(0, 0, 0, 0)`, `0` and
`X3310` when there was no such call. When every `open` and `write` succeeds and a
payload that starts in a reached scanning state `s` passes the length check, the final
name in its `rename` is built from the globals of `s` changed only by the decoding of
the words of this payload; if fewer than `0x13c` bytes were captured the device type
is the one of `s`, and if moreover no start marker was matched before, the final name
starts with `x3310`. -/
theorem metadata_survives_start_marker (env : Env) (hio : env.ioOk) (src : List Nat)
    (n : Nat) (s : State) (h : iterations env src n init = Outcome.next s)
    (hs : s.in_fw = 0) (gap body : List Nat) (L : Nat)
    (hW : WordsAt env.host src s.pos ((gap ++ [L]) ++ (FW_START4 :: body ++ [FW_END])))
    (hgap : ∀ w ∈ gap, w ≠ FW_START4) (hL : L ≠ FW_START4)
    (hbody : ∀ w ∈ body, w ≠ FW_END)
    (hq : (((byteswap_data env.host L + 32) % 2 ^ 32 : Nat) : Int)
      = 4 * ((body.length : Int) + 3)) :
    (∀ (env' : Env) (src' : List Nat) (m : Nat) (u : State),
        iterations env' src' m init = Outcome.next u →
        u.w.version = versionAfter (runCalls env' src' m init)
          ∧ u.w.version2 = version2After (runCalls env' src' m init)
          ∧ u.w.phy = phyAfter (runCalls env' src' m init))
    ∧ ∃ t fd ret,
        iterations env src (n + ((gap ++ [L]).length + (body.length + 2))) init
          = Outcome.next t
        ∧ t.w.log
            = s.w.log
              ++ sessionEvents (provisionalName s.nout) fd ([L, FW_START4] ++ body ++ [FW_END])
              ++ [Event.rename (provisionalName s.nout) (sprintf_outnamenew t.w) ret]
        ∧ metadata t.w = metadata (decodeWords s.w 8 (body ++ [FW_END]))
        ∧ (4 * ((body.length : Int) + 3) < 0x13c → t.w.phy = s.w.phy)
        ∧ (4 * ((body.length : Int) + 3) < 0x13c → s.nout = 0 →
            (sprintf_outnamenew t.w).data.take 5 = "x3310".data) := by
  refine ⟨fun env' src' m u hu => reached_metadata env' src' m u hu, ?_⟩
  have hi := iterations_inv env src n init s inv_init h
  obtain ⟨t, fd, ret, hit, -, -, -, -, hw⟩ :=
    committed_payload env hio src s gap body L hs hi hW hgap hL hbody hq
  have hall := iterations_next_add env src n ((gap ++ [L]).length + (body.length + 2))
    init s h
  rw [hit] at hall
  have hphy : 4 * ((body.length : Int) + 3) < 0x13c → t.w.phy = s.w.phy := by
    intro hlt
    rw [hw]
    exact decodeWords_phy_of_lt _ _ _ (by
      simp only [List.length_append, List.length_singleton, Nat.cast_add, Nat.cast_one]
      omega)
  refine ⟨t, fd, ret, hall, ?_, ?_, hphy, ?_⟩
  · rw [hw]
    simp only [sprintf_outnamenew_with_log]
  · rw [hw]
    rfl
  · intro hlt h0
    have hf := first_session_metadata env src n init s (fun _ => ⟨rfl, rfl⟩) h h0
    simp only [metadata, Prod.mk.injEq] at hf
    rw [sprintf_outnamenew_take, hphy hlt, hf.2.2.2]
    decide

/-- The hypotheses of `metadata_survives_start_marker` hold at the start of the run on
one payload of eight words on a little-endian host where every call succeeds; the
final name starts with `x3310`. -/
theorem metadata_survives_start_marker_witness :
    iterations (envOk ByteOrder.little) oneValidPayload 0 init = Outcome.next init
    ∧ ∃ t, iterations (envOk ByteOrder.little) oneValidPayload 8 init = Outcome.next t
        ∧ (sprintf_outnamenew t.w).data.take 5 = "x3310".data :=
  ⟨rfl,
   by
    obtain ⟨t, -, -, h1, -, -, -, h2⟩ :=
      (metadata_survives_start_marker (envOk ByteOrder.little)
        ⟨fun _ => by simp [envOk], fun _ => rfl⟩ oneValidPayload 0 init rfl rfl
        [] [1, 2, 3, 4, 5] 0
        ⟨by decide, by decide, by decide, by decide, by decide, by decide, by decide,
          by decide, trivial⟩
        (by decide) (by decide) (by decide) (by decide)).2
    exact ⟨t, h1, h2 (by decide) rfl⟩⟩

end ReadMarvellFw
